import Mathlib

/-!
# data-fetcher: output-mode file writing and the poll loop

A shallow embedding of `main.go` (and of `runApplication` from `main_test.go`).

* Go strings and byte slices are lists of bytes.
* The functions of `path/filepath`, `os`, `time` and `net/http` that the program
  calls are external to the repository; they are modelled here after their Unix
  behaviour (no symbolic links, no permissions, no quotas); path names are
  subject to `NAME_MAX`, `PATH_MAX` and the ban on NUL bytes.
* The filesystem is an explicit state; the network and the clock are oracles
  indexed by the cycle number.
-/

namespace DataFetcher

/-! ## Strings -/

/-- A Go `byte`. -/
abbrev Byte := UInt8

/-- A Go `string` or `[]byte`: a finite sequence of bytes. -/
abbrev Str := List Byte

/-- The UTF-8 bytes of a literal. -/
def bytes (s : String) : Str := s.toUTF8.data.toList

/-- The path separator `filepath.Separator`, the byte of `/`. -/
def sep : Byte := 47

/-- The byte of `.`. -/
def dot : Byte := 46

/-- The byte of `_`. -/
def underscore : Byte := 95

/-- The one-element path `.`. -/
def dotStr : Str := [dot]

/-- The one-element path `..`. -/
def dotdotStr : Str := [dot, dot]

/-- `strings.Join(elems, "/")`. -/
def joinSep : List Str → Str
  | [] => []
  | [e] => e
  | e :: f :: es => e ++ sep :: joinSep (f :: es)

/-- The elements of a path between separators (empty elements included):
`a//b` has the elements `a`, the empty string and `b`. -/
def splitSep : Str → List Str
  | [] => [[]]
  | c :: cs =>
    if c = sep then [] :: splitSep cs
    else
      match splitSep cs with
      | [] => [[c]]
      | h :: t => (c :: h) :: t

/-! ## `path/filepath` on Unix -/

/-- One step of the loop of `filepath.Clean`: the element `c` is read and the
output elements written so far (`st`, last element first) are updated.
Empty elements and `.` are dropped; `..` removes the last written element when
there is one that is not itself `..`, is dropped at the root of a rooted path,
and is written otherwise; any other element is written. -/
def cleanStep (rooted : Bool) (st : List Str) (c : Str) : List Str :=
  if c = [] ∨ c = dotStr then st
  else if c = dotdotStr then
    match st with
    | [] => if rooted then [] else [dotdotStr]
    | top :: rest => if top = dotdotStr then (if rooted then st else dotdotStr :: st) else rest
  else c :: st

/-- The string `filepath.Clean` returns for the written elements `st` (last
element first): the elements joined by single separators, after the root
separator of a rooted path, and `.` when nothing at all was written. -/
def renderPath (rooted : Bool) (st : List Str) : Str :=
  if rooted then sep :: joinSep st.reverse
  else if st = [] then dotStr
  else joinSep st.reverse

/-- Whether a path starts at the root. -/
def isRooted (path : Str) : Bool := path.head? = some sep

/-- `filepath.Clean`. -/
def Clean (path : Str) : Str :=
  renderPath (isRooted path) ((splitSep path).foldl (cleanStep (isRooted path)) [])

/-- The prefix of a path up to and including its last separator
(`path[:i+1]` in `filepath.Dir`), empty when there is no separator. -/
def dirPart (path : Str) : Str :=
  (path.reverse.dropWhile (fun c => c != sep)).reverse

/-- `filepath.Dir`. -/
def Dir (path : Str) : Str := Clean (dirPart path)

/-- A path without its trailing separators. -/
def stripTrailingSep (path : Str) : Str :=
  (path.reverse.dropWhile (fun c => c == sep)).reverse

/-- What follows the last separator of a path (the whole path when there is none). -/
def lastElement (path : Str) : Str :=
  (path.reverse.takeWhile (fun c => c != sep)).reverse

/-- `filepath.Base`. -/
def Base (path : Str) : Str :=
  if path = [] then dotStr
  else
    let e := lastElement (stripTrailingSep path)
    if e = [] then [sep] else e

/-- The backwards scan of `filepath.Ext`: `rev` holds the bytes not yet
visited, last byte of the path first, and `acc` the bytes already visited. -/
def extScan : Str → Str → Str
  | [], _ => []
  | c :: rev, acc =>
    if c = sep then []
    else if c = dot then c :: acc
    else extScan rev (c :: acc)

/-- `filepath.Ext`. -/
def Ext (path : Str) : Str := extScan path.reverse []

/-- `filepath.Join`. -/
def Join : List Str → Str
  | [] => []
  | e :: es => if e = [] then Join es else Clean (joinSep (e :: es))

/-! ## `time` -/

/-- A reading of the clock (`time.Now()`): the instant, in seconds since
1970-01-01T00:00:00Z, and the offset east of UTC, in seconds, that the local
time zone has at that instant. -/
structure Time where
  unix : Int
  offset : Int
deriving DecidableEq

/-- Days since 0001-01-01 of the local date of a reading. -/
def Time.absDays (t : Time) : Int := (t.unix + t.offset) / 86400 + 719162

/-- Second of the local day of a reading. -/
def Time.secondOfDay (t : Time) : Int := (t.unix + t.offset) % 86400

/-- `isLeap` of package `time`. -/
def isLeap (year : Int) : Bool :=
  year % 4 = 0 ∧ (year % 100 ≠ 0 ∨ year % 400 = 0)

/-- The table `daysBefore` of package `time`: the days of a non-leap year
before the month with the given index. -/
def daysBefore : Nat → Int
  | 0 => 0
  | 1 => 31
  | 2 => 59
  | 3 => 90
  | 4 => 120
  | 5 => 151
  | 6 => 181
  | 7 => 212
  | 8 => 243
  | 9 => 273
  | 10 => 304
  | 11 => 334
  | _ => 365

/-- The year and the day within the year of a day number (days since
0001-01-01), by cutting off 400-year, 100-year, 4-year and 1-year cycles as
`absDate` of package `time` does. -/
def yearAndDay (d : Int) : Int × Int :=
  let n400 := d / 146097
  let d1 := d - 146097 * n400
  let c100 := d1 / 36524
  let n100 := c100 - c100 / 4
  let d2 := d1 - 36524 * n100
  let n4 := d2 / 1461
  let d3 := d2 - 1461 * n4
  let c1 := d3 / 365
  let n1 := c1 - c1 / 4
  (1 + 400 * n400 + 100 * n100 + 4 * n4 + n1, d3 - 365 * n1)

/-- The month (January is 1) and the day of the month of day `yday` of a year,
as the second half of `absDate` computes them. -/
def monthAndDay (leap : Bool) (yday : Int) : Int × Int :=
  if leap ∧ yday = 59 then (2, 29)
  else
    let day := if leap ∧ yday > 59 then yday - 1 else yday
    let month := (day / 31).toNat
    let fin := daysBefore (month + 1)
    if day ≥ fin then ((month : Int) + 2, day - fin + 1)
    else ((month : Int) + 1, day - daysBefore month + 1)

/-- The decimal digits of a number, last digit first; `fuel` bounds their count. -/
def decimalRev : Nat → Nat → Str
  | 0, _ => []
  | fuel + 1, n =>
    (48 + (n % 10).toUInt8) :: (if n < 10 then [] else decimalRev fuel (n / 10))

/-- The decimal digits of a number. -/
def decimal (n : Nat) : Str := (decimalRev (n + 1) n).reverse

/-- `appendInt` of package `time`: the decimal form of `x`, padded with zeros
to `width` digits, after a minus sign when `x` is negative. -/
def appendInt (x : Int) (width : Nat) : Str :=
  (if x < 0 then [45] else []) ++
    List.replicate (width - (decimal x.natAbs).length) 48 ++ decimal x.natAbs

/-- `t.Format("20060102150405")`: the local date and time of the reading as
`YYYYMMDDHHMMSS`. -/
def formatTimestamp (t : Time) : Str :=
  let yd := yearAndDay t.absDays
  let md := monthAndDay (isLeap yd.1) yd.2
  let s := t.secondOfDay
  appendInt yd.1 4 ++ appendInt md.1 2 ++ appendInt md.2 2 ++
    appendInt (s / 3600) 2 ++ appendInt (s % 3600 / 60) 2 ++ appendInt (s % 60) 2

/-! ## `os`: the filesystem -/

/-- Results of fallible calls can be compared. -/
instance decEqExcept {ε α : Type} [DecidableEq ε] [DecidableEq α] : DecidableEq (Except ε α)
  | .ok a, .ok b =>
    if h : a = b then isTrue (by rw [h]) else isFalse (fun h' => h (by cases h'; rfl))
  | .error a, .error b =>
    if h : a = b then isTrue (by rw [h]) else isFalse (fun h' => h (by cases h'; rfl))
  | .ok _, .error _ => isFalse (fun h => by cases h)
  | .error _, .ok _ => isFalse (fun h => by cases h)

/-- What a location of the filesystem holds. -/
inductive Node where
  | dir
  | file (content : Str)
deriving DecidableEq

/-- The causes of failure the model distinguishes. -/
inductive Errno where
  | ENOENT
  | ENOTDIR
  | EISDIR
  | EBADF
  | ENAMETOOLONG
  | EINVAL
deriving DecidableEq

/-- The constant `NAME_MAX`: the most bytes an element of a path may have. -/
def NAME_MAX : Nat := 255

/-- The constant `PATH_MAX`: the bytes of a path and its terminating NUL may
not be more. -/
def PATH_MAX : Nat := 4096

/-- What is wrong with a path before any element of it is looked up: a NUL
byte (`EINVAL`, from the conversion to a C string), no byte at all (`ENOENT`),
or `PATH_MAX` bytes or more (`ENAMETOOLONG`). -/
def pathError (path : Str) : Option Errno :=
  if (0 : Byte) ∈ path then some Errno.EINVAL
  else if path = [] then some Errno.ENOENT
  else if PATH_MAX ≤ path.length then some Errno.ENAMETOOLONG
  else none

/-- A filesystem: what each absolute location (the list of names leading to it
from the root) holds, and the working directory of the process. -/
structure FS where
  node : List Str → Option Node
  cwd : List Str

/-- The node at a location; the root is always a directory. -/
def FS.lookup (fs : FS) (loc : List Str) : Option Node :=
  if loc = [] then some Node.dir else fs.node loc

/-- The filesystem with `n` stored at `loc`. -/
def FS.set (fs : FS) (loc : List Str) (n : Node) : FS :=
  { fs with node := fun p => if p = loc then some n else fs.node p }

/-- Where the walk of a path starts: the root for a rooted path, the working
directory otherwise. -/
def startDir (fs : FS) (path : Str) : List Str :=
  if isRooted path then [] else fs.cwd

/-- The kernel's walk through the directory elements `elems` from the
directory at `cur`: empty elements and `.` stay, `..` moves to the parent and a
name enters the directory of that name, which must exist; a name of more than
`NAME_MAX` bytes is refused. -/
def walk (fs : FS) : List Str → List Str → Except Errno (List Str)
  | cur, [] => .ok cur
  | cur, c :: cs =>
    if c = [] ∨ c = dotStr then walk fs cur cs
    else if c = dotdotStr then walk fs cur.dropLast cs
    else if NAME_MAX < c.length then .error Errno.ENAMETOOLONG
    else
      match fs.lookup (cur ++ [c]) with
      | some Node.dir => walk fs (cur ++ [c]) cs
      | some (Node.file _) => .error Errno.ENOTDIR
      | none => .error Errno.ENOENT

/-- The non-empty elements of a path. -/
def pathElems (path : Str) : List Str := (splitSep path).filter (fun e => e ≠ [])

/-- The directory a path names, when the path is acceptable, the walk starts
in an existing directory and every element is an existing directory. -/
def resolveDir (fs : FS) (path : Str) : Except Errno (List Str) :=
  match pathError path with
  | some e => .error e
  | none =>
    if fs.lookup (startDir fs path) = some Node.dir then
      walk fs (startDir fs path) (splitSep path)
    else .error Errno.ENOENT

/-- The directory entry a path names, as `open` with `O_CREAT` resolves it: the
directory reached by walking all elements but the last, and the last element.
A path that `pathError` refuses names nothing, nor does a relative path when
the working directory is gone or a last element of more than `NAME_MAX` bytes;
a path that names a directory as such (it consists of separators, or ends in a
separator, in `.` or in `..`) names no entry that could be opened for writing. -/
def resolveEntry (fs : FS) (path : Str) : Except Errno (List Str × Str) :=
  match pathError path with
  | some e => .error e
  | none =>
    if fs.lookup (startDir fs path) = some Node.dir then
      match (pathElems path).getLast? with
      | none => .error Errno.EISDIR
      | some name =>
        match walk fs (startDir fs path) (pathElems path).dropLast with
        | .error e => .error e
        | .ok d =>
          if path.getLast? = some sep then .error Errno.EISDIR
          else if name = dotStr ∨ name = dotdotStr then .error Errno.EISDIR
          else if NAME_MAX < name.length then .error Errno.ENAMETOOLONG
          else .ok (d, name)
    else .error Errno.ENOENT

/-- The flags of `os.OpenFile` besides `O_WRONLY|O_CREATE`, which every call
of the program sets. -/
structure OpenFlags where
  append : Bool
  trunc : Bool
deriving DecidableEq

/-- An open file (`*os.File`): the name it was opened with, the location it
refers to, whether writes append, and the write position. -/
structure File where
  name : Str
  loc : List Str
  append : Bool
  offset : Nat
deriving DecidableEq

/-- `os.OpenFile(name, O_WRONLY|O_CREATE|flags, 0644)`: an absent file is
created empty, an existing file is emptied under `O_TRUNC`, a directory
cannot be opened for writing. -/
def OpenFile (fs : FS) (name : Str) (flags : OpenFlags) : Except Errno File × FS :=
  match resolveEntry fs name with
  | .error e => (.error e, fs)
  | .ok (d, n) =>
    match fs.lookup (d ++ [n]) with
    | some Node.dir => (.error Errno.EISDIR, fs)
    | some (Node.file _) =>
      (.ok ⟨name, d ++ [n], flags.append, 0⟩,
        if flags.trunc then fs.set (d ++ [n]) (Node.file []) else fs)
    | none => (.ok ⟨name, d ++ [n], flags.append, 0⟩, fs.set (d ++ [n]) (Node.file []))

/-- The content of a file after `data` is written at position `off`. -/
def writeAt (content : Str) (off : Nat) (data : Str) : Str :=
  content.take off ++ List.replicate (off - content.length) 0 ++ data ++
    content.drop (off + data.length)

/-- `file.Write(data)`: the bytes go to the end of the file under `O_APPEND`
and to the write position otherwise. -/
def File.Write (fs : FS) (f : File) (data : Str) : Except Errno Nat × FS :=
  match fs.lookup f.loc with
  | some (Node.file c) =>
    (.ok data.length,
      fs.set f.loc (Node.file (if f.append then c ++ data else writeAt c f.offset data)))
  | _ => (.error Errno.EBADF, fs)

/-- `file.Close()`: nothing of the filesystem changes. -/
def File.Close (fs : FS) (_f : File) : FS := fs

/-- `os.ReadFile(name)`: the content of the regular file a path names. -/
def ReadFile (fs : FS) (name : Str) : Except Errno Str :=
  match resolveEntry fs name with
  | .error e => .error e
  | .ok (d, n) =>
    match fs.lookup (d ++ [n]) with
    | some (Node.file c) => .ok c
    | some Node.dir => .error Errno.EISDIR
    | none => .error Errno.ENOENT

/-- The loop of `os.MkdirAll` over the elements of the path: directories that
exist are entered, missing ones are created, a regular file in the way or a
name of more than `NAME_MAX` bytes is an error. -/
def mkdirWalk : FS → List Str → List Str → Option Errno × FS
  | fs, _, [] => (none, fs)
  | fs, cur, c :: cs =>
    if c = [] ∨ c = dotStr then mkdirWalk fs cur cs
    else if c = dotdotStr then mkdirWalk fs cur.dropLast cs
    else if NAME_MAX < c.length then (some Errno.ENAMETOOLONG, fs)
    else
      match fs.lookup (cur ++ [c]) with
      | some Node.dir => mkdirWalk fs (cur ++ [c]) cs
      | some (Node.file _) => (some Errno.ENOTDIR, fs)
      | none => mkdirWalk (fs.set (cur ++ [c]) Node.dir) (cur ++ [c]) cs

/-- `os.MkdirAll(path, 0755)`. -/
def MkdirAll (fs : FS) (path : Str) : Option Errno × FS :=
  match pathError path with
  | some e => (some e, fs)
  | none =>
    if fs.lookup (startDir fs path) = some Node.dir then
      mkdirWalk fs (startDir fs path) (splitSep path)
    else (some Errno.ENOENT, fs)

/-! ## The world outside the process -/

/-- What one HTTP exchange gives: `http.Get` fails, or the response arrives and
reading its body fails, or the body is read. -/
inductive FetchOutcome where
  | getFailed (cause : Nat)
  | readFailed (cause : Nat)
  | body (content : Str)
deriving DecidableEq

/-- The network and the clock: the outcome of the GET of a URL issued in cycle
`k`, and the clock reading of cycle `k`. -/
structure Env where
  http : Str → Nat → FetchOutcome
  clock : Nat → Time

/-- A Go `error` value of the program. -/
inductive Err where
  | sys (e : Errno)
  | get (cause : Nat)
  | read (cause : Nat)
  | wrapped (context : String) (e : Err)
deriving DecidableEq

/-- What the process does that is visible from outside, besides the filesystem. -/
inductive Event where
  | createDirs (outputFile : Str)
  | httpGet (url : Str)
  | save (data : Str) (outputFile : Str) (outputMode : Str)
  | sleep (nanoseconds : Int)
  | printSaved (outputFile : Str)
  | printFetchError (e : Err)
  | printDirError (e : Err)
deriving DecidableEq

/-- The state a run threads through: the filesystem and the events so far,
oldest first. -/
structure World where
  fs : FS
  trace : List Event

/-- The world after one more event. -/
def World.emit (w : World) (e : Event) : World := { w with trace := w.trace ++ [e] }

/-! ## `main.go` -/

/-- The type `Configuration`. -/
structure Configuration where
  Frequency : Int
  OutputFile : Str
  OutputMode : Str
  APIURL : Str

/-- The constant `OverwriteOutput`. -/
def OverwriteOutput : Str := bytes "overwrite"

/-- The constant `CreateNewOutput`: a new file per write, named after the time. -/
def CreateNewOutput : Str := bytes "create"

/-- The constant `AppendToOutput`. -/
def AppendToOutput : Str := bytes "append"

/-- The function `createOutputDirectories`. -/
def createOutputDirectories (fs : FS) (outputFile : Str) : Option Errno × FS :=
  let dir := Dir outputFile
  if dir ≠ dotStr ∧ dir ≠ [sep] then
    match MkdirAll fs dir with
    | (some err, fs1) => (some err, fs1)
    | (none, fs1) => (none, fs1)
  else (none, fs)

/-- The value of `fmt.Sprintf("%s_%s%s", fileName, timeStamp, ext)` in
`openOutputFile`: the base name of `outputFile` with the timestamp of `now`
before its extension. -/
def timestampedName (now : Time) (outputFile : Str) : Str :=
  let baseName := Base outputFile
  let ext := Ext outputFile
  let fileName := baseName.take (baseName.length - ext.length)
  let timeStamp := formatTimestamp now
  fileName ++ [underscore] ++ timeStamp ++ ext

/-- The path `openOutputFile` opens: in mode `create` the directory of
`outputFile` joined with `fileName_timeStamp ext`, otherwise `outputFile`. -/
def targetPath (now : Time) (outputFile : Str) (outputMode : Str) : Str :=
  if outputMode = CreateNewOutput then
    let dir := Dir outputFile
    Join [dir, timestampedName now outputFile]
  else outputFile

/-- The function `openOutputFile`; `now` is the reading `time.Now()` gives. -/
def openOutputFile (now : Time) (fs : FS) (outputFile : Str) (outputMode : Str) :
    Except Errno File × FS :=
  let outputFile := targetPath now outputFile outputMode
  if outputMode = AppendToOutput then
    OpenFile fs outputFile { append := true, trunc := false }
  else
    OpenFile fs outputFile { append := false, trunc := true }

/-- The function `saveDataToFile`: the returned error and the filesystem left behind. -/
def saveDataToFile (now : Time) (fs : FS) (data : Str) (outputFile : Str) (outputMode : Str) :
    Option Errno × FS :=
  match openOutputFile now fs outputFile outputMode with
  | (.error err, fs1) => (some err, fs1)
  | (.ok file, fs1) =>
    match file.Write fs1 data with
    | (.error err, fs2) => (some err, file.Close fs2)
    | (.ok _, fs2) => (none, file.Close fs2)

/-- The payload `fetchDataFromAPI` saves. -/
def placeholder : Str := bytes "API response ignored"

/-- The function `fetchDataFromAPI`, in cycle `k`. -/
def fetchDataFromAPI (env : Env) (k : Nat) (w : World) (apiURL : Str) (outputFile : Str)
    (outputMode : Str) : Option Err × World :=
  let w1 := w.emit (Event.httpGet apiURL)
  match env.http apiURL k with
  | FetchOutcome.getFailed c => (some (Err.get c), w1)
  | FetchOutcome.readFailed c => (some (Err.read c), w1)
  | FetchOutcome.body _ =>
    let w2 := w1.emit (Event.save placeholder outputFile outputMode)
    match saveDataToFile (env.clock k) w2.fs placeholder outputFile outputMode with
    | (some err, fs1) => (some (Err.sys err), { w2 with fs := fs1 })
    | (none, fs1) => (none, ({ w2 with fs := fs1 } : World).emit (Event.printSaved outputFile))

/-- The value `time.Duration(frequency) * time.Second`, a 64-bit count of nanoseconds. -/
def sleepDuration (frequency : Int) : Int :=
  (frequency * 1000000000 + 2 ^ 63) % 2 ^ 64 - 2 ^ 63

/-- One pass through the body of the loop of `main`: cycle `k`. -/
def mainCycle (env : Env) (config : Configuration) (k : Nat) (w : World) : World :=
  let r := fetchDataFromAPI env k w config.APIURL config.OutputFile config.OutputMode
  let w1 :=
    match r.1 with
    | some err => r.2.emit (Event.printFetchError err)
    | none => r.2
  w1.emit (Event.sleep (sleepDuration config.Frequency))

/-- The loop of `main` observed for `n` cycles, the next one being cycle `k`. -/
def mainLoop (env : Env) (config : Configuration) : Nat → Nat → World → World
  | 0, _, w => w
  | n + 1, k, w => mainLoop env config n (k + 1) (mainCycle env config k w)

/-- The function `main` for the parsed configuration `config`, observed until
it returns or has completed `n` cycles: whether it has returned, and the world. -/
def main (env : Env) (config : Configuration) (n : Nat) (w : World) : Bool × World :=
  let w0 := w.emit (Event.createDirs config.OutputFile)
  match createOutputDirectories w0.fs config.OutputFile with
  | (some err, fs1) =>
    (true, ({ w0 with fs := fs1 } : World).emit (Event.printDirError (Err.sys err)))
  | (none, fs1) => (false, mainLoop env config n 0 { w0 with fs := fs1 })

/-! ## `main_test.go` -/

/-- The variable `MAX_ITERATIONS`. -/
def MAX_ITERATIONS : Nat := 5

/-- The loop of `runApplication` with `n` iterations left, the next one being
cycle `i`. -/
def runLoop (env : Env) (config : Configuration) : Nat → Nat → World → Option Err × World
  | 0, _, w => (none, w)
  | n + 1, i, w =>
    match fetchDataFromAPI env i w config.APIURL config.OutputFile config.OutputMode with
    | (some err, w1) => (some (Err.wrapped "Error fetching data" err), w1)
    | (none, w1) =>
      runLoop env config n (i + 1) (w1.emit (Event.sleep (sleepDuration config.Frequency)))

/-- The function `runApplication`, `maxIterations` being the value of
`MAX_ITERATIONS`. -/
def runApplication (env : Env) (maxIterations : Nat) (config : Configuration) (w : World) :
    Option Err × World :=
  let w0 := w.emit (Event.createDirs config.OutputFile)
  match createOutputDirectories w0.fs config.OutputFile with
  | (some err, fs1) =>
    (some (Err.wrapped "Error creating output directories" (Err.sys err)), { w0 with fs := fs1 })
  | (none, fs1) => runLoop env config maxIterations 0 { w0 with fs := fs1 }

/-! ## Predicates of the statements -/

/-- Every directory of `a` is a directory of `b`, and both have the same
working directory. -/
def FS.DirsWithin (a b : FS) : Prop :=
  a.cwd = b.cwd ∧ ∀ p, a.lookup p = some Node.dir → b.lookup p = some Node.dir

/-- The content a location has as a regular file; empty when no file is there. -/
def contentAt (fs : FS) (loc : List Str) : Str :=
  match fs.lookup loc with
  | some (Node.file c) => c
  | _ => []

/-- A path element that names an entry: not empty, without separator, and
neither `.` nor `..`. -/
def IsName (s : Str) : Prop := s ≠ [] ∧ sep ∉ s ∧ s ≠ dotStr ∧ s ≠ dotdotStr

/-- What holds of the elements `filepath.Clean` has written: none is empty,
contains a separator or is `.`, and none is `..` in a rooted path. -/
def Written (rooted : Bool) (st : List Str) : Prop :=
  ∀ e ∈ st, e ≠ [] ∧ sep ∉ e ∧ e ≠ dotStr ∧ (rooted = true → e ≠ dotdotStr)

/-- The name of the directory entry that mode `create` writes for
`outputFile` at the reading `now`: the timestamped name, without the separator
it starts with when `outputFile` consists of separators only. -/
def entryName (now : Time) (outputFile : Str) : Str :=
  if Base outputFile = [sep] then underscore :: formatTimestamp now
  else timestampedName now outputFile

/-- The number a string of decimal digits, last digit first, stands for. -/
def valRev : Str → Nat
  | [] => 0
  | b :: r => (b.toNat - 48) + 10 * valRev r

/-- The integer a decimal string with an optional minus sign stands for. -/
def parseInt (s : Str) : Int :=
  if s.head? = some 45 then -(valRev s.tail.reverse : Int) else valRev s.reverse

/-- A filesystem that holds nothing but the root directory, which is also the
working directory. -/
def emptyFS : FS := { node := fun _ => none, cwd := [] }

/-- The filesystem `b` is `a` with, at most, directories added where `a` held
nothing. -/
def FS.OnlyNewDirs (a b : FS) : Prop :=
  a.cwd = b.cwd ∧
    ∀ p, b.lookup p = a.lookup p ∨ (a.lookup p = none ∧ b.lookup p = some Node.dir)

/-- Whether an event is a call of `http.Get`. -/
def Event.isGet : Event → Bool
  | Event.httpGet _ => true
  | _ => false

/-- Whether an event is a call of `time.Sleep`. -/
def Event.isSleep : Event → Bool
  | Event.sleep _ => true
  | _ => false

/-- Whether an event is a call of `createOutputDirectories`. -/
def Event.isCreateDirs : Event → Bool
  | Event.createDirs _ => true
  | _ => false

/-- Whether an event is a call of `saveDataToFile`. -/
def Event.isSave : Event → Bool
  | Event.save _ _ _ => true
  | _ => false

/-- An outcome of an HTTP exchange without the content of the body. -/
def FetchOutcome.forget : FetchOutcome → FetchOutcome
  | FetchOutcome.body _ => FetchOutcome.body []
  | o => o

/-- Two environments that differ at most in the content of the bodies fetched. -/
def SameButPayload (a b : Env) : Prop :=
  a.clock = b.clock ∧ ∀ url k, (a.http url k).forget = (b.http url k).forget

/-- An environment in which every exchange fails at `http.Get`. -/
def offlineEnv : Env := { http := fun _ _ => FetchOutcome.getFailed 0, clock := fun _ => ⟨0, 0⟩ }

/-- An environment in which every exchange delivers the body `content`. -/
def onlineEnv (content : Str) : Env :=
  { http := fun _ _ => FetchOutcome.body content, clock := fun k => ⟨k, 0⟩ }

/-- A configuration for the examples: one second between cycles, output to
`output.json` in the working directory. -/
def sampleConfig (mode : Str) : Configuration :=
  { Frequency := 1, OutputFile := bytes "output.json", OutputMode := mode, APIURL := bytes "u" }

/-- The world before a run on an empty filesystem. -/
def emptyWorld : World := { fs := emptyFS, trace := [] }

/-- A world whose working directory holds the regular file `out`. -/
def blockedWorld : World :=
  { fs := emptyFS.set [bytes "out"] (Node.file (bytes "old")), trace := [] }

/-- A configuration whose output directory is the path of that regular file. -/
def blockedConfig : Configuration :=
  { Frequency := 1, OutputFile := bytes "out/x.json", OutputMode := OverwriteOutput,
    APIURL := bytes "u" }

/-- An acceptable path name: `pathError` finds nothing wrong with it, and no
element of it has more than `NAME_MAX` bytes. -/
def ValidPath (p : Str) : Prop := pathError p = none ∧ ∀ e ∈ splitSep p, e.length ≤ NAME_MAX

/-- Whether an element of a path is neither empty nor `.`. -/
def properElem (e : Str) : Bool := decide (e ≠ [] ∧ e ≠ dotStr)

/-- The names of the directories on the way to the last element of a path: its
elements before the last, without the empty ones and `.`. -/
def dirNames (path : Str) : List Str := (splitSep path).dropLast.filter properElem

/-- The name of the directory entry `saveDataToFile` writes: the timestamped
name in mode `create`, the last element of the output path otherwise. -/
def targetEntry (now : Time) (outputFile : Str) (outputMode : Str) : Str :=
  if outputMode = CreateNewOutput then entryName now outputFile else lastElement outputFile

instance decIsName (s : Str) : Decidable (IsName s) := by
  unfold IsName; infer_instance

instance decValidPath (p : Str) : Decidable (ValidPath p) := by
  unfold ValidPath; infer_instance

/-- A filesystem whose working directory holds the directory `a`. -/
def partFS : FS := emptyFS.set [bytes "a"] Node.dir


/-- A configuration whose interval, in nanoseconds, is past the range of a
64-bit `time.Duration`. -/
def longConfig : Configuration :=
  { Frequency := 9223372037, OutputFile := bytes "output.json", OutputMode := OverwriteOutput,
    APIURL := bytes "u" }

/-- A file name of 300 bytes, more than `NAME_MAX`. -/
def longName : Str := List.replicate 300 97

/-- A file name with a NUL byte in it. -/
def nulName : Str := [97, 0, 98]

/-- A file name of 250 bytes, within `NAME_MAX`; with the fifteen bytes of a
timestamp it is not. -/
def nearLongName : Str := List.replicate 250 97


/-! ## Paths: extension and base name -/

theorem extScan_suffix (rev acc : Str) :
    extScan rev acc <:+ (rev.takeWhile (fun c => c != sep)).reverse ++ acc := by
  induction rev generalizing acc with
  | nil => simp [extScan]
  | cons c rev ih =>
    unfold extScan
    by_cases hs : c = sep
    · simp [hs]
    · by_cases hd : c = dot
      · simp [hs, hd, List.takeWhile_cons]
        subst hd
        simp [hs]
      · have := ih (c :: acc)
        simp [hs, hd, List.takeWhile_cons]
        simpa using this

theorem ext_suffix_lastElement (path : Str) : Ext path <:+ lastElement path := by
  have := extScan_suffix path.reverse []
  simpa [Ext, lastElement] using this

theorem lastElement_suffix_base (path : Str) : lastElement path <:+ Base path := by
  unfold Base
  by_cases hp : path = []
  · subst hp; simp [lastElement]
  · simp only [hp, if_false]
    rcases hr : path.reverse with _ | ⟨c, r⟩
    · simp at hr; exact absurd hr hp
    · by_cases hs : c = sep
      · have : lastElement path = [] := by simp [lastElement, hr, hs]
        rw [this]; exact List.nil_suffix
      · have h1 : stripTrailingSep path = path := by
          have : path = (c :: r).reverse := by rw [← hr]; simp
          simp [stripTrailingSep, hr, List.dropWhile_cons, hs, this]
        have h2 : lastElement path ≠ [] := by
          simp [lastElement, hr, List.takeWhile_cons, hs]
        simp [h1, h2]

/-- The extension is a suffix of the base name, and the base name without it
followed by it is the base name. -/
theorem ext_base_split (path : Str) :
    Ext path <:+ Base path ∧
      (Base path).take ((Base path).length - (Ext path).length) ++ Ext path = Base path := by
  obtain ⟨t, ht⟩ := (ext_suffix_lastElement path).trans (lastElement_suffix_base path)
  refine ⟨⟨t, ht⟩, ?_⟩
  rw [← ht]
  simp

/-- C10: the extension of a path is a suffix of its base name, so the slice
`baseName[:len(baseName)-len(ext)]` of `openOutputFile` is within bounds, and the
stem it yields followed by the extension is the base name. -/
theorem ext_suffix_base (path : Str) :
    Ext path <:+ Base path ∧ (Ext path).length ≤ (Base path).length ∧
      (Base path).take ((Base path).length - (Ext path).length) ++ Ext path = Base path := by
  have h : Ext path <:+ Base path :=
    (ext_suffix_lastElement path).trans (lastElement_suffix_base path)
  refine ⟨h, h.length_le, ?_⟩
  obtain ⟨t, ht⟩ := h
  rw [← ht]
  simp

/-! ## The filesystem: frame lemmas -/

theorem FS.ext_eq {a b : FS} (hn : a.node = b.node) (hc : a.cwd = b.cwd) : a = b := by
  cases a; cases b; simp_all

theorem FS.lookup_set (fs : FS) (loc p : List Str) (nd : Node) (hloc : loc ≠ []) :
    (fs.set loc nd).lookup p = if p = loc then some nd else fs.lookup p := by
  unfold FS.lookup FS.set
  by_cases hp : p = loc
  · subst hp; simp [hloc]
  · simp [hp]

theorem FS.set_set (fs : FS) (loc : List Str) (a b : Node) :
    (fs.set loc a).set loc b = fs.set loc b := by
  apply FS.ext_eq
  · funext p; simp only [FS.set]; split <;> rfl
  · rfl

theorem FS.cwd_set (fs : FS) (loc : List Str) (nd : Node) : (fs.set loc nd).cwd = fs.cwd := rfl

theorem FS.DirsWithin.refl (a : FS) : FS.DirsWithin a a := ⟨rfl, fun _ h => h⟩

theorem FS.DirsWithin.trans {a b c : FS} (h1 : FS.DirsWithin a b) (h2 : FS.DirsWithin b c) :
    FS.DirsWithin a c :=
  ⟨h1.1.trans h2.1, fun p h => h2.2 p (h1.2 p h)⟩

theorem FS.dirsWithin_set (fs : FS) (loc : List Str) (nd : Node)
    (h : fs.lookup loc ≠ some Node.dir) : FS.DirsWithin fs (fs.set loc nd) := by
  refine ⟨rfl, fun p hp => ?_⟩
  by_cases hloc : loc = []
  · subst hloc; simp [FS.lookup] at h
  · rw [FS.lookup_set _ _ _ _ hloc]
    by_cases hpl : p = loc
    · subst hpl; exact absurd hp h
    · simp [hpl, hp]

theorem walk_skip (fs : FS) (cur cs : List Str) (c : Str) (h : c = [] ∨ c = dotStr) :
    walk fs cur (c :: cs) = walk fs cur cs := by
  rw [walk]; simp [h]

theorem walk_dotdot (fs : FS) (cur cs : List Str) :
    walk fs cur (dotdotStr :: cs) = walk fs cur.dropLast cs := by
  rw [walk]
  have : ¬ (dotdotStr = ([] : Str) ∨ dotdotStr = dotStr) := by decide
  simp [this]

/-- A step of the walk through a name succeeds exactly when the name is not too
long, names an existing directory, and the rest of the walk succeeds from it. -/
theorem walk_name_ok (fs : FS) (cur cs D : List Str) (c : Str) (h1 : c ≠ []) (h2 : c ≠ dotStr)
    (h3 : c ≠ dotdotStr) :
    walk fs cur (c :: cs) = .ok D ↔
      c.length ≤ NAME_MAX ∧ fs.lookup (cur ++ [c]) = some Node.dir ∧
        walk fs (cur ++ [c]) cs = .ok D := by
  rw [walk]
  simp only [h1, h2, h3, or_self, if_false]
  by_cases hl : NAME_MAX < c.length
  · simp only [hl, if_true]
    constructor
    · intro h; cases h
    · intro h; omega
  · simp only [hl, if_false]
    cases hk : fs.lookup (cur ++ [c]) with
    | none => simp
    | some nd =>
      cases nd with
      | file x => simp
      | dir => simp; omega

theorem walk_mono {a b : FS} (h : FS.DirsWithin a b) (cs cur D : List Str)
    (hw : walk a cur cs = .ok D) : walk b cur cs = .ok D := by
  induction cs generalizing cur with
  | nil => simpa [walk] using hw
  | cons c cs ih =>
    by_cases h1 : c = [] ∨ c = dotStr
    · rw [walk_skip _ _ _ _ h1] at hw ⊢; exact ih _ hw
    · by_cases h2 : c = dotdotStr
      · subst h2; rw [walk_dotdot] at hw ⊢; exact ih _ hw
      · push_neg at h1
        rw [walk_name_ok _ _ _ _ _ h1.1 h1.2 h2] at hw ⊢
        exact ⟨hw.1, h.2 _ hw.2.1, ih _ hw.2.2⟩

theorem startDir_mono {a b : FS} (h : FS.DirsWithin a b) (path : Str) :
    startDir a path = startDir b path := by
  simp [startDir, h.1]

/-- When a path names an entry: it is acceptable, the walk starts in an
existing directory and leads through the elements before the last to a
directory, and the last element is a name of at most `NAME_MAX` bytes. -/
theorem resolveEntry_ok_iff (fs : FS) (path : Str) (d : List Str) (n : Str) :
    resolveEntry fs path = .ok (d, n) ↔
      pathError path = none ∧ fs.lookup (startDir fs path) = some Node.dir ∧
        (pathElems path).getLast? = some n ∧
        walk fs (startDir fs path) (pathElems path).dropLast = .ok d ∧
        path.getLast? ≠ some sep ∧ n ≠ dotStr ∧ n ≠ dotdotStr ∧ n.length ≤ NAME_MAX := by
  unfold resolveEntry
  cases hpe : pathError path with
  | some e => simp
  | none =>
    simp only [true_and]
    by_cases hs : fs.lookup (startDir fs path) = some Node.dir
    · simp only [hs, if_true, true_and]
      cases hl : (pathElems path).getLast? with
      | none => simp
      | some name =>
        simp only []
        cases hw : walk fs (startDir fs path) (pathElems path).dropLast with
        | error e => simp
        | ok d' =>
          simp only []
          by_cases h1 : path.getLast? = some sep
          · simp [h1]
          · by_cases h2 : name = dotStr ∨ name = dotdotStr
            · simp only [h1, if_false, h2, if_true]
              constructor
              · intro h; cases h
              · rintro ⟨h, _, _, h3, h4, _⟩
                simp only [Option.some.injEq] at h
                subst h
                rcases h2 with h2 | h2
                · exact absurd h2 h3
                · exact absurd h2 h4
            · by_cases h3 : NAME_MAX < name.length
              · simp only [h1, if_false, h2, h3, if_true]
                constructor
                · intro h; cases h
                · rintro ⟨h, _, _, _, _, h4⟩
                  simp only [Option.some.injEq] at h
                  subst h
                  omega
              · simp only [h1, if_false, h2, h3, Except.ok.injEq, Prod.mk.injEq,
                  Option.some.injEq, ne_eq, not_false_eq_true, true_and]
                push_neg at h2
                constructor
                · rintro ⟨rfl, rfl⟩
                  exact ⟨rfl, rfl, h2.1, h2.2, by omega⟩
                · rintro ⟨rfl, rfl, _⟩
                  exact ⟨rfl, rfl⟩
    · simp [hs]

theorem resolveDir_ok_iff (fs : FS) (path : Str) (D : List Str) :
    resolveDir fs path = .ok D ↔
      pathError path = none ∧ fs.lookup (startDir fs path) = some Node.dir ∧
        walk fs (startDir fs path) (splitSep path) = .ok D := by
  unfold resolveDir
  cases hpe : pathError path with
  | some e => simp
  | none =>
    by_cases hs : fs.lookup (startDir fs path) = some Node.dir
    · simp [hs]
    · simp [hs]

theorem resolveEntry_mono {a b : FS} (h : FS.DirsWithin a b) (path : Str) (r : List Str × Str)
    (hr : resolveEntry a path = .ok r) : resolveEntry b path = .ok r := by
  obtain ⟨d, n⟩ := r
  rw [resolveEntry_ok_iff] at hr ⊢
  obtain ⟨h1, h2, h3, h4, h5⟩ := hr
  rw [← startDir_mono h]
  exact ⟨h1, h.2 _ h2, h3, walk_mono h _ _ _ h4, h5⟩

/-! ## `saveDataToFile` in the modes that keep the path -/

theorem overwrite_ne_create : OverwriteOutput ≠ CreateNewOutput := by decide

theorem overwrite_ne_append : OverwriteOutput ≠ AppendToOutput := by decide

theorem append_ne_create : AppendToOutput ≠ CreateNewOutput := by decide

theorem writeAt_nil (data : Str) : writeAt [] 0 data = data := by
  simp [writeAt]

theorem append_ne_nil {α : Type} (d : List α) (n : α) : d ++ [n] ≠ [] := by simp

/-- Opening a path that names a free place or a regular file and writing with
truncation leaves exactly the data there. -/
theorem openWrite_trunc (fs : FS) (X P : Str) (d : List Str) (n : Str)
    (hp : resolveEntry fs X = .ok (d, n)) (hX : fs.lookup (d ++ [n]) ≠ some Node.dir) :
    (match OpenFile fs X { append := false, trunc := true } with
      | (.error err, fs1) => (some err, fs1)
      | (.ok file, fs1) =>
        match file.Write fs1 P with
        | (.error err, fs2) => (some err, file.Close fs2)
        | (.ok _, fs2) => (none, file.Close fs2)) =
      (none, fs.set (d ++ [n]) (Node.file P)) := by
  unfold OpenFile
  simp only [hp]
  cases hl : fs.lookup (d ++ [n]) with
  | none =>
    simp [File.Write, File.Close, FS.lookup_set, FS.set_set, writeAt_nil]
  | some nd =>
    cases nd with
    | dir => exact absurd hl hX
    | file c =>
      simp [File.Write, File.Close, FS.lookup_set, FS.set_set, writeAt_nil]

/-- The content a location has as a file: empty when no file is there. -/
theorem openWrite_append (fs : FS) (X P : Str) (d : List Str) (n : Str)
    (hp : resolveEntry fs X = .ok (d, n)) (hX : fs.lookup (d ++ [n]) ≠ some Node.dir) :
    (match OpenFile fs X { append := true, trunc := false } with
      | (.error err, fs1) => (some err, fs1)
      | (.ok file, fs1) =>
        match file.Write fs1 P with
        | (.error err, fs2) => (some err, file.Close fs2)
        | (.ok _, fs2) => (none, file.Close fs2)) =
      (none, fs.set (d ++ [n]) (Node.file (contentAt fs (d ++ [n]) ++ P))) := by
  unfold OpenFile
  simp only [hp]
  cases hl : fs.lookup (d ++ [n]) with
  | none =>
    simp [File.Write, File.Close, FS.lookup_set, FS.set_set, contentAt, hl]
  | some nd =>
    cases nd with
    | dir => exact absurd hl hX
    | file c =>
      simp [File.Write, File.Close, FS.lookup_set, FS.set_set, contentAt, hl]

theorem save_overwrite (now : Time) (fs : FS) (X P mode : Str) (d : List Str) (n : Str)
    (hc : mode ≠ CreateNewOutput) (ha : mode ≠ AppendToOutput)
    (hp : resolveEntry fs X = .ok (d, n)) (hX : fs.lookup (d ++ [n]) ≠ some Node.dir) :
    saveDataToFile now fs P X mode = (none, fs.set (d ++ [n]) (Node.file P)) := by
  unfold saveDataToFile openOutputFile targetPath
  simp only [hc, ha, if_false]
  exact openWrite_trunc fs X P d n hp hX

theorem save_append (now : Time) (fs : FS) (X P : Str) (d : List Str) (n : Str)
    (hp : resolveEntry fs X = .ok (d, n)) (hX : fs.lookup (d ++ [n]) ≠ some Node.dir) :
    saveDataToFile now fs P X AppendToOutput =
      (none, fs.set (d ++ [n]) (Node.file (contentAt fs (d ++ [n]) ++ P))) := by
  unfold saveDataToFile openOutputFile targetPath
  simp only [append_ne_create, if_false, if_true]
  exact openWrite_append fs X P d n hp hX

theorem readFile_set (fs : FS) (X c : Str) (d : List Str) (n : Str)
    (hp : resolveEntry fs X = .ok (d, n)) (hX : fs.lookup (d ++ [n]) ≠ some Node.dir) :
    ReadFile (fs.set (d ++ [n]) (Node.file c)) X = .ok c := by
  unfold ReadFile
  rw [resolveEntry_mono (FS.dirsWithin_set fs _ _ hX) X _ hp]
  simp [FS.lookup_set]

theorem lookup_set_file_ne_dir (fs : FS) (d : List Str) (n c : Str) :
    (fs.set (d ++ [n]) (Node.file c)).lookup (d ++ [n]) ≠ some Node.dir := by
  simp [FS.lookup_set]

set_option maxRecDepth 100000 in
/-- C1, as stated, fails: the parent directory of the 300-byte name `longName`
is the working directory, which exists, and nothing is at the name; both calls
of `saveDataToFile` in mode `overwrite` return the error `ENAMETOOLONG` and no
file is written. -/
theorem overwrite_long_name :
    Dir longName = dotStr ∧
      resolveDir emptyFS (Dir longName) = .ok emptyFS.cwd ∧
      emptyFS.lookup (emptyFS.cwd ++ [longName]) = none ∧
      (saveDataToFile ⟨0, 0⟩ emptyFS (bytes "abc") longName OverwriteOutput).1 =
        some Errno.ENAMETOOLONG ∧
      (saveDataToFile ⟨0, 0⟩ (saveDataToFile ⟨0, 0⟩ emptyFS (bytes "abc") longName
        OverwriteOutput).2 (bytes "abc") longName OverwriteOutput).1 =
        some Errno.ENAMETOOLONG ∧
      (saveDataToFile ⟨0, 0⟩ (saveDataToFile ⟨0, 0⟩ emptyFS (bytes "abc") longName
        OverwriteOutput).2 (bytes "abc") longName OverwriteOutput).2.lookup
          (emptyFS.cwd ++ [longName]) = none := by
  decide

set_option maxRecDepth 100000 in
/-- C2, as stated, fails: the parent directory of the name `nulName`, which has
a NUL byte in it, is the working directory, which exists; both calls of
`saveDataToFile` in mode `append` return the error `EINVAL`, and the file does
not contain `P1 ++ P2`: it cannot be read. The same holds, with the error
`ENAMETOOLONG`, of the 300-byte name `longName`. -/
theorem append_nul_name :
    Dir nulName = dotStr ∧
      resolveDir emptyFS (Dir nulName) = .ok emptyFS.cwd ∧
      (saveDataToFile ⟨0, 0⟩ emptyFS (bytes "ab") nulName AppendToOutput).1 =
        some Errno.EINVAL ∧
      (saveDataToFile ⟨0, 0⟩ (saveDataToFile ⟨0, 0⟩ emptyFS (bytes "ab") nulName
        AppendToOutput).2 (bytes "cd") nulName AppendToOutput).1 = some Errno.EINVAL ∧
      ReadFile (saveDataToFile ⟨0, 0⟩ (saveDataToFile ⟨0, 0⟩ emptyFS (bytes "ab") nulName
        AppendToOutput).2 (bytes "cd") nulName AppendToOutput).2 nulName =
        .error Errno.EINVAL ∧
      (saveDataToFile ⟨0, 0⟩ emptyFS (bytes "ab") longName AppendToOutput).1 =
        some Errno.ENAMETOOLONG ∧
      ReadFile (saveDataToFile ⟨0, 0⟩ (saveDataToFile ⟨0, 0⟩ emptyFS (bytes "ab") longName
        AppendToOutput).2 (bytes "cd") longName AppendToOutput).2 longName =
        .error Errno.ENAMETOOLONG := by
  decide

/-- C1, amended: in mode `overwrite`, for a path `X` that the system resolves
to an entry of an existing directory (an acceptable path name: no NUL byte,
fewer than `PATH_MAX` bytes, no element of more than `NAME_MAX` bytes) holding
a regular file or nothing, two successive calls of
`saveDataToFile` with payload `P` both succeed, `X` then contains exactly `P`,
and the second call leaves the filesystem as the first left it. -/
theorem overwrite_idempotent (now1 now2 : Time) (fs : FS) (P X : Str) (d : List Str) (n : Str)
    (hp : resolveEntry fs X = .ok (d, n)) (hX : fs.lookup (d ++ [n]) ≠ some Node.dir) :
    (saveDataToFile now1 fs P X OverwriteOutput).1 = none ∧
      (saveDataToFile now2 (saveDataToFile now1 fs P X OverwriteOutput).2 P X
        OverwriteOutput).1 = none ∧
      ReadFile (saveDataToFile now2 (saveDataToFile now1 fs P X OverwriteOutput).2 P X
        OverwriteOutput).2 X = .ok P ∧
      (saveDataToFile now2 (saveDataToFile now1 fs P X OverwriteOutput).2 P X
        OverwriteOutput).2 = (saveDataToFile now1 fs P X OverwriteOutput).2 := by
  have h1 := save_overwrite now1 fs X P OverwriteOutput d n overwrite_ne_create
    overwrite_ne_append hp hX
  have hp2 := resolveEntry_mono (FS.dirsWithin_set fs _ (Node.file P) hX) X _ hp
  have h2 := save_overwrite now2 _ X P OverwriteOutput d n overwrite_ne_create
    overwrite_ne_append hp2 (lookup_set_file_ne_dir fs d n P)
  rw [h1]
  simp only [h2, FS.set_set, true_and, and_true]
  exact readFile_set fs X P d n hp hX

/-- C2, amended: in mode `append`, for a path `X` that the system resolves to
an entry of an existing directory (an acceptable path name: no NUL byte, fewer
than `PATH_MAX` bytes, no element of more than `NAME_MAX` bytes) holding a
regular file or nothing, saving `P1` and then `P2` succeeds
twice and leaves `X` containing its earlier content (empty when `X` was absent)
followed by `P1` and `P2`; from an absent or empty file the content is
`P1 ++ P2`, of length `len(P1) + len(P2)`. -/
theorem append_accumulates (now1 now2 : Time) (fs : FS) (P1 P2 X : Str) (d : List Str) (n : Str)
    (hp : resolveEntry fs X = .ok (d, n)) (hX : fs.lookup (d ++ [n]) ≠ some Node.dir) :
    (saveDataToFile now1 fs P1 X AppendToOutput).1 = none ∧
      (saveDataToFile now2 (saveDataToFile now1 fs P1 X AppendToOutput).2 P2 X
        AppendToOutput).1 = none ∧
      ReadFile (saveDataToFile now2 (saveDataToFile now1 fs P1 X AppendToOutput).2 P2 X
        AppendToOutput).2 X = .ok (contentAt fs (d ++ [n]) ++ P1 ++ P2) ∧
      (contentAt fs (d ++ [n]) = [] →
        ReadFile (saveDataToFile now2 (saveDataToFile now1 fs P1 X AppendToOutput).2 P2 X
          AppendToOutput).2 X = .ok (P1 ++ P2) ∧
        (P1 ++ P2).length = P1.length + P2.length) := by
  have h1 := save_append now1 fs X P1 d n hp hX
  have hp2 := resolveEntry_mono (FS.dirsWithin_set fs _
    (Node.file (contentAt fs (d ++ [n]) ++ P1)) hX) X _ hp
  have h2 := save_append now2 _ X P2 d n hp2 (lookup_set_file_ne_dir fs d n _)
  have hc : contentAt (fs.set (d ++ [n]) (Node.file (contentAt fs (d ++ [n]) ++ P1))) (d ++ [n]) =
      contentAt fs (d ++ [n]) ++ P1 := by
    simp [contentAt, FS.lookup_set]
  rw [h1]
  simp only [h2, hc, FS.set_set, true_and]
  have hr := readFile_set fs X (contentAt fs (d ++ [n]) ++ P1 ++ P2) d n hp hX
  refine ⟨hr, fun h0 => ?_⟩
  rw [hr, h0]
  simp

/-! ## Splitting and joining paths -/

theorem splitSep_ne_nil (s : Str) : splitSep s ≠ [] := by
  cases s with
  | nil => simp [splitSep]
  | cons c cs =>
    unfold splitSep
    split
    · simp
    · split <;> simp

theorem splitSep_cons_sep (cs : Str) : splitSep (sep :: cs) = [] :: splitSep cs := by
  rw [splitSep]; simp

theorem splitSep_cons_ne (c : Byte) (cs : Str) (hc : c ≠ sep) :
    ∃ h t, splitSep cs = h :: t ∧ splitSep (c :: cs) = (c :: h) :: t := by
  cases hs : splitSep cs with
  | nil => exact absurd hs (splitSep_ne_nil cs)
  | cons h t =>
    refine ⟨h, t, rfl, ?_⟩
    rw [splitSep]; simp [hc, hs]

theorem splitSep_of_not_mem (s : Str) (h : sep ∉ s) : splitSep s = [s] := by
  induction s with
  | nil => rfl
  | cons c cs ih =>
    simp only [List.mem_cons, not_or] at h
    obtain ⟨x, t, hx, hs⟩ := splitSep_cons_ne c cs (fun hc => h.1 hc.symm)
    rw [hs]
    rw [ih h.2] at hx
    simp at hx
    simp [hx.1, hx.2]

theorem splitSep_append (a b : Str) : splitSep (a ++ sep :: b) = splitSep a ++ splitSep b := by
  induction a with
  | nil => simp [splitSep_cons_sep, splitSep]
  | cons c cs ih =>
    simp only [List.cons_append]
    by_cases hc : c = sep
    · subst hc
      simp [splitSep_cons_sep, ih]
    · obtain ⟨x, t, hx, hs⟩ := splitSep_cons_ne c cs hc
      obtain ⟨x2, t2, hx2, hs2⟩ := splitSep_cons_ne c (cs ++ sep :: b) hc
      rw [hs, hs2]
      rw [ih, hx] at hx2
      simp at hx2
      simp [hx2.1, hx2.2]

theorem splitSep_not_mem (s e : Str) (he : e ∈ splitSep s) : sep ∉ e := by
  induction s generalizing e with
  | nil => simp [splitSep] at he; subst he; simp
  | cons c cs ih =>
    by_cases hc : c = sep
    · subst hc
      rw [splitSep_cons_sep] at he
      simp only [List.mem_cons] at he
      rcases he with rfl | he
      · simp
      · exact ih e he
    · obtain ⟨x, t, hx, hs⟩ := splitSep_cons_ne c cs hc
      rw [hs] at he
      rw [hx] at ih
      simp only [List.mem_cons] at he
      rcases he with rfl | he
      · have := ih x (by simp)
        simp only [List.mem_cons, not_or]
        exact ⟨fun h' => hc h'.symm, this⟩
      · exact ih e (by simp [he])

theorem splitSep_joinSep (L : List Str) (hL : L ≠ []) (h : ∀ e ∈ L, sep ∉ e) :
    splitSep (joinSep L) = L := by
  induction L with
  | nil => exact absurd rfl hL
  | cons e es ih =>
    cases es with
    | nil => simpa [joinSep] using splitSep_of_not_mem e (h e (by simp))
    | cons f fs =>
      simp only [joinSep]
      rw [splitSep_append, splitSep_of_not_mem e (h e (by simp)),
        ih (by simp) (fun x hx => h x (List.mem_cons_of_mem _ hx))]
      rfl

theorem joinSep_cons_cons (e f : Str) (es : List Str) :
    joinSep (e :: f :: es) = e ++ sep :: joinSep (f :: es) := rfl

theorem joinSep_append_single (L : List Str) (hL : L ≠ []) (n : Str) :
    joinSep (L ++ [n]) = joinSep L ++ sep :: n := by
  induction L with
  | nil => exact absurd rfl hL
  | cons e es ih =>
    cases es with
    | nil => simp [joinSep]
    | cons f fs =>
      have := ih (by simp)
      simp only [List.cons_append] at this ⊢
      rw [joinSep_cons_cons, this, joinSep_cons_cons]
      simp

theorem joinSep_head (L : List Str) (e : Str) (c : Byte) (r : Str) (he : e = c :: r) :
    (joinSep (e :: L)).head? = some c := by
  subst he
  cases L <;> simp [joinSep]

theorem joinSep_getLast (L : List Str) (n : Str) (hn : n ≠ []) :
    (joinSep (L ++ [n])).getLast? = n.getLast? := by
  cases L with
  | nil => simp [joinSep]
  | cons e es =>
    rw [joinSep_append_single _ (by simp)]
    rw [List.getLast?_append_of_ne_nil _ (by simp)]
    cases n with
    | nil => exact absurd rfl hn
    | cons a as => simp [List.getLast?_cons_cons]

/-! ## `filepath.Clean` and the kernel's walk -/

theorem dotStr_ne_dotdotStr : dotStr ≠ dotdotStr := by decide

theorem cleanStep_of_name (r : Bool) (st : List Str) (n : Str) (hn : IsName n) :
    cleanStep r st n = n :: st := by
  obtain ⟨h1, _, h3, h4⟩ := hn
  simp [cleanStep, h1, h3, h4]

theorem cleanStep_written (r : Bool) (st : List Str) (c : Str) (hst : Written r st)
    (hc : sep ∉ c) : Written r (cleanStep r st c) := by
  unfold cleanStep
  by_cases h1 : c = [] ∨ c = dotStr
  · simpa [h1] using hst
  · simp only [h1, if_false]
    by_cases h2 : c = dotdotStr
    · simp only [h2, if_true]
      cases st with
      | nil =>
        cases r
        · intro e he
          simp at he
          subst he
          decide
        · simpa using hst
      | cons top rest =>
        simp only
        by_cases h3 : top = dotdotStr
        · simp only [h3, if_true]
          cases r
          · intro e he
            simp only [Bool.false_eq_true, if_false, List.mem_cons] at he
            rcases he with rfl | he
            · decide
            · exact hst e (by simpa [h3] using he)
          · simpa [h3] using hst
        · simp only [h3, if_false]
          intro e he
          exact hst e (List.mem_cons_of_mem _ he)
    · simp only [h2, if_false]
      intro e he
      simp only [List.mem_cons] at he
      rcases he with rfl | he
      · push_neg at h1
        exact ⟨h1.1, hc, h1.2, fun _ => h2⟩
      · exact hst e he

theorem foldl_cleanStep_written (r : Bool) (cs : List Str) (st : List Str) (hst : Written r st)
    (hcs : ∀ c ∈ cs, sep ∉ c) : Written r (cs.foldl (cleanStep r) st) := by
  induction cs generalizing st with
  | nil => simpa using hst
  | cons c cs ih =>
    simp only [List.foldl_cons]
    exact ih _ (cleanStep_written r st c hst (hcs c (by simp)))
      (fun x hx => hcs x (List.mem_cons_of_mem _ hx))

theorem walk_append (fs : FS) (a b cur : List Str) :
    walk fs cur (a ++ b) =
      match walk fs cur a with
      | .ok c => walk fs c b
      | .error e => .error e := by
  induction a generalizing cur with
  | nil => simp [walk]
  | cons c cs ih =>
    simp only [List.cons_append]
    rw [walk, walk]
    by_cases h1 : c = [] ∨ c = dotStr
    · simp only [h1, if_true]; exact ih _
    · simp only [h1, if_false]
      by_cases h2 : c = dotdotStr
      · simp only [h2, if_true]; exact ih _
      · simp only [h2, if_false]
        by_cases h3 : NAME_MAX < c.length
        · simp only [h3, if_true]
        · simp only [h3, if_false]
          cases hl : fs.lookup (cur ++ [c]) with
          | none => rfl
          | some nd =>
            cases nd with
            | dir => exact ih _
            | file x => rfl

theorem walk_single_name (fs : FS) (cur : List Str) (n : Str) (h1 : n ≠ []) (h2 : n ≠ dotStr)
    (h3 : n ≠ dotdotStr) (D : List Str) (hw : walk fs cur [n] = .ok D) :
    D = cur ++ [n] ∧ fs.lookup (cur ++ [n]) = some Node.dir ∧ n.length ≤ NAME_MAX := by
  rw [walk_name_ok _ _ _ _ _ h1 h2 h3] at hw
  obtain ⟨a, b, c⟩ := hw
  simp only [walk, Except.ok.injEq] at c
  exact ⟨c.symm, b, a⟩

theorem walk_single_dir (fs : FS) (cur : List Str) (n : Str) (h1 : n ≠ []) (h2 : n ≠ dotStr)
    (h3 : n ≠ dotdotStr) (h4 : n.length ≤ NAME_MAX)
    (hl : fs.lookup (cur ++ [n]) = some Node.dir) :
    walk fs cur [n] = .ok (cur ++ [n]) := by
  rw [walk_name_ok _ _ _ _ _ h1 h2 h3]
  exact ⟨h4, hl, rfl⟩

/-- Cleaning keeps what a walk reaches: when the elements written so far lead
from `start` to `cur` and the remaining elements lead from `cur` to `D`, the
elements written at the end lead from `start` to `D`. -/
theorem walk_foldl_cleanStep (fs : FS) (r : Bool) (start : List Str)
    (hr : r = true → start = []) (cs : List Str) (st : List Str) (cur D : List Str)
    (hst : Written r st) (hcs : ∀ c ∈ cs, sep ∉ c)
    (h1 : walk fs start st.reverse = .ok cur) (h2 : walk fs cur cs = .ok D) :
    walk fs start (cs.foldl (cleanStep r) st).reverse = .ok D := by
  induction cs generalizing st cur with
  | nil => simp only [List.foldl_nil]; rw [h1]; simpa [walk] using h2
  | cons c cs ih =>
    simp only [List.foldl_cons]
    have hc : sep ∉ c := hcs c (by simp)
    have hcs' : ∀ x ∈ cs, sep ∉ x := fun x hx => hcs x (List.mem_cons_of_mem _ hx)
    have hw' := cleanStep_written r st c hst hc
    by_cases c1 : c = [] ∨ c = dotStr
    · rw [walk_skip fs cur cs c c1] at h2
      have : cleanStep r st c = st := by simp [cleanStep, c1]
      rw [this]
      exact ih st cur hst hcs' h1 h2
    · by_cases c2 : c = dotdotStr
      · subst c2
        rw [walk_dotdot] at h2
        cases st with
        | nil =>
          simp only [List.reverse_nil, walk] at h1
          cases h1
          cases r with
          | true =>
            have hs := hr rfl
            subst hs
            have : cleanStep true [] dotdotStr = [] := by simp [cleanStep, c1]
            rw [this]
            exact ih [] [] hst hcs' (by simp [walk]) (by simpa using h2)
          | false =>
            have : cleanStep false [] dotdotStr = [dotdotStr] := by simp [cleanStep, c1]
            rw [this]
            rw [this] at hw'
            refine ih [dotdotStr] _ hw' hcs' ?_ h2
            show walk fs start [dotdotStr] = _
            rw [walk_dotdot]; rfl
        | cons top rest =>
          have htop := hst top (by simp)
          by_cases c3 : top = dotdotStr
          · cases r with
            | true => exact absurd c3 (htop.2.2.2 rfl)
            | false =>
              have : cleanStep false (top :: rest) dotdotStr = dotdotStr :: top :: rest := by
                simp [cleanStep, c1, c3]
              rw [this]
              rw [this] at hw'
              refine ih _ cur.dropLast hw' hcs' ?_ h2
              rw [List.reverse_cons, walk_append, h1]
              show walk fs cur [dotdotStr] = _
              rw [walk_dotdot]; rfl
          · have : cleanStep r (top :: rest) dotdotStr = rest := by
              simp [cleanStep, c1, c3]
            rw [this]
            rw [this] at hw'
            rw [List.reverse_cons, walk_append] at h1
            cases hw : walk fs start rest.reverse with
            | error e => simp [hw] at h1
            | ok cur' =>
              simp only [hw] at h1
              obtain ⟨hD, _, _⟩ := walk_single_name fs cur' top htop.1 htop.2.2.1 c3 cur h1
              subst hD
              refine ih rest cur' hw' hcs' hw ?_
              simpa using h2
      · have hname : cleanStep r st c = c :: st := by simp [cleanStep, c1, c2]
        rw [hname]
        rw [hname] at hw'
        push_neg at c1
        rw [walk_name_ok _ _ _ _ _ c1.1 c1.2 c2] at h2
        refine ih (c :: st) (cur ++ [c]) hw' hcs' ?_ h2.2.2
        rw [List.reverse_cons, walk_append, h1]
        exact walk_single_dir fs cur c c1.1 c1.2 c2 h2.1 h2.2.1

/-! ## Timestamps contain no separator -/

theorem digit_ne_sep : ∀ k : Nat, k < 10 → 48 + k.toUInt8 ≠ sep ∧ 48 + k.toUInt8 ≠ underscore := by
  decide

theorem decimalRev_not_mem (fuel n : Nat) : sep ∉ decimalRev fuel n := by
  induction fuel generalizing n with
  | zero => simp [decimalRev]
  | succ f ih =>
    rw [decimalRev]
    have hd := (digit_ne_sep (n % 10) (Nat.mod_lt _ (by decide))).1
    simp only [List.mem_cons, not_or]
    refine ⟨fun h => hd h.symm, ?_⟩
    split
    · simp
    · exact ih _

theorem appendInt_not_mem (x : Int) (w : Nat) : sep ∉ appendInt x w := by
  unfold appendInt decimal
  simp only [List.mem_append, List.mem_reverse, not_or]
  refine ⟨⟨?_, ?_⟩, decimalRev_not_mem _ _⟩
  · split
    · decide
    · simp
  · intro h
    have := List.eq_of_mem_replicate h
    revert this
    decide

theorem formatTimestamp_not_mem (t : Time) : sep ∉ formatTimestamp t := by
  unfold formatTimestamp
  simp only [List.mem_append, not_or]
  refine ⟨⟨⟨⟨⟨?_, ?_⟩, ?_⟩, ?_⟩, ?_⟩, ?_⟩ <;> exact appendInt_not_mem _ _

/-! ## Resolving a cleaned path that ends in a name -/

theorem isRooted_joinSep (L : List Str) (h : ∀ e ∈ L, e ≠ [] ∧ sep ∉ e) :
    isRooted (joinSep L) = false := by
  cases L with
  | nil => simp [joinSep, isRooted]
  | cons e es =>
    obtain ⟨h1, h2⟩ := h e (by simp)
    cases e with
    | nil => exact absurd rfl h1
    | cons c r =>
      unfold isRooted
      rw [joinSep_head es (c :: r) c r rfl]
      simp only [List.mem_cons, not_or] at h2
      simp [Ne.symm h2.1]

theorem pathElems_joinSep (L : List Str) (hL : L ≠ []) (h : ∀ e ∈ L, e ≠ [] ∧ sep ∉ e) :
    pathElems (joinSep L) = L := by
  unfold pathElems
  rw [splitSep_joinSep L hL (fun e he => (h e he).2)]
  rw [List.filter_eq_self]
  intro e he
  simpa using (h e he).1

theorem pathElems_sep_cons (s : Str) : pathElems (sep :: s) = pathElems s := by
  unfold pathElems
  rw [splitSep_cons_sep]
  simp

/-- The shape of a cleaned path that ends in a name: the elements written
before the name lead where the elements read before it lead, and the cleaned
path consists of them and the name. -/
theorem Clean_shape (p : Str) (E : List Str) (n : Str) (hs : splitSep p = E ++ [n])
    (hn : IsName n) :
    ∃ st2 : List Str, Written (isRooted p) st2 ∧
      (∀ (fs : FS) (D : List Str), walk fs (startDir fs p) E = .ok D →
        walk fs (startDir fs p) st2.reverse = .ok D) ∧
      pathElems (Clean p) = st2.reverse ++ [n] ∧
      splitSep (Clean p) = (if isRooted p then [[]] else []) ++ (st2.reverse ++ [n]) ∧
      isRooted (Clean p) = isRooted p ∧
      (Clean p).getLast? ≠ some sep := by
  have hE : ∀ c ∈ E, sep ∉ c := fun c hc => splitSep_not_mem p c (by rw [hs]; simp [hc])
  have hst : Written (isRooted p) (E.foldl (cleanStep (isRooted p)) []) :=
    foldl_cleanStep_written _ E [] (by intro e he; simp at he) hE
  have hclean : Clean p =
      renderPath (isRooted p) (n :: E.foldl (cleanStep (isRooted p)) []) := by
    unfold Clean
    rw [hs, List.foldl_append]
    simp [cleanStep_of_name _ _ n hn]
  have hwalk : ∀ (fs : FS) (D : List Str), walk fs (startDir fs p) E = .ok D →
      walk fs (startDir fs p) (E.foldl (cleanStep (isRooted p)) []).reverse = .ok D := by
    intro fs D hw
    refine walk_foldl_cleanStep fs (isRooted p) (startDir fs p) ?_ E [] _ D
      (by intro e he; simp at he) hE (by simp [walk]) hw
    intro h; simp [startDir, h]
  generalize E.foldl (cleanStep (isRooted p)) [] = st2 at hst hclean hwalk
  have hL : ∀ e ∈ st2.reverse ++ [n], e ≠ [] ∧ sep ∉ e := by
    intro e he
    simp only [List.mem_append, List.mem_reverse, List.mem_singleton] at he
    rcases he with he | rfl
    · exact ⟨(hst e he).1, (hst e he).2.1⟩
    · exact ⟨hn.1, hn.2.1⟩
  have hLne : st2.reverse ++ [n] ≠ [] := by simp
  have hlast : (joinSep (st2.reverse ++ [n])).getLast? ≠ some sep := by
    rw [joinSep_getLast _ _ hn.1]
    intro h
    exact hn.2.1 (List.mem_of_getLast?_eq_some h)
  have hsplit : splitSep (joinSep (st2.reverse ++ [n])) = st2.reverse ++ [n] :=
    splitSep_joinSep _ hLne (fun e he => (hL e he).2)
  have hjne : joinSep (st2.reverse ++ [n]) ≠ [] := by
    intro h
    have := pathElems_joinSep _ hLne hL
    rw [h] at this
    simp [pathElems, splitSep] at this
  refine ⟨st2, hst, hwalk, ?_⟩
  rw [hclean]
  unfold renderPath
  cases hr : isRooted p with
  | true =>
    simp only [if_true, List.reverse_cons]
    refine ⟨?_, ?_, ?_, ?_⟩
    · rw [pathElems_sep_cons, pathElems_joinSep _ hLne hL]
    · rw [splitSep_cons_sep, hsplit]; rfl
    · simp [isRooted]
    · cases hj : joinSep (st2.reverse ++ [n]) with
      | nil => exact absurd hj hjne
      | cons a as => rw [List.getLast?_cons_cons, ← hj]; exact hlast
  | false =>
    simp only [List.reverse_cons, Bool.false_eq_true, if_false, reduceCtorEq]
    refine ⟨pathElems_joinSep _ hLne hL, by simpa using hsplit, isRooted_joinSep _ hL, hlast⟩

/-- A path that splits into the elements `E` and a last element `n` that is a
name of at most `NAME_MAX` bytes: when the cleaned path is acceptable and the
walk through `E` leads from an existing directory to the directory `D`, the
cleaned path names the entry `n` of `D`. -/
theorem resolveEntry_clean (fs : FS) (p : Str) (E : List Str) (n : Str) (D : List Str)
    (hs : splitSep p = E ++ [n]) (hn : IsName n) (hlen : n.length ≤ NAME_MAX)
    (hpe : pathError (Clean p) = none) (hstart : fs.lookup (startDir fs p) = some Node.dir)
    (hw : walk fs (startDir fs p) E = .ok D) :
    resolveEntry fs (Clean p) = .ok (D, n) := by
  obtain ⟨st2, _, hwalk, hel, _, hroot, hgl⟩ := Clean_shape p E n hs hn
  have hsd : startDir fs (Clean p) = startDir fs p := by simp only [startDir, hroot]
  rw [resolveEntry_ok_iff, hsd, hel]
  exact ⟨hpe, hstart, by simp, by simpa using hwalk fs D hw, hgl, hn.2.2.1, hn.2.2.2, hlen⟩

/-! ## The target of mode `create` -/

theorem lastElement_not_mem (s : Str) : sep ∉ lastElement s := by
  unfold lastElement
  intro h
  rw [List.mem_reverse] at h
  have := List.mem_takeWhile_imp h
  simp at this

theorem base_cases (X : Str) : (Base X = [sep] ∧ Ext X = []) ∨ (sep ∉ Base X ∧ Base X ≠ []) := by
  unfold Base
  by_cases hp : X = []
  · subst hp; right; simp only [if_true]; decide
  · simp only [hp, if_false]
    by_cases he : lastElement (stripTrailingSep X) = []
    · left
      simp only [he, if_true, true_and]
      rcases hr : X.reverse with _ | ⟨c, r⟩
      · simp at hr; exact absurd hr hp
      · by_cases hs : c = sep
        · have h0 : lastElement X = [] := by simp [lastElement, hr, hs]
          have := ext_suffix_lastElement X
          rw [h0] at this
          exact List.suffix_nil.mp this
        · exfalso
          have hX : X = (c :: r).reverse := by rw [← hr]; simp
          have h1 : stripTrailingSep X = X := by
            simp [stripTrailingSep, hr, List.dropWhile_cons, hs, hX]
          rw [h1] at he
          simp [lastElement, hr, List.takeWhile_cons, hs] at he
    · right
      simp only [he, if_false]
      exact ⟨lastElement_not_mem _, he⟩

theorem underscore_ne_sep : underscore ≠ sep := by decide

theorem entryName_isName (now : Time) (X : Str) : IsName (entryName now X) := by
  have hT := formatTimestamp_not_mem now
  unfold entryName
  rcases base_cases X with ⟨hb, _⟩ | ⟨hb, _⟩
  · simp only [hb, if_true]
    refine ⟨by simp, ?_, ?_, ?_⟩
    · simp only [List.mem_cons, not_or]
      exact ⟨Ne.symm underscore_ne_sep, hT⟩
    · intro h; injection h with h1 _; revert h1; decide
    · intro h; injection h with h1 _; revert h1; decide
  · have hne : Base X ≠ [sep] := by
      intro h; rw [h] at hb; simp at hb
    simp only [hne, if_false]
    have hu : underscore ∈ timestampedName now X := by simp [timestampedName]
    refine ⟨?_, ?_, ?_, ?_⟩
    · intro h; rw [h] at hu; simp at hu
    · unfold timestampedName
      simp only [List.mem_append, List.mem_singleton, not_or]
      refine ⟨⟨⟨fun h => hb (List.mem_of_mem_take h), Ne.symm underscore_ne_sep⟩, hT⟩, ?_⟩
      exact fun h => hb ((ext_base_split X).1.subset h)
    · intro h; rw [h] at hu; revert hu; decide
    · intro h; rw [h] at hu; revert hu; decide

theorem splitSep_timestampedName (now : Time) (X : Str) :
    ∃ pre, (∀ e ∈ pre, e = ([] : Str)) ∧
      splitSep (timestampedName now X) = pre ++ [entryName now X] := by
  have hN := entryName_isName now X
  unfold entryName at hN ⊢
  rcases base_cases X with ⟨hb, he⟩ | ⟨hb, _⟩
  · simp only [hb, if_true] at hN ⊢
    refine ⟨[[]], by simp, ?_⟩
    have : timestampedName now X = sep :: underscore :: formatTimestamp now := by
      simp [timestampedName, hb, he]
    rw [this, splitSep_cons_sep, splitSep_of_not_mem _ hN.2.1]
    rfl
  · have hne : Base X ≠ [sep] := by
      intro h; rw [h] at hb; simp at hb
    simp only [hne, if_false] at hN ⊢
    exact ⟨[], by simp, by simpa using splitSep_of_not_mem _ hN.2.1⟩

theorem joinSep_ne_nil (L : List Str) (hL : L ≠ []) (h : ∀ e ∈ L, e ≠ []) : joinSep L ≠ [] := by
  cases L with
  | nil => exact absurd rfl hL
  | cons e es =>
    cases es with
    | nil => simpa [joinSep] using h e (by simp)
    | cons f fs => simp [joinSep]

theorem Clean_ne_nil (q : Str) : Clean q ≠ [] := by
  have hst : Written (isRooted q) ((splitSep q).foldl (cleanStep (isRooted q)) []) :=
    foldl_cleanStep_written _ _ [] (by intro e he; simp at he)
      (fun c hc => splitSep_not_mem q c hc)
  unfold Clean renderPath
  generalize (splitSep q).foldl (cleanStep (isRooted q)) [] = st at hst
  split
  · simp
  · split
    · decide
    · rename_i h
      exact joinSep_ne_nil _ (by simpa using h) (fun e he => (hst e (by simpa using he)).1)

theorem walk_empties (fs : FS) (cur : List Str) (pre : List Str) (h : ∀ e ∈ pre, e = ([] : Str)) :
    walk fs cur pre = .ok cur := by
  induction pre with
  | nil => rfl
  | cons e es ih =>
    rw [walk_skip fs cur es e (Or.inl (h e (by simp)))]
    exact ih (fun x hx => h x (List.mem_cons_of_mem _ hx))

theorem targetPath_create (now : Time) (X : Str) :
    targetPath now X CreateNewOutput = Clean (Dir X ++ sep :: timestampedName now X) := by
  have h : Dir X ≠ [] := Clean_ne_nil _
  simp [targetPath, Join, h, joinSep]

theorem target_shape (fs : FS) (now : Time) (X : Str) :
    ∃ E, splitSep (Dir X ++ sep :: timestampedName now X) = E ++ [entryName now X] ∧
      startDir fs (Dir X ++ sep :: timestampedName now X) = startDir fs (Dir X) ∧
      ∀ D, walk fs (startDir fs (Dir X)) (splitSep (Dir X)) = .ok D →
        walk fs (startDir fs (Dir X)) E = .ok D := by
  have hne : Dir X ≠ [] := Clean_ne_nil _
  obtain ⟨pre, hpre, hs⟩ := splitSep_timestampedName now X
  refine ⟨splitSep (Dir X) ++ pre, ?_, ?_, ?_⟩
  · rw [splitSep_append, hs, List.append_assoc]
  · cases hd : Dir X with
    | nil => exact absurd hd hne
    | cons c r => simp [startDir, isRooted]
  · intro D hD
    rw [walk_append, hD]
    exact walk_empties fs D pre hpre

/-- In mode `create` the target, when it is an acceptable path name, names the
entry `entryName` of the directory of the output file, when that exists. -/
theorem resolve_target_create (fs : FS) (now : Time) (X : Str) (D : List Str)
    (hD : resolveDir fs (Dir X) = .ok D) (hv : ValidPath (targetPath now X CreateNewOutput)) :
    resolveEntry fs (targetPath now X CreateNewOutput) = .ok (D, entryName now X) := by
  obtain ⟨E, hs, hsd, hw⟩ := target_shape fs now X
  rw [resolveDir_ok_iff] at hD
  obtain ⟨st2, _, _, _, hsplit, _, _⟩ := Clean_shape _ E _ hs (entryName_isName now X)
  rw [targetPath_create] at hv ⊢
  refine resolveEntry_clean fs _ E _ D hs (entryName_isName now X) ?_ hv.1 ?_ ?_
  · exact hv.2 _ (by rw [hsplit]; simp)
  · rw [hsd]; exact hD.2.1
  · rw [hsd]; exact hw D hD.2.2

theorem entryName_inj (now1 now2 : Time) (X : Str)
    (h : entryName now1 X = entryName now2 X) : formatTimestamp now1 = formatTimestamp now2 := by
  unfold entryName at h
  split at h
  · simpa using h
  · unfold timestampedName at h
    simp only [List.append_assoc, List.append_cancel_left_eq, List.singleton_append,
      List.cons.injEq, true_and] at h
    have h2 : formatTimestamp now1 ++ Ext X = formatTimestamp now2 ++ Ext X := by
      simpa using h
    exact List.append_cancel_right h2

/-! ## Extension-aware naming -/

theorem Clean_dot_name (n : Str) (hn : IsName n) : Clean (dotStr ++ sep :: n) = n := by
  have hs : splitSep (dotStr ++ sep :: n) = [dotStr, n] := by
    rw [splitSep_append, splitSep_of_not_mem _ hn.2.1, splitSep_of_not_mem dotStr (by decide)]
    rfl
  have hr : isRooted (dotStr ++ sep :: n) = false := by
    simp [isRooted, dotStr, dot, sep]
  unfold Clean
  rw [hs, hr]
  simp only [List.foldl_cons, List.foldl_nil]
  have h1 : cleanStep false [] dotStr = [] := by simp [cleanStep]
  rw [h1, cleanStep_of_name _ _ n hn]
  simp [renderPath, joinSep]

theorem digit_ne_dot : ∀ k : Nat, k < 10 → 48 + k.toUInt8 ≠ dot := by decide

theorem decimal_getLast (n : Nat) : (decimal n).getLast? = some (48 + (n % 10).toUInt8) := by
  unfold decimal
  rw [List.getLast?_reverse, decimalRev]
  rfl

theorem appendInt_getLast (x : Int) (w : Nat) :
    (appendInt x w).getLast? = some (48 + (x.natAbs % 10).toUInt8) := by
  unfold appendInt
  have hne : decimal x.natAbs ≠ [] := by
    intro h
    have := decimal_getLast x.natAbs
    rw [h] at this
    simp at this
  rw [List.getLast?_append_of_ne_nil _ hne]
  exact decimal_getLast _

theorem formatTimestamp_getLast (t : Time) :
    ∃ k, k < 10 ∧ (formatTimestamp t).getLast? = some (48 + k.toUInt8) := by
  unfold formatTimestamp
  refine ⟨(t.secondOfDay % 60).natAbs % 10, Nat.mod_lt _ (by decide), ?_⟩
  have hne : ∀ x w, appendInt x w ≠ [] := by
    intro x w h
    have := appendInt_getLast x w
    rw [h] at this
    simp at this
  rw [List.getLast?_append_of_ne_nil _ (hne _ _)]
  exact appendInt_getLast _ _

/-- In mode `create`, `openOutputFile` opens, for `out.json`, the file named
`out_` + timestamp + `.json`, and for `out` the file named `out_` + timestamp,
which does not end in a dot; for every path it opens, with truncation, the
join of the path's directory with stem + `_` + timestamp + extension, where the
stem followed by the extension is the base name. -/
theorem targetPath_naming (now : Time) :
    targetPath now (bytes "out.json") CreateNewOutput =
        bytes "out_" ++ formatTimestamp now ++ bytes ".json" ∧
      targetPath now (bytes "out") CreateNewOutput = bytes "out_" ++ formatTimestamp now ∧
      (targetPath now (bytes "out") CreateNewOutput).getLast? ≠ some dot ∧
      ∀ (fs : FS) (path : Str),
        (Base path).take ((Base path).length - (Ext path).length) ++ Ext path = Base path ∧
        targetPath now path CreateNewOutput =
          Join [Dir path, (Base path).take ((Base path).length - (Ext path).length) ++
            [underscore] ++ formatTimestamp now ++ Ext path] ∧
        openOutputFile now fs path CreateNewOutput =
          OpenFile fs (targetPath now path CreateNewOutput) { append := false, trunc := true } ∧
        ∀ f, (openOutputFile now fs path CreateNewOutput).1 = .ok f →
          f.name = targetPath now path CreateNewOutput := by
  have hname : ∀ X : Str, Base X ≠ [sep] → Dir X = dotStr →
      targetPath now X CreateNewOutput = timestampedName now X := by
    intro X hb hd
    have hn := entryName_isName now X
    simp only [entryName, hb, if_false] at hn
    rw [targetPath_create, hd]
    exact Clean_dot_name _ hn
  have h1 : targetPath now (bytes "out.json") CreateNewOutput =
      bytes "out_" ++ formatTimestamp now ++ bytes ".json" := by
    rw [hname _ (by decide) (by decide)]
    have hB : Base (bytes "out.json") = bytes "out.json" := by decide
    have hE : Ext (bytes "out.json") = bytes ".json" := by decide
    simp only [timestampedName, hB, hE]
    rfl
  have h2 : targetPath now (bytes "out") CreateNewOutput = bytes "out_" ++ formatTimestamp now := by
    rw [hname _ (by decide) (by decide)]
    have hB : Base (bytes "out") = bytes "out" := by decide
    have hE : Ext (bytes "out") = [] := by decide
    simp only [timestampedName, hB, hE, List.append_nil]
    rfl
  refine ⟨h1, h2, ?_, ?_⟩
  · obtain ⟨k, hk, hl⟩ := formatTimestamp_getLast now
    have hne : formatTimestamp now ≠ [] := by
      intro h; rw [h] at hl; simp at hl
    rw [h2, List.getLast?_append_of_ne_nil _ hne, hl]
    intro h
    exact digit_ne_dot k hk (Option.some.inj h)
  · intro fs path
    refine ⟨(ext_base_split path).2, ?_, ?_, ?_⟩
    · simp [targetPath, timestampedName]
    · have : CreateNewOutput ≠ AppendToOutput := by decide
      simp [openOutputFile, this]
    · intro f hf
      have : CreateNewOutput ≠ AppendToOutput := by decide
      simp only [openOutputFile, this, if_false] at hf
      unfold OpenFile at hf
      split at hf
      · simp at hf
      · split at hf
        · simp at hf
        · simp at hf; rw [← hf]
        · simp at hf; rw [← hf]

/-! ## The calendar -/

theorem yearAndDay_spec (d : Int) :
    ∃ n400 n100 n4 n1 : Int,
      0 ≤ n100 ∧ n100 ≤ 3 ∧ 0 ≤ n4 ∧ n4 ≤ 24 ∧ 0 ≤ n1 ∧ n1 ≤ 3 ∧
      0 ≤ (yearAndDay d).2 ∧ (yearAndDay d).2 ≤ 365 ∧
      (yearAndDay d).1 = 1 + 400 * n400 + 100 * n100 + 4 * n4 + n1 ∧
      d = 146097 * n400 + 36524 * n100 + 1461 * n4 + 365 * n1 + (yearAndDay d).2 := by
  refine ⟨d / 146097,
    (d - 146097 * (d / 146097)) / 36524 - (d - 146097 * (d / 146097)) / 36524 / 4,
    (d - 146097 * (d / 146097) - 36524 * ((d - 146097 * (d / 146097)) / 36524 -
      (d - 146097 * (d / 146097)) / 36524 / 4)) / 1461, ?_, ?_⟩
  · exact (d - 146097 * (d / 146097) - 36524 * ((d - 146097 * (d / 146097)) / 36524 -
      (d - 146097 * (d / 146097)) / 36524 / 4) - 1461 * ((d - 146097 * (d / 146097) - 36524 * ((d - 146097 * (d / 146097)) / 36524 -
      (d - 146097 * (d / 146097)) / 36524 / 4)) / 1461)) / 365 -
      (d - 146097 * (d / 146097) - 36524 * ((d - 146097 * (d / 146097)) / 36524 -
      (d - 146097 * (d / 146097)) / 36524 / 4) - 1461 * ((d - 146097 * (d / 146097) - 36524 * ((d - 146097 * (d / 146097)) / 36524 -
      (d - 146097 * (d / 146097)) / 36524 / 4)) / 1461)) / 365 / 4
  · dsimp only [yearAndDay]
    omega

theorem yearAndDay_inj (d e : Int) (h : yearAndDay d = yearAndDay e) : d = e := by
  obtain ⟨a1, b1, c1, e1, h1⟩ := yearAndDay_spec d
  obtain ⟨a2, b2, c2, e2, h2⟩ := yearAndDay_spec e
  rw [h] at h1
  obtain ⟨hb1, hb1', hc1, hc1', he1, he1', hy1, hy1', hY1, hd1⟩ := h1
  obtain ⟨hb2, hb2', hc2, hc2', he2, he2', hy2, hy2', hY2, hd2⟩ := h2
  have ha : a1 = a2 := by omega
  subst ha
  have hb : b1 = b2 := by omega
  subst hb
  have hc : c1 = c2 := by omega
  subst hc
  have he : e1 = e2 := by omega
  subst he
  omega

set_option maxRecDepth 100000 in
theorem monthAndDay_spec : ∀ leap : Bool, ∀ k : Nat, k < 366 →
    1 ≤ (monthAndDay leap k).1 ∧ (monthAndDay leap k).1 ≤ 13 ∧
    1 ≤ (monthAndDay leap k).2 ∧ (monthAndDay leap k).2 ≤ 31 ∧
    daysBefore ((monthAndDay leap k).1 - 1).toNat + (monthAndDay leap k).2 - 1 +
      (if leap ∧ (monthAndDay leap k).1 > 2 then 1 else 0) = k := by
  decide

/-! ## Reading a timestamp back -/

theorem digit_facts : ∀ k : Nat, k < 10 →
    (48 + k.toUInt8).toNat - 48 = k ∧ (48 + k.toUInt8 : Byte) ≠ 45 := by
  decide

theorem valRev_decimalRev (fuel n : Nat) (h : n < fuel) : valRev (decimalRev fuel n) = n := by
  induction fuel generalizing n with
  | zero => omega
  | succ f ih =>
    rw [decimalRev, valRev, (digit_facts (n % 10) (Nat.mod_lt _ (by decide))).1]
    by_cases hn : n < 10
    · simp only [hn, if_true, valRev]
      omega
    · simp only [hn, if_false]
      rw [ih (n / 10) (by omega)]
      omega

theorem minus_not_mem_decimalRev (fuel n : Nat) : (45 : Byte) ∉ decimalRev fuel n := by
  induction fuel generalizing n with
  | zero => simp [decimalRev]
  | succ f ih =>
    rw [decimalRev]
    have hd := (digit_facts (n % 10) (Nat.mod_lt _ (by decide))).2
    simp only [List.mem_cons, not_or]
    refine ⟨fun h => hd h.symm, ?_⟩
    split
    · simp
    · exact ih _

theorem valRev_append_zeros (s : Str) (k : Nat) :
    valRev (s ++ List.replicate k 48) = valRev s := by
  induction s with
  | nil =>
    induction k with
    | zero => rfl
    | succ k ih =>
      simp only [List.nil_append] at ih
      simp only [List.nil_append, List.replicate_succ, valRev, ih]
      rfl
  | cons b r ih =>
    rw [List.cons_append, valRev, valRev, ih]

theorem parseInt_appendInt (x : Int) (w : Nat) : parseInt (appendInt x w) = x := by
  have hv : ∀ k, valRev (decimalRev (x.natAbs + 1) x.natAbs ++ List.replicate k 48) =
      x.natAbs := by
    intro k
    rw [valRev_append_zeros, valRev_decimalRev _ _ (by omega)]
  unfold appendInt parseInt
  by_cases hx : x < 0
  · simp only [hx, if_true, List.singleton_append, List.cons_append, List.head?_cons,
      List.tail_cons, List.nil_append, List.reverse_append, List.reverse_replicate]
    unfold decimal
    rw [List.reverse_reverse, hv]
    omega
  · simp only [hx, if_false, List.nil_append]
    have hne : (List.replicate (w - (decimal x.natAbs).length) 48 ++ decimal x.natAbs).head? ≠
        some (45 : Byte) := by
      intro h
      have hm := List.mem_of_mem_head? h
      simp only [List.mem_append, decimal, List.mem_reverse] at hm
      rcases hm with hm | hm
      · have := List.eq_of_mem_replicate hm
        revert this; decide
      · exact minus_not_mem_decimalRev _ _ hm
    simp only [hne, if_false, List.reverse_append, List.reverse_replicate]
    unfold decimal
    rw [List.reverse_reverse, hv]
    omega

theorem appendInt_inj (x y : Int) (w v : Nat) (h : appendInt x w = appendInt y v) : x = y := by
  have := congrArg parseInt h
  simpa [parseInt_appendInt] using this

set_option maxRecDepth 100000 in
theorem appendInt_length_two : ∀ k : Nat, k < 100 → (appendInt (k : Int) 2).length = 2 := by
  decide

theorem appendInt_length_two_int (v : Int) (h0 : 0 ≤ v) (h1 : v < 100) :
    (appendInt v 2).length = 2 := by
  have := appendInt_length_two v.toNat (by omega)
  rwa [Int.toNat_of_nonneg h0] at this

theorem monthAndDay_int (leap : Bool) (yd : Int) (h0 : 0 ≤ yd) (h1 : yd ≤ 365) :
    1 ≤ (monthAndDay leap yd).1 ∧ (monthAndDay leap yd).1 ≤ 13 ∧
    1 ≤ (monthAndDay leap yd).2 ∧ (monthAndDay leap yd).2 ≤ 31 ∧
    daysBefore ((monthAndDay leap yd).1 - 1).toNat + (monthAndDay leap yd).2 - 1 +
      (if leap ∧ (monthAndDay leap yd).1 > 2 then 1 else 0) = yd := by
  have := monthAndDay_spec leap yd.toNat (by omega)
  rwa [Int.toNat_of_nonneg h0] at this

theorem monthAndDay_inj (leap : Bool) (a b : Int) (ha0 : 0 ≤ a) (ha1 : a ≤ 365) (hb0 : 0 ≤ b)
    (hb1 : b ≤ 365) (h : monthAndDay leap a = monthAndDay leap b) : a = b := by
  have h1 := (monthAndDay_int leap a ha0 ha1).2.2.2.2
  have h2 := (monthAndDay_int leap b hb0 hb1).2.2.2.2
  rw [h] at h1
  exact h1.symm.trans h2

/-- The fields a timestamp is made of determine it, and it determines them. -/
theorem formatTimestamp_fields (t1 t2 : Time) (h : formatTimestamp t1 = formatTimestamp t2) :
    yearAndDay t1.absDays = yearAndDay t2.absDays ∧ t1.secondOfDay = t2.secondOfDay := by
  obtain ⟨_, _, _, _, _, _, _, _, _, _, hy1, hy1', _, _⟩ := yearAndDay_spec t1.absDays
  obtain ⟨_, _, _, _, _, _, _, _, _, _, hy2, hy2', _, _⟩ := yearAndDay_spec t2.absDays
  have hs1 : 0 ≤ t1.secondOfDay ∧ t1.secondOfDay < 86400 := by
    unfold Time.secondOfDay; omega
  have hs2 : 0 ≤ t2.secondOfDay ∧ t2.secondOfDay < 86400 := by
    unfold Time.secondOfDay; omega
  have hm1 := monthAndDay_int (isLeap (yearAndDay t1.absDays).1) _ hy1 hy1'
  have hm2 := monthAndDay_int (isLeap (yearAndDay t2.absDays).1) _ hy2 hy2'
  unfold formatTimestamp at h
  simp only [] at h
  have l := appendInt_length_two_int
  obtain ⟨h, e6⟩ := List.append_inj' h (by rw [l _ (by omega) (by omega), l _ (by omega) (by omega)])
  obtain ⟨h, e5⟩ := List.append_inj' h (by rw [l _ (by omega) (by omega), l _ (by omega) (by omega)])
  obtain ⟨h, e4⟩ := List.append_inj' h (by rw [l _ (by omega) (by omega), l _ (by omega) (by omega)])
  obtain ⟨h, e3⟩ := List.append_inj' h (by rw [l _ (by omega) (by omega), l _ (by omega) (by omega)])
  obtain ⟨e1, e2⟩ := List.append_inj' h (by rw [l _ (by omega) (by omega), l _ (by omega) (by omega)])
  have e1 := appendInt_inj _ _ _ _ e1
  have e2 := appendInt_inj _ _ _ _ e2
  have e3 := appendInt_inj _ _ _ _ e3
  have e4 := appendInt_inj _ _ _ _ e4
  have e5 := appendInt_inj _ _ _ _ e5
  have e6 := appendInt_inj _ _ _ _ e6
  refine ⟨?_, by omega⟩
  have hmd : monthAndDay (isLeap (yearAndDay t1.absDays).1) (yearAndDay t1.absDays).2 =
      monthAndDay (isLeap (yearAndDay t1.absDays).1) (yearAndDay t2.absDays).2 := by
    rw [Prod.ext_iff]
    rw [e1] at e2 e3 ⊢
    exact ⟨e2, e3⟩
  exact Prod.ext e1 (monthAndDay_inj _ _ _ hy1 hy1' hy2 hy2' hmd)

/-- Under one UTC offset, readings with the same timestamp are readings of the
same second. -/
theorem formatTimestamp_inj (t1 t2 : Time) (ho : t1.offset = t2.offset)
    (h : formatTimestamp t1 = formatTimestamp t2) : t1.unix = t2.unix := by
  obtain ⟨hyd, hs⟩ := formatTimestamp_fields t1 t2 h
  have hd := yearAndDay_inj _ _ hyd
  unfold Time.absDays at hd
  unfold Time.secondOfDay at hs
  omega

/-! ## Mode `create`: one file per timestamp -/

theorem resolveDir_clean (fs : FS) (p : Str) (E : List Str) (n : Str) (D : List Str)
    (hs : splitSep p = E ++ [n]) (hn : IsName n) (hlen : n.length ≤ NAME_MAX)
    (hpe : pathError (Clean p) = none) (hstart : fs.lookup (startDir fs p) = some Node.dir)
    (hw : walk fs (startDir fs p) E = .ok D)
    (hd : fs.lookup (D ++ [n]) = some Node.dir) :
    resolveDir fs (Clean p) = .ok (D ++ [n]) := by
  obtain ⟨st2, _, hwalk, _, hsplit, hroot, _⟩ := Clean_shape p E n hs hn
  have hsd : startDir fs (Clean p) = startDir fs p := by simp only [startDir, hroot]
  have hwn : walk fs (startDir fs p) (st2.reverse ++ [n]) = .ok (D ++ [n]) := by
    rw [walk_append, hwalk fs D hw]
    exact walk_single_dir fs D n hn.1 hn.2.2.1 hn.2.2.2 hlen hd
  rw [resolveDir_ok_iff, hsd, hsplit]
  refine ⟨hpe, hstart, ?_⟩
  cases isRooted p with
  | true =>
    simp only [if_true, List.singleton_append]
    rw [walk_skip _ _ _ _ (Or.inl rfl)]
    exact hwn
  | false => simpa using hwn

/-- In mode `create`, a target that is an acceptable path name and not an
existing directory names an entry of the output directory that holds no
directory. -/
theorem target_not_dir (fs : FS) (now : Time) (X : Str) (D : List Str)
    (hD : resolveDir fs (Dir X) = .ok D) (hv : ValidPath (targetPath now X CreateNewOutput))
    (h : ∀ L, resolveDir fs (targetPath now X CreateNewOutput) ≠ .ok L) :
    fs.lookup (D ++ [entryName now X]) ≠ some Node.dir := by
  intro hd
  obtain ⟨E, hs, hsd, hw⟩ := target_shape fs now X
  rw [resolveDir_ok_iff] at hD
  obtain ⟨st2, _, _, _, hsplit, _, _⟩ := Clean_shape _ E _ hs (entryName_isName now X)
  refine h (D ++ [entryName now X]) ?_
  rw [targetPath_create] at hv ⊢
  refine resolveDir_clean fs _ E _ D hs (entryName_isName now X) ?_ hv.1 ?_ ?_ hd
  · exact hv.2 _ (by rw [hsplit]; simp)
  · rw [hsd]; exact hD.2.1
  · rw [hsd]; exact hw D hD.2.2

theorem save_create (now : Time) (fs : FS) (X P : Str) (d : List Str) (n : Str)
    (hp : resolveEntry fs (targetPath now X CreateNewOutput) = .ok (d, n))
    (hX : fs.lookup (d ++ [n]) ≠ some Node.dir) :
    saveDataToFile now fs P X CreateNewOutput = (none, fs.set (d ++ [n]) (Node.file P)) := by
  have : CreateNewOutput ≠ AppendToOutput := by decide
  unfold saveDataToFile openOutputFile
  simp only [this, if_false]
  exact openWrite_trunc fs _ P d n hp hX

theorem readFile_of_lookup (fs : FS) (X c : Str) (d : List Str) (n : Str)
    (hp : resolveEntry fs X = .ok (d, n)) (hl : fs.lookup (d ++ [n]) = some (Node.file c)) :
    ReadFile fs X = .ok c := by
  unfold ReadFile
  simp [hp, hl]

/-- C6, amended: two successive saves in mode `create`, at readings of different
seconds under the same UTC offset, into an existing output directory, where
both targets are acceptable path names and neither is an existing directory:
the targets differ, both calls succeed, and afterwards each target holds the
payload of its own call; the second call leaves the first file as it was. -/
theorem create_distinct (fs : FS) (X P1 P2 : Str) (D : List Str) (now1 now2 : Time)
    (hD : resolveDir fs (Dir X) = .ok D)
    (ho : now1.offset = now2.offset) (hu : now1.unix ≠ now2.unix)
    (hv1 : ValidPath (targetPath now1 X CreateNewOutput))
    (hv2 : ValidPath (targetPath now2 X CreateNewOutput))
    (h1 : ∀ L, resolveDir fs (targetPath now1 X CreateNewOutput) ≠ .ok L)
    (h2 : ∀ L, resolveDir fs (targetPath now2 X CreateNewOutput) ≠ .ok L) :
    targetPath now1 X CreateNewOutput ≠ targetPath now2 X CreateNewOutput ∧
      (saveDataToFile now1 fs P1 X CreateNewOutput).1 = none ∧
      (saveDataToFile now2 (saveDataToFile now1 fs P1 X CreateNewOutput).2 P2 X
        CreateNewOutput).1 = none ∧
      ReadFile (saveDataToFile now1 fs P1 X CreateNewOutput).2
        (targetPath now1 X CreateNewOutput) = .ok P1 ∧
      ReadFile (saveDataToFile now2 (saveDataToFile now1 fs P1 X CreateNewOutput).2 P2 X
        CreateNewOutput).2 (targetPath now1 X CreateNewOutput) = .ok P1 ∧
      ReadFile (saveDataToFile now2 (saveDataToFile now1 fs P1 X CreateNewOutput).2 P2 X
        CreateNewOutput).2 (targetPath now2 X CreateNewOutput) = .ok P2 := by
  have hr1 := resolve_target_create fs now1 X D hD hv1
  have hr2 := resolve_target_create fs now2 X D hD hv2
  have hn1 := target_not_dir fs now1 X D hD hv1 h1
  have hn2 := target_not_dir fs now2 X D hD hv2 h2
  have hne : entryName now1 X ≠ entryName now2 X :=
    fun h => hu (formatTimestamp_inj now1 now2 ho (entryName_inj now1 now2 X h))
  have hloc : D ++ [entryName now1 X] ≠ D ++ [entryName now2 X] := by
    simpa using hne
  have hs1 := save_create now1 fs X P1 D _ hr1 hn1
  have hw1 := FS.dirsWithin_set fs _ (Node.file P1) hn1
  have hr2' := resolveEntry_mono hw1 _ _ hr2
  have hr1' := resolveEntry_mono hw1 _ _ hr1
  have hn2' : (fs.set (D ++ [entryName now1 X]) (Node.file P1)).lookup
      (D ++ [entryName now2 X]) ≠ some Node.dir := by
    rw [FS.lookup_set _ _ _ _ (append_ne_nil _ _)]
    simpa [Ne.symm hloc] using hn2
  have hs2 := save_create now2 _ X P2 D _ hr2' hn2'
  have hw2 := FS.dirsWithin_set _ _ (Node.file P2) hn2'
  rw [hs1]
  simp only [hs2, true_and]
  refine ⟨?_, ?_, ?_, ?_⟩
  · intro h
    rw [h, hr2] at hr1
    simp only [Except.ok.injEq, Prod.mk.injEq, true_and] at hr1
    exact hne hr1.symm
  · exact readFile_set fs _ P1 D _ hr1 hn1
  · refine readFile_of_lookup _ _ P1 D _ (resolveEntry_mono hw2 _ _ hr1') ?_
    rw [FS.lookup_set _ _ _ _ (append_ne_nil _ _), if_neg hloc,
      FS.lookup_set _ _ _ _ (append_ne_nil _ _), if_pos rfl]
  · exact readFile_set _ _ P2 D _ hr2' hn2'

/-- C6, as stated, fails: the readings 2026-10-25T00:30:00Z at UTC+2 and
2026-10-25T01:30:00Z at UTC+1 are an hour apart and both read 02:30:00 local
time, so both saves of mode `create` open the same path and the second
replaces the payload of the first. -/
theorem create_collision :
    resolveDir emptyFS (Dir (bytes "out.json")) = .ok [] ∧
      (1 : Int) < (⟨1792891800, 3600⟩ : Time).unix - (⟨1792888200, 7200⟩ : Time).unix ∧
      targetPath ⟨1792888200, 7200⟩ (bytes "out.json") CreateNewOutput =
        bytes "out_20261025023000.json" ∧
      targetPath ⟨1792891800, 3600⟩ (bytes "out.json") CreateNewOutput =
        bytes "out_20261025023000.json" ∧
      ReadFile (saveDataToFile ⟨1792888200, 7200⟩ emptyFS [1] (bytes "out.json")
        CreateNewOutput).2 (bytes "out_20261025023000.json") = .ok [1] ∧
      ReadFile (saveDataToFile ⟨1792891800, 3600⟩
        (saveDataToFile ⟨1792888200, 7200⟩ emptyFS [1] (bytes "out.json") CreateNewOutput).2 [2]
        (bytes "out.json") CreateNewOutput).2 (bytes "out_20261025023000.json") = .ok [2] := by
  refine ⟨by decide, by decide, by decide, by decide, by decide, by decide⟩

set_option maxRecDepth 100000 in
/-- Why the targets of mode `create` must be acceptable: the 250-byte name
`nearLongName` can be written in mode `overwrite`, but its timestamped name has
265 bytes and the save of mode `create` fails. -/
theorem create_long_name :
    (saveDataToFile ⟨0, 0⟩ emptyFS [1] nearLongName OverwriteOutput).1 = none ∧
      (targetPath ⟨0, 0⟩ nearLongName CreateNewOutput).length = 265 ∧
      (saveDataToFile ⟨0, 0⟩ emptyFS [1] nearLongName CreateNewOutput).1 =
        some Errno.ENAMETOOLONG := by
  decide

/-- C6, amended, at work: saves at 1970-01-01 00:00:00 and 00:00:01 UTC for
`out.json` on an empty filesystem leave two files with their own payloads. -/
theorem create_distinct_witness :
    resolveDir emptyFS (Dir (bytes "out.json")) = .ok [] ∧
      ValidPath (targetPath ⟨0, 0⟩ (bytes "out.json") CreateNewOutput) ∧
      ValidPath (targetPath ⟨1, 0⟩ (bytes "out.json") CreateNewOutput) ∧
      (targetPath ⟨0, 0⟩ (bytes "out.json") CreateNewOutput ≠
          targetPath ⟨1, 0⟩ (bytes "out.json") CreateNewOutput ∧
        (saveDataToFile ⟨0, 0⟩ emptyFS [1] (bytes "out.json") CreateNewOutput).1 = none ∧
        (saveDataToFile ⟨1, 0⟩ (saveDataToFile ⟨0, 0⟩ emptyFS [1] (bytes "out.json")
          CreateNewOutput).2 [2] (bytes "out.json") CreateNewOutput).1 = none ∧
        ReadFile (saveDataToFile ⟨0, 0⟩ emptyFS [1] (bytes "out.json") CreateNewOutput).2
          (targetPath ⟨0, 0⟩ (bytes "out.json") CreateNewOutput) = .ok [1] ∧
        ReadFile (saveDataToFile ⟨1, 0⟩ (saveDataToFile ⟨0, 0⟩ emptyFS [1] (bytes "out.json")
          CreateNewOutput).2 [2] (bytes "out.json") CreateNewOutput).2
          (targetPath ⟨0, 0⟩ (bytes "out.json") CreateNewOutput) = .ok [1] ∧
        ReadFile (saveDataToFile ⟨1, 0⟩ (saveDataToFile ⟨0, 0⟩ emptyFS [1] (bytes "out.json")
          CreateNewOutput).2 [2] (bytes "out.json") CreateNewOutput).2
          (targetPath ⟨1, 0⟩ (bytes "out.json") CreateNewOutput) = .ok [2]) :=
  ⟨by decide, ⟨by decide, by decide⟩, ⟨by decide, by decide⟩,
    create_distinct emptyFS (bytes "out.json") [1] [2] [] ⟨0, 0⟩ ⟨1, 0⟩ (by decide) rfl
      (by decide) ⟨by decide, by decide⟩ ⟨by decide, by decide⟩
      (fun L h => by
        have h0 : resolveDir emptyFS (targetPath ⟨0, 0⟩ (bytes "out.json") CreateNewOutput) =
            .error Errno.ENOENT := by decide
        rw [h0] at h; cases h)
      (fun L h => by
        have h0 : resolveDir emptyFS (targetPath ⟨1, 0⟩ (bytes "out.json") CreateNewOutput) =
            .error Errno.ENOENT := by decide
        rw [h0] at h; cases h)⟩

/-- The amended C1 at work: `abc` saved twice to `output.json` on an empty filesystem. -/
theorem overwrite_idempotent_witness :
    resolveEntry emptyFS (bytes "output.json") = .ok ([], bytes "output.json") ∧
      ReadFile (saveDataToFile ⟨0, 0⟩ (saveDataToFile ⟨0, 0⟩ emptyFS (bytes "abc")
        (bytes "output.json") OverwriteOutput).2 (bytes "abc") (bytes "output.json")
        OverwriteOutput).2 (bytes "output.json") = .ok (bytes "abc") :=
  ⟨by decide,
    (overwrite_idempotent ⟨0, 0⟩ ⟨0, 0⟩ emptyFS (bytes "abc") (bytes "output.json") []
      (bytes "output.json") (by decide) (by decide)).2.2.1⟩

/-- The amended C2 at work: `ab` and `cd` appended to `output.json` on an empty filesystem. -/
theorem append_accumulates_witness :
    resolveEntry emptyFS (bytes "output.json") = .ok ([], bytes "output.json") ∧
      ReadFile (saveDataToFile ⟨0, 0⟩ (saveDataToFile ⟨0, 0⟩ emptyFS (bytes "ab")
        (bytes "output.json") AppendToOutput).2 (bytes "cd") (bytes "output.json")
        AppendToOutput).2 (bytes "output.json") =
        .ok (contentAt emptyFS ([] ++ [bytes "output.json"]) ++ bytes "ab" ++ bytes "cd") :=
  ⟨by decide,
    (append_accumulates ⟨0, 0⟩ ⟨0, 0⟩ emptyFS (bytes "ab") (bytes "cd") (bytes "output.json") []
      (bytes "output.json") (by decide) (by decide)).2.2.1⟩

/-! ## `os.MkdirAll` -/

theorem FS.OnlyNewDirs.same (a : FS) : FS.OnlyNewDirs a a := ⟨rfl, fun _ => Or.inl rfl⟩

theorem FS.OnlyNewDirs.chain {a b c : FS} (h1 : FS.OnlyNewDirs a b) (h2 : FS.OnlyNewDirs b c) :
    FS.OnlyNewDirs a c := by
  refine ⟨h1.1.trans h2.1, fun p => ?_⟩
  rcases h1.2 p with h | ⟨h, h'⟩ <;> rcases h2.2 p with g | ⟨g, g'⟩
  · left; rw [g, h]
  · right; exact ⟨by rw [← h]; exact g, g'⟩
  · right; exact ⟨h, by rw [g, h']⟩
  · rw [h'] at g; cases g

theorem FS.OnlyNewDirs.dirsWithin {a b : FS} (h : FS.OnlyNewDirs a b) : FS.DirsWithin a b := by
  refine ⟨h.1, fun p hp => ?_⟩
  rcases h.2 p with g | ⟨g, g'⟩
  · rw [g, hp]
  · exact g'

theorem FS.OnlyNewDirs.file_iff {a b : FS} (h : FS.OnlyNewDirs a b) (p : List Str) (c : Str) :
    b.lookup p = some (Node.file c) ↔ a.lookup p = some (Node.file c) := by
  rcases h.2 p with g | ⟨g, g'⟩
  · rw [g]
  · rw [g, g']; simp

theorem FS.onlyNewDirs_set (fs : FS) (loc : List Str) (h : fs.lookup loc = none) :
    FS.OnlyNewDirs fs (fs.set loc Node.dir) := by
  refine ⟨rfl, fun p => ?_⟩
  have hloc : loc ≠ [] := by
    intro h0; subst h0; simp [FS.lookup] at h
  rw [FS.lookup_set _ _ _ _ hloc]
  by_cases hp : p = loc
  · subst hp; right; simp [h]
  · left; simp [hp]

theorem mkdirWalk_skip (fs : FS) (cur cs : List Str) (c : Str) (h : c = [] ∨ c = dotStr) :
    mkdirWalk fs cur (c :: cs) = mkdirWalk fs cur cs := by
  rw [mkdirWalk]; simp [h]

theorem mkdirWalk_dotdot (fs : FS) (cur cs : List Str) :
    mkdirWalk fs cur (dotdotStr :: cs) = mkdirWalk fs cur.dropLast cs := by
  rw [mkdirWalk]
  have : ¬ (dotdotStr = ([] : Str) ∨ dotdotStr = dotStr) := by decide
  simp [this]

/-- A step of `os.MkdirAll` at a name. -/
theorem mkdirWalk_name (fs : FS) (cur cs : List Str) (c : Str) (h1 : c ≠ []) (h2 : c ≠ dotStr)
    (h3 : c ≠ dotdotStr) :
    mkdirWalk fs cur (c :: cs) =
      if NAME_MAX < c.length then (some Errno.ENAMETOOLONG, fs)
      else
        match fs.lookup (cur ++ [c]) with
        | some Node.dir => mkdirWalk fs (cur ++ [c]) cs
        | some (Node.file _) => (some Errno.ENOTDIR, fs)
        | none => mkdirWalk (fs.set (cur ++ [c]) Node.dir) (cur ++ [c]) cs := by
  rw [mkdirWalk]
  by_cases hlen : NAME_MAX < c.length
  · simp [h1, h2, h3, hlen]
  · cases hl : fs.lookup (cur ++ [c]) with
    | none => simp [h1, h2, h3, hlen]
    | some nd => cases nd <;> simp [h1, h2, h3, hlen]

/-- `os.MkdirAll` adds directories and nothing else, whether it succeeds or not. -/
theorem mkdirWalk_onlyNewDirs (cs : List Str) (fs : FS) (cur : List Str) :
    FS.OnlyNewDirs fs (mkdirWalk fs cur cs).2 := by
  induction cs generalizing fs cur with
  | nil => exact FS.OnlyNewDirs.same fs
  | cons c cs ih =>
    by_cases h1 : c = [] ∨ c = dotStr
    · rw [mkdirWalk_skip _ _ _ _ h1]; exact ih fs cur
    · by_cases h2 : c = dotdotStr
      · subst h2; rw [mkdirWalk_dotdot]; exact ih fs _
      · push_neg at h1
        rw [mkdirWalk_name _ _ _ _ h1.1 h1.2 h2]
        split
        · exact FS.OnlyNewDirs.same fs
        · split
          · exact ih fs _
          · exact FS.OnlyNewDirs.same fs
          · rename_i hl
            exact (FS.onlyNewDirs_set fs _ hl).chain (ih _ _)

theorem MkdirAll_onlyNewDirs (fs : FS) (path : Str) : FS.OnlyNewDirs fs (MkdirAll fs path).2 := by
  unfold MkdirAll
  split
  · exact FS.OnlyNewDirs.same fs
  · split
    · exact mkdirWalk_onlyNewDirs _ _ _
    · exact FS.OnlyNewDirs.same fs

theorem createOutputDirectories_onlyNewDirs (fs : FS) (outputFile : Str) :
    FS.OnlyNewDirs fs (createOutputDirectories fs outputFile).2 := by
  unfold createOutputDirectories
  simp only []
  split
  · have := MkdirAll_onlyNewDirs fs (Dir outputFile)
    split
    · rename_i h; rw [h] at this; exact this
    · rename_i h; rw [h] at this; exact this
  · exact FS.OnlyNewDirs.same fs

/-- When `os.MkdirAll` succeeds, the path names a directory afterwards. -/
theorem mkdirWalk_walk (cs : List Str) (fs : FS) (cur : List Str)
    (h : (mkdirWalk fs cur cs).1 = none) :
    ∃ D, walk (mkdirWalk fs cur cs).2 cur cs = .ok D := by
  induction cs generalizing fs cur with
  | nil => exact ⟨cur, rfl⟩
  | cons c cs ih =>
    by_cases h1 : c = [] ∨ c = dotStr
    · rw [mkdirWalk_skip _ _ _ _ h1] at h ⊢
      rw [walk_skip _ _ _ _ h1]
      exact ih fs cur h
    · by_cases h2 : c = dotdotStr
      · subst h2
        rw [mkdirWalk_dotdot] at h ⊢
        rw [walk_dotdot]
        exact ih fs _ h
      · push_neg at h1
        rw [mkdirWalk_name _ _ _ _ h1.1 h1.2 h2] at h ⊢
        by_cases hlen : NAME_MAX < c.length
        · simp [hlen] at h
        · simp only [hlen, if_false] at h ⊢
          have hlen' : c.length ≤ NAME_MAX := by omega
          cases hl : fs.lookup (cur ++ [c]) with
          | none =>
            simp only [hl] at h ⊢
            obtain ⟨D, hD⟩ := ih _ _ h
            refine ⟨D, ?_⟩
            rw [walk_name_ok _ _ _ _ _ h1.1 h1.2 h2]
            exact ⟨hlen', (mkdirWalk_onlyNewDirs cs (fs.set (cur ++ [c]) Node.dir)
              (cur ++ [c])).dirsWithin.2 (cur ++ [c]) (by simp [FS.lookup_set]), hD⟩
          | some nd =>
            cases nd with
            | file x => simp [hl] at h
            | dir =>
              simp only [hl] at h ⊢
              obtain ⟨D, hD⟩ := ih _ _ h
              refine ⟨D, ?_⟩
              rw [walk_name_ok _ _ _ _ _ h1.1 h1.2 h2]
              exact ⟨hlen', (mkdirWalk_onlyNewDirs cs fs (cur ++ [c])).dirsWithin.2
                (cur ++ [c]) hl, hD⟩

/-! ## Paths without `..` -/

theorem walk_names_result (fs : FS) (ds cur D : List Str) (hn : ∀ e ∈ ds, IsName e)
    (hw : walk fs cur ds = .ok D) :
    D = cur ++ ds ∧ ∀ q, q <+: ds → q ≠ [] → fs.lookup (cur ++ q) = some Node.dir := by
  induction ds generalizing cur with
  | nil =>
    simp only [walk, Except.ok.injEq] at hw
    subst hw
    refine ⟨by simp, fun q hq hne => ?_⟩
    exact absurd (List.prefix_nil.mp hq) hne
  | cons d ds ih =>
    obtain ⟨n1, _, n3, n4⟩ := hn d (by simp)
    rw [walk_name_ok _ _ _ _ _ n1 n3 n4] at hw
    obtain ⟨_, hl, hw⟩ := hw
    obtain ⟨hD, hq⟩ := ih (cur ++ [d]) (fun e he => hn e (List.mem_cons_of_mem _ he)) hw
    refine ⟨by simp [hD], fun q hq' hne => ?_⟩
    cases q with
    | nil => exact absurd rfl hne
    | cons a q' =>
      rw [List.cons_prefix_cons] at hq'
      obtain ⟨rfl, hq''⟩ := hq'
      by_cases hq0 : q' = []
      · subst hq0; exact hl
      · have := hq q' hq'' hq0
        simpa using this

theorem mkdirWalk_names (ds : List Str) (fs : FS) (cur : List Str) (hn : ∀ e ∈ ds, IsName e)
    (hlen : ∀ e ∈ ds, e.length ≤ NAME_MAX)
    (hfile : ∀ q, q <+: ds → q ≠ [] → ∀ c, fs.lookup (cur ++ q) ≠ some (Node.file c)) :
    (mkdirWalk fs cur ds).1 = none := by
  induction ds generalizing fs cur with
  | nil => rfl
  | cons d ds ih =>
    obtain ⟨n1, _, n3, n4⟩ := hn d (by simp)
    have hn' : ∀ e ∈ ds, IsName e := fun e he => hn e (List.mem_cons_of_mem _ he)
    have hlen' : ∀ e ∈ ds, e.length ≤ NAME_MAX := fun e he => hlen e (List.mem_cons_of_mem _ he)
    have hd : ¬ NAME_MAX < d.length := by have := hlen d (by simp); omega
    rw [mkdirWalk_name _ _ _ _ n1 n3 n4]
    simp only [hd, if_false]
    cases hl : fs.lookup (cur ++ [d]) with
    | none =>
      simp only []
      refine ih _ _ hn' hlen' (fun q hq hq0 c => ?_)
      rw [FS.lookup_set _ _ _ _ (by simp)]
      have : cur ++ [d] ++ q ≠ cur ++ [d] := by simpa using hq0
      rw [if_neg this]
      have := hfile (d :: q) (by simpa [List.cons_prefix_cons] using hq) (by simp) c
      simpa using this
    | some nd =>
      cases nd with
      | file x => exact absurd hl (hfile [d] (by simp [List.cons_prefix_cons]) (by simp) x)
      | dir =>
        simp only []
        refine ih _ _ hn' hlen' (fun q hq _ c => ?_)
        have := hfile (d :: q) (by simpa [List.cons_prefix_cons] using hq) (by simp) c
        simpa using this

theorem mkdirWalk_names_other (ds : List Str) (fs : FS) (cur : List Str)
    (hn : ∀ e ∈ ds, IsName e) (p : List Str) (hp : ∀ q, q <+: ds → p ≠ cur ++ q) :
    (mkdirWalk fs cur ds).2.lookup p = fs.lookup p := by
  induction ds generalizing fs cur with
  | nil => rfl
  | cons d ds ih =>
    obtain ⟨n1, _, n3, n4⟩ := hn d (by simp)
    have hn' : ∀ e ∈ ds, IsName e := fun e he => hn e (List.mem_cons_of_mem _ he)
    have hp' : ∀ q, q <+: ds → p ≠ cur ++ [d] ++ q := by
      intro q hq
      have := hp (d :: q) (by simpa [List.cons_prefix_cons] using hq)
      simpa using this
    rw [mkdirWalk_name _ _ _ _ n1 n3 n4]
    split
    · rfl
    · cases hl : fs.lookup (cur ++ [d]) with
      | none =>
        simp only []
        rw [ih _ _ hn' hp', FS.lookup_set _ _ _ _ (by simp)]
        have := hp' [] List.nil_prefix
        simp only [List.append_nil] at this
        rw [if_neg this]
      | some nd =>
        cases nd with
        | file x => rfl
        | dir => exact ih _ _ hn' hp'

theorem properElem_iff (e : Str) : properElem e = true ↔ e ≠ [] ∧ e ≠ dotStr := by
  simp [properElem]

theorem properElem_false (e : Str) (h : properElem e = false) : e = [] ∨ e = dotStr := by
  by_contra hc
  push_neg at hc
  rw [(properElem_iff e).mpr hc] at h
  cases h

/-- Without an element `..`, cleaning keeps the names and drops the rest. -/
theorem foldl_cleanStep_filter (r : Bool) (E st : List Str) (h : dotdotStr ∉ E) :
    E.foldl (cleanStep r) st = (E.filter properElem).reverse ++ st := by
  induction E generalizing st with
  | nil => rfl
  | cons e es ih =>
    simp only [List.mem_cons, not_or] at h
    rw [List.foldl_cons, ih _ h.2]
    cases hp : properElem e with
    | false =>
      have h1 := properElem_false e hp
      have hs : cleanStep r st e = st := by simp [cleanStep, h1]
      rw [hs, List.filter_cons_of_neg (by simp [hp])]
    | true =>
      have h1 := (properElem_iff e).mp hp
      have hs : cleanStep r st e = e :: st := by
        simp [cleanStep, h1.1, h1.2, Ne.symm h.1]
      rw [hs, List.filter_cons_of_pos hp]
      simp

/-- The walk passes over empty elements and `.`. -/
theorem walk_filter (fs : FS) (E cur : List Str) (p : Str → Bool)
    (hp : ∀ e, p e = false → e = [] ∨ e = dotStr) :
    walk fs cur (E.filter p) = walk fs cur E := by
  induction E generalizing cur with
  | nil => rfl
  | cons e es ih =>
    cases hpe : p e with
    | false =>
      rw [List.filter_cons_of_neg (by simp [hpe]), walk_skip _ _ _ _ (hp e hpe)]
      exact ih cur
    | true =>
      rw [List.filter_cons_of_pos hpe]
      by_cases h1 : e = [] ∨ e = dotStr
      · rw [walk_skip _ _ _ _ h1, walk_skip _ _ _ _ h1]; exact ih cur
      · by_cases h2 : e = dotdotStr
        · subst h2; rw [walk_dotdot, walk_dotdot]; exact ih _
        · rw [walk, walk]
          simp only [h1, h2, if_false]
          split
          · rfl
          · cases fs.lookup (cur ++ [e]) with
            | none => rfl
            | some nd =>
              cases nd with
              | dir => exact ih _
              | file x => rfl

theorem mkdirWalk_empty_first (fs : FS) (cur cs : List Str) :
    mkdirWalk fs cur ([] :: cs) = mkdirWalk fs cur cs :=
  mkdirWalk_skip fs cur cs [] (Or.inl rfl)

theorem dropWhile_to_sep (a b : Str) (h : sep ∉ a) :
    (a ++ sep :: b).dropWhile (fun c => c != sep) = sep :: b := by
  induction a with
  | nil => simp [List.dropWhile_cons]
  | cons c cs ih =>
    simp only [List.mem_cons, not_or] at h
    simp only [List.cons_append, List.dropWhile_cons]
    have : (c != sep) = true := by simpa using Ne.symm h.1
    rw [this]
    exact ih h.2

theorem takeWhile_to_sep (a b : Str) (h : sep ∉ a) :
    (a ++ sep :: b).takeWhile (fun c => c != sep) = a := by
  induction a with
  | nil => simp [List.takeWhile_cons]
  | cons c cs ih =>
    simp only [List.mem_cons, not_or] at h
    simp only [List.cons_append, List.takeWhile_cons]
    have : (c != sep) = true := by simpa using Ne.symm h.1
    rw [this]
    simp [ih h.2]

theorem takeWhile_no_sep (a : Str) (h : sep ∉ a) :
    a.takeWhile (fun c => c != sep) = a ∧ a.dropWhile (fun c => c != sep) = [] := by
  induction a with
  | nil => simp
  | cons c cs ih =>
    simp only [List.mem_cons, not_or] at h
    have : (c != sep) = true := by simpa using Ne.symm h.1
    simp [List.takeWhile_cons, List.dropWhile_cons, this, ih h.2]

/-- A path has no separator, or consists of a part before its last separator
and a part without separator after it. -/
theorem last_sep (X : Str) : sep ∉ X ∨ ∃ a b, X = a ++ sep :: b ∧ sep ∉ b := by
  induction X with
  | nil => left; simp
  | cons c cs ih =>
    rcases ih with h | ⟨a, b, hab, hb⟩
    · by_cases hc : c = sep
      · right; exact ⟨[], cs, by simp [hc], h⟩
      · left
        simp only [List.mem_cons, not_or]
        exact ⟨fun h' => hc h'.symm, h⟩
    · right; exact ⟨c :: a, b, by simp [hab], hb⟩

/-- The elements of a path are the elements `E` before the last and the last
element; its directory part has the elements `E` and an empty one, and is
rooted when the path is. -/
theorem path_elements (X : Str) :
    splitSep X = (splitSep X).dropLast ++ [lastElement X] ∧
      splitSep (dirPart X) = (splitSep X).dropLast ++ [[]] ∧
      isRooted (dirPart X) = isRooted X ∧
      (lastElement X ≠ [] → X.getLast? = (lastElement X).getLast?) := by
  rcases last_sep X with h | ⟨a, b, hab, hb⟩
  · have hr : sep ∉ X.reverse := by simpa using h
    obtain ⟨t1, t2⟩ := takeWhile_no_sep X.reverse hr
    have hl : lastElement X = X := by simp [lastElement, t1]
    have hd : dirPart X = [] := by simp [dirPart, t2]
    rw [hl, hd, splitSep_of_not_mem X h]
    refine ⟨by simp, by simp [splitSep], ?_, fun _ => rfl⟩
    cases X with
    | nil => rfl
    | cons c cs =>
      simp only [List.mem_cons, not_or] at h
      simp [isRooted, Ne.symm h.1]
  · have hrev : X.reverse = b.reverse ++ sep :: a.reverse := by simp [hab]
    have hbr : sep ∉ b.reverse := by simpa using hb
    have hl : lastElement X = b := by
      simp [lastElement, hrev, takeWhile_to_sep _ _ hbr]
    have hd : dirPart X = a ++ [sep] := by
      simp [dirPart, hrev, dropWhile_to_sep _ _ hbr]
    have hs : splitSep X = splitSep a ++ [b] := by
      rw [hab, splitSep_append, splitSep_of_not_mem b hb]
    have hs2 : splitSep (a ++ [sep]) = splitSep a ++ [[]] := by
      rw [splitSep_append]; rfl
    rw [hl, hd, hs, hs2]
    refine ⟨by simp, by simp, ?_, fun hne => ?_⟩
    · rw [hab]
      cases a <;> simp [isRooted]
    · rw [hab]
      rw [List.getLast?_append_of_ne_nil _ (by simp)]
      cases b with
      | nil => exact absurd rfl hne
      | cons x xs => simp [List.getLast?_cons_cons]

/-! ## Directory bootstrap -/

/-- C4, as stated, fails: on a filesystem without directory `a`, a call of
`saveDataToFile` for `a/b/c/output.json` returns an error in each of the three
modes and creates nothing. -/
theorem save_creates_no_directory :
    emptyFS.lookup [bytes "a"] = none ∧
      (saveDataToFile ⟨0, 0⟩ emptyFS (bytes "x") (bytes "a/b/c/output.json")
        OverwriteOutput).1 = some Errno.ENOENT ∧
      (saveDataToFile ⟨0, 0⟩ emptyFS (bytes "x") (bytes "a/b/c/output.json")
        AppendToOutput).1 = some Errno.ENOENT ∧
      (saveDataToFile ⟨0, 0⟩ emptyFS (bytes "x") (bytes "a/b/c/output.json")
        CreateNewOutput).1 = some Errno.ENOENT ∧
      (saveDataToFile ⟨0, 0⟩ emptyFS (bytes "x") (bytes "a/b/c/output.json")
        OverwriteOutput).2.lookup [bytes "a"] = none ∧
      ReadFile (saveDataToFile ⟨0, 0⟩ emptyFS (bytes "x") (bytes "a/b/c/output.json")
        OverwriteOutput).2 (bytes "a/b/c/output.json") = .error Errno.ENOENT := by
  refine ⟨by decide, by decide, by decide, by decide, by decide, by decide⟩

theorem joinSep_names_ne (d1 : Str) (rest : List Str) (h : ∀ e ∈ d1 :: rest, IsName e) :
    joinSep (d1 :: rest) ≠ dotStr ∧ joinSep (d1 :: rest) ≠ [sep] ∧ joinSep (d1 :: rest) ≠ [] := by
  have hs := splitSep_joinSep (d1 :: rest) (by simp) (fun e he => (h e he).2.1)
  have h1 := h d1 (by simp)
  refine ⟨fun h0 => ?_, fun h0 => ?_, joinSep_ne_nil _ (by simp) (fun e he => (h e he).1)⟩
  · rw [h0, splitSep_of_not_mem dotStr (by decide)] at hs
    simp only [List.cons.injEq] at hs
    exact h1.2.2.1 hs.1.symm
  · rw [h0, splitSep_cons_sep] at hs
    simp only [List.cons.injEq] at hs
    exact h1.1 hs.1.symm

theorem prefix_append_ne (cur ds q : List Str) (n : Str) (hq : q <+: ds) :
    cur ++ ds ++ [n] ≠ cur ++ q := by
  intro h
  have hl := congrArg List.length h
  have := hq.length_le
  simp only [List.length_append, List.length_singleton] at hl
  omega

theorem names_nonempty_sepfree (L : List Str) (h : ∀ e ∈ L, IsName e) :
    ∀ e ∈ L, e ≠ [] ∧ sep ∉ e := fun e he => ⟨(h e he).1, (h e he).2.1⟩

theorem dirNames_isName (X : Str) (hdd : dotdotStr ∉ splitSep X) :
    ∀ e ∈ dirNames X, IsName e := by
  intro e he
  unfold dirNames at he
  rw [List.mem_filter] at he
  obtain ⟨hm, hp⟩ := he
  have hmem : e ∈ splitSep X := List.mem_of_mem_dropLast hm
  have h1 := (properElem_iff e).mp hp
  exact ⟨h1.1, splitSep_not_mem X e hmem, h1.2, fun h => hdd (h ▸ hmem)⟩

/-- Without an element `..`, the directory of a path is the path of its
directory names. -/
theorem Dir_eq_render (X : Str) (hdd : dotdotStr ∉ splitSep X) :
    Dir X = renderPath (isRooted X) (dirNames X).reverse := by
  obtain ⟨h1, h2, h3, _⟩ := path_elements X
  have hE : dotdotStr ∉ (splitSep X).dropLast ++ [[]] := by
    simp only [List.mem_append, List.mem_singleton, not_or]
    exact ⟨fun h => hdd (List.mem_of_mem_dropLast h), by decide⟩
  unfold Dir Clean
  rw [h2, h3, foldl_cleanStep_filter _ _ _ hE, List.filter_append]
  have : [([] : Str)].filter properElem = [] := by decide
  rw [this]
  simp [dirNames]

/-- The path of a list of names, rooted or not: what it is not, how it splits,
and where it starts. -/
theorem render_names (r : Bool) (ds : List Str) (hn : ∀ e ∈ ds, IsName e) :
    isRooted (renderPath r ds.reverse) = r ∧
      (ds = [] → renderPath r ds.reverse = dotStr ∨ renderPath r ds.reverse = [sep]) ∧
      (ds ≠ [] → renderPath r ds.reverse ≠ dotStr ∧ renderPath r ds.reverse ≠ [sep] ∧
        splitSep (renderPath r ds.reverse) = (if r then [[]] else []) ++ ds) := by
  have hL := names_nonempty_sepfree ds hn
  cases ds with
  | nil =>
    cases r
    · refine ⟨by decide, fun _ => Or.inl (by decide), fun h => absurd rfl h⟩
    · refine ⟨by decide, fun _ => Or.inr (by decide), fun h => absurd rfl h⟩
  | cons d1 rest =>
    obtain ⟨a, b, c⟩ := joinSep_names_ne d1 rest hn
    have hs := splitSep_joinSep (d1 :: rest) (by simp) (fun e he => (hn e he).2.1)
    cases r
    · have hr : renderPath false (d1 :: rest).reverse = joinSep (d1 :: rest) := by
        simp [renderPath]
      rw [hr]
      exact ⟨isRooted_joinSep _ hL, fun h => by simp at h, fun _ => ⟨a, b, by simpa using hs⟩⟩
    · have hr : renderPath true (d1 :: rest).reverse = sep :: joinSep (d1 :: rest) := by
        simp [renderPath]
      rw [hr]
      refine ⟨by simp [isRooted], fun h => by simp at h, fun _ => ⟨?_, ?_, ?_⟩⟩
      · intro h; injection h with h1 _; revert h1; decide
      · intro h; injection h with _ h2; exact c h2
      · rw [splitSep_cons_sep, hs]; rfl

theorem walk_empty_first (fs : FS) (cur cs : List Str) :
    walk fs cur ([] :: cs) = walk fs cur cs :=
  walk_skip fs cur cs [] (Or.inl rfl)

/-- The walk through the directory of a path without `..` is the walk through
its directory names. -/
theorem walk_Dir (fs : FS) (cur : List Str) (X : Str) (hdd : dotdotStr ∉ splitSep X) :
    walk fs cur (splitSep (Dir X)) = walk fs cur (dirNames X) := by
  have hn := dirNames_isName X hdd
  obtain ⟨_, h0, h1⟩ := render_names (isRooted X) (dirNames X) hn
  rw [Dir_eq_render X hdd]
  by_cases hds : dirNames X = []
  · rcases h0 hds with h | h
    · rw [h, hds]; rfl
    · rw [h, hds]; rfl
  · rw [(h1 hds).2.2]
    cases isRooted X
    · rfl
    · exact walk_empty_first fs cur _

/-- The entry an output path without `..` that ends in a name names: the last
element, in the directory its directory names lead to. -/
theorem resolveEntry_names (fs : FS) (X : Str) (hf : IsName (lastElement X))
    (hv : ValidPath X) (hcwd : fs.lookup (startDir fs X) = some Node.dir) (D : List Str)
    (hw : walk fs (startDir fs X) (dirNames X) = .ok D) :
    resolveEntry fs X = .ok (D, lastElement X) := by
  obtain ⟨h1, _, _, h4⟩ := path_elements X
  have hpe : pathElems X =
      (splitSep X).dropLast.filter (fun e => decide (e ≠ [])) ++ [lastElement X] := by
    unfold pathElems
    conv_lhs => rw [h1]
    rw [List.filter_append]
    simp [hf.1]
  have hwalk : walk fs (startDir fs X)
      ((splitSep X).dropLast.filter (fun e => decide (e ≠ []))) = .ok D := by
    rw [walk_filter fs _ _ _ (fun e he => Or.inl (by simpa using he))]
    rw [← walk_filter fs _ _ properElem properElem_false]
    exact hw
  rw [resolveEntry_ok_iff, hpe]
  refine ⟨hv.1, hcwd, by simp, by simpa using hwalk, ?_, hf.2.2.1, hf.2.2.2, ?_⟩
  · rw [h4 hf.1]
    intro h
    exact hf.2.1 (List.mem_of_getLast?_eq_some h)
  · exact hv.2 _ (by rw [h1]; simp)

/-- What `createOutputDirectories` does for a path without `..`: nothing when
there is no directory name, else the loop of `os.MkdirAll` over the names. -/
theorem createOutputDirectories_names (fs : FS) (X : Str) (hdd : dotdotStr ∉ splitSep X)
    (hvD : ValidPath (Dir X)) (hcwd : fs.lookup (startDir fs X) = some Node.dir) :
    startDir fs (Dir X) = startDir fs X ∧
      createOutputDirectories fs X = mkdirWalk fs (startDir fs X) (dirNames X) := by
  have hn := dirNames_isName X hdd
  obtain ⟨hr, h0, h1⟩ := render_names (isRooted X) (dirNames X) hn
  have hD := Dir_eq_render X hdd
  have hsd : startDir fs (Dir X) = startDir fs X := by
    simp only [startDir, hD, hr]
  refine ⟨hsd, ?_⟩
  unfold createOutputDirectories
  by_cases hds : dirNames X = []
  · have : ¬ (Dir X ≠ dotStr ∧ Dir X ≠ [sep]) := by
      rw [hD]
      rcases h0 hds with h | h <;> simp [h]
    simp only [this, if_false, hds, mkdirWalk]
  · obtain ⟨a, b, c⟩ := h1 hds
    rw [← hD] at a b c
    simp only [ne_eq, a, b, not_false_eq_true, and_self, if_true]
    have hm : MkdirAll fs (Dir X) = mkdirWalk fs (startDir fs X) (dirNames X) := by
      unfold MkdirAll
      rw [hvD.1, hsd]
      simp only [hcwd, if_true, c]
      cases isRooted X
      · rfl
      · exact mkdirWalk_empty_first fs _ _
    rw [hm]
    cases hr : mkdirWalk fs (startDir fs X) (dirNames X) with
    | mk e fs1 => cases e <;> rfl

/-- C4, amended: for every output path without `..` element (which in the modes
other than `create` ends in a file name), every payload and every mode, when
the path, its directory and the target are acceptable path names, the
directory the path starts from exists, no regular file stands where a
directory is needed and the target is not an existing directory: the call of
`createOutputDirectories` followed by one call of `saveDataToFile` succeeds,
whether the parent directories existed or not; afterwards every intermediate
directory exists and the target file holds the payload (after its earlier
content in mode `append`). -/
theorem bootstrap_then_save (fs : FS) (now : Time) (P mode X : Str)
    (hdd : dotdotStr ∉ splitSep X)
    (hf : mode ≠ CreateNewOutput → IsName (lastElement X))
    (hvD : ValidPath (Dir X)) (hvT : ValidPath (targetPath now X mode))
    (hcwd : fs.lookup (startDir fs X) = some Node.dir)
    (hway : ∀ q, q <+: dirNames X → q ≠ [] →
      ∀ c, fs.lookup (startDir fs X ++ q) ≠ some (Node.file c))
    (htarget : fs.lookup (startDir fs X ++ dirNames X ++ [targetEntry now X mode]) ≠
      some Node.dir) :
    (createOutputDirectories fs X).1 = none ∧
      (saveDataToFile now (createOutputDirectories fs X).2 P X mode).1 = none ∧
      (∀ q, q <+: dirNames X → q ≠ [] →
        (saveDataToFile now (createOutputDirectories fs X).2 P X mode).2.lookup
          (startDir fs X ++ q) = some Node.dir) ∧
      ReadFile (saveDataToFile now (createOutputDirectories fs X).2 P X mode).2
          (targetPath now X mode) =
        .ok ((if mode = AppendToOutput then
          contentAt fs (startDir fs X ++ dirNames X ++ [targetEntry now X mode]) else []) ++
            P) := by
  have hn := dirNames_isName X hdd
  obtain ⟨hsd, hcreate⟩ := createOutputDirectories_names fs X hdd hvD hcwd
  have hlen : ∀ e ∈ dirNames X, e.length ≤ NAME_MAX := by
    intro e he
    by_cases hds : dirNames X = []
    · rw [hds] at he; simp at he
    · obtain ⟨_, _, h1⟩ := render_names (isRooted X) (dirNames X) hn
      refine hvD.2 e ?_
      rw [Dir_eq_render X hdd, (h1 hds).2.2]
      simp [he]
  have hm := mkdirWalk_names (dirNames X) fs (startDir fs X) hn hlen hway
  rw [hcreate]
  refine ⟨hm, ?_⟩
  generalize hfs1 : (mkdirWalk fs (startDir fs X) (dirNames X)).2 = fs1
  have hond : FS.OnlyNewDirs fs fs1 := by
    rw [← hfs1]; exact mkdirWalk_onlyNewDirs _ _ _
  have hstart1 : startDir fs1 X = startDir fs X := by
    simp only [startDir, hond.1]
  have hcwd1 : fs1.lookup (startDir fs X) = some Node.dir := hond.dirsWithin.2 _ hcwd
  obtain ⟨D, hwD⟩ := mkdirWalk_walk (dirNames X) fs (startDir fs X) hm
  rw [hfs1] at hwD
  obtain ⟨hDeq, hdirs⟩ := walk_names_result fs1 (dirNames X) (startDir fs X) D hn hwD
  subst hDeq
  have hsame : ∀ n : Str, fs1.lookup (startDir fs X ++ dirNames X ++ [n]) =
      fs.lookup (startDir fs X ++ dirNames X ++ [n]) := by
    intro n
    rw [← hfs1]
    exact mkdirWalk_names_other (dirNames X) fs (startDir fs X) hn _
      (fun q hq => prefix_append_ne (startDir fs X) (dirNames X) q n hq)
  have hnd : fs1.lookup (startDir fs X ++ dirNames X ++ [targetEntry now X mode]) ≠
      some Node.dir := by rw [hsame]; exact htarget
  have hfinal : ∀ (c : Str) (q : List Str), q <+: dirNames X → q ≠ [] →
      (fs1.set (startDir fs X ++ dirNames X ++ [targetEntry now X mode])
        (Node.file c)).lookup (startDir fs X ++ q) = some Node.dir := by
    intro c q hq hq0
    exact (FS.dirsWithin_set fs1 _ (Node.file c) hnd).2 _ (hdirs q hq hq0)
  by_cases hc : mode = CreateNewOutput
  · subst hc
    have hne : CreateNewOutput ≠ AppendToOutput := by decide
    have hte : targetEntry now X CreateNewOutput = entryName now X := by simp [targetEntry]
    rw [hte] at hnd hfinal ⊢
    have hD : resolveDir fs1 (Dir X) = .ok (startDir fs X ++ dirNames X) := by
      rw [resolveDir_ok_iff]
      have hsd1 : startDir fs1 (Dir X) = startDir fs X := by
        have := hsd
        simp only [startDir] at this ⊢
        rw [← hond.1]; exact this
      rw [hsd1, walk_Dir fs1 _ X hdd]
      exact ⟨hvD.1, hcwd1, hwD⟩
    have hp := resolve_target_create fs1 now X _ hD hvT
    rw [save_create now fs1 _ P _ _ hp hnd]
    simp only [hne, if_false, List.nil_append]
    exact ⟨trivial, hfinal _, readFile_set fs1 _ P _ _ hp hnd⟩
  · have hte : targetEntry now X mode = lastElement X := by simp [targetEntry, hc]
    have htp : targetPath now X mode = X := by simp [targetPath, hc]
    rw [hte] at hnd hfinal ⊢
    rw [htp] at hvT ⊢
    have hp : resolveEntry fs1 X = .ok (startDir fs X ++ dirNames X, lastElement X) := by
      refine resolveEntry_names fs1 X (hf hc) hvT ?_ _ ?_
      · rw [hstart1]; exact hcwd1
      · rw [hstart1]; exact hwD
    by_cases ha : mode = AppendToOutput
    · subst ha
      rw [save_append now fs1 _ P _ _ hp hnd]
      have hcont : contentAt fs1 (startDir fs X ++ dirNames X ++ [lastElement X]) =
          contentAt fs (startDir fs X ++ dirNames X ++ [lastElement X]) := by
        unfold contentAt
        rw [hsame]
      rw [hcont]
      simp only [if_true]
      exact ⟨trivial, hfinal _, readFile_set fs1 _ _ _ _ hp hnd⟩
    · rw [save_overwrite now fs1 _ P mode _ _ hc ha hp hnd]
      simp only [ha, if_false, List.nil_append]
      exact ⟨trivial, hfinal _, readFile_set fs1 _ P _ _ hp hnd⟩

/-- The amended C4 at work: the path `./a//b/output.json` in mode
`append`, where directory `a` exists and directory `b` does not. -/
theorem bootstrap_then_save_witness :
    dirNames (bytes "./a//b/output.json") = [bytes "a", bytes "b"] ∧
      partFS.lookup [bytes "a", bytes "b"] = none ∧
      (createOutputDirectories partFS (bytes "./a//b/output.json")).1 = none ∧
      (saveDataToFile ⟨0, 0⟩ (createOutputDirectories partFS (bytes "./a//b/output.json")).2
        (bytes "x") (bytes "./a//b/output.json") AppendToOutput).1 = none ∧
      ReadFile (saveDataToFile ⟨0, 0⟩
        (createOutputDirectories partFS (bytes "./a//b/output.json")).2 (bytes "x")
        (bytes "./a//b/output.json") AppendToOutput).2
        (targetPath ⟨0, 0⟩ (bytes "./a//b/output.json") AppendToOutput) = .ok (bytes "x") :=
  have h := bootstrap_then_save partFS ⟨0, 0⟩ (bytes "x") AppendToOutput
    (bytes "./a//b/output.json") (by decide) (fun _ => by decide) (by decide) (by decide)
    (by decide)
    (by
      intro q hq _ c
      have hd : dirNames (bytes "./a//b/output.json") = [bytes "a", bytes "b"] := by decide
      rw [hd] at hq
      have hq2 : q = [] ∨ q = [bytes "a"] ∨ q = [bytes "a", bytes "b"] := by
        rcases hq with ⟨t, ht⟩
        match q, ht with
        | [], _ => exact Or.inl rfl
        | [x], ht =>
          simp only [List.singleton_append, List.cons.injEq] at ht
          exact Or.inr (Or.inl (by rw [ht.1]))
        | [x, y], ht =>
          simp only [List.cons_append, List.nil_append, List.cons.injEq] at ht
          exact Or.inr (Or.inr (by rw [ht.1, ht.2.1]))
        | x :: y :: z :: r, ht =>
          simp only [List.cons_append, List.cons.injEq] at ht
          exact absurd ht.2.2 (by simp)
      rcases hq2 with rfl | rfl | rfl
      · have e : partFS.lookup (startDir partFS (bytes "./a//b/output.json") ++ []) =
            some Node.dir := by decide
        rw [e]; intro h; cases h
      · have e : partFS.lookup (startDir partFS (bytes "./a//b/output.json") ++ [bytes "a"]) =
            some Node.dir := by decide
        rw [e]; intro h; cases h
      · have e : partFS.lookup (startDir partFS (bytes "./a//b/output.json") ++
            [bytes "a", bytes "b"]) = none := by decide
        rw [e]; intro h; cases h)
    (by decide)
  ⟨by decide, by decide, h.1, h.2.1, h.2.2.2⟩

/-- The bootstrap followed by a save also succeeds for an absolute path. -/
theorem bootstrap_absolute :
    (createOutputDirectories emptyFS (bytes "/a/b/c/output.json")).1 = none ∧
      (saveDataToFile ⟨0, 0⟩ (createOutputDirectories emptyFS (bytes "/a/b/c/output.json")).2
        (bytes "x") (bytes "/a/b/c/output.json") OverwriteOutput).1 = none ∧
      ReadFile (saveDataToFile ⟨0, 0⟩
        (createOutputDirectories emptyFS (bytes "/a/b/c/output.json")).2 (bytes "x")
        (bytes "/a/b/c/output.json") OverwriteOutput).2 (bytes "/a/b/c/output.json") =
        .ok (bytes "x") := by
  decide

/-- Why the element `..` is excluded from the bootstrap: for `a/../b/f` the
bootstrap creates `b` (the cleaned directory) and not `a`, and the save, which
walks the path as written, does not find `a`. -/
theorem bootstrap_dotdot_fails :
    (createOutputDirectories emptyFS (bytes "a/../b/f")).1 = none ∧
      (createOutputDirectories emptyFS (bytes "a/../b/f")).2.lookup [bytes "b"] =
        some Node.dir ∧
      (createOutputDirectories emptyFS (bytes "a/../b/f")).2.lookup [bytes "a"] = none ∧
      (saveDataToFile ⟨0, 0⟩ (createOutputDirectories emptyFS (bytes "a/../b/f")).2
        (bytes "x") (bytes "a/../b/f") OverwriteOutput).1 = some Errno.ENOENT := by
  decide

/-- Why the bootstrap needs that no regular file stands in the way and that
the target is not a directory: the bootstrap fails on the first, the save
on the second. -/
theorem bootstrap_blocked :
    (createOutputDirectories blockedWorld.fs (bytes "out/x.json")).1 = some Errno.ENOTDIR ∧
      (createOutputDirectories partFS (bytes "a")).1 = none ∧
      (saveDataToFile ⟨0, 0⟩ (createOutputDirectories partFS (bytes "a")).2 (bytes "x")
        (bytes "a") OverwriteOutput).1 = some Errno.EISDIR := by
  decide

/-! ## The poll loop: what a cycle adds to the trace -/

theorem fetch_trace (env : Env) (k : Nat) (w : World) (url X mode : Str) :
    ∃ evs, (fetchDataFromAPI env k w url X mode).2.trace =
        w.trace ++ Event.httpGet url :: evs ∧
      (∀ e ∈ evs, e.isGet = false ∧ e.isSleep = false ∧ e.isCreateDirs = false) := by
  unfold fetchDataFromAPI
  cases env.http url k with
  | getFailed c => exact ⟨[], by simp [World.emit], by simp⟩
  | readFailed c => exact ⟨[], by simp [World.emit], by simp⟩
  | body b =>
    simp only []
    cases h : saveDataToFile (env.clock k)
        ((w.emit (Event.httpGet url)).emit (Event.save placeholder X mode)).fs placeholder X
        mode with
    | mk err fs1 =>
      cases err with
      | some e =>
        refine ⟨[Event.save placeholder X mode], by simp [World.emit], ?_⟩
        simp [Event.isGet, Event.isSleep, Event.isCreateDirs]
      | none =>
        refine ⟨[Event.save placeholder X mode, Event.printSaved X], by simp [World.emit], ?_⟩
        simp [Event.isGet, Event.isSleep, Event.isCreateDirs]

theorem mainCycle_trace (env : Env) (cfg : Configuration) (k : Nat) (w : World) :
    ∃ evs, (mainCycle env cfg k w).trace =
        w.trace ++ Event.httpGet cfg.APIURL :: evs ++ [Event.sleep (sleepDuration cfg.Frequency)] ∧
      (∀ e ∈ evs, e.isGet = false ∧ e.isSleep = false ∧ e.isCreateDirs = false) := by
  obtain ⟨evs, h1, h2⟩ := fetch_trace env k w cfg.APIURL cfg.OutputFile cfg.OutputMode
  unfold mainCycle
  simp only []
  cases h : (fetchDataFromAPI env k w cfg.APIURL cfg.OutputFile cfg.OutputMode).1 with
  | none =>
    refine ⟨evs, by simp [World.emit, h1], h2⟩
  | some e =>
    refine ⟨evs ++ [Event.printFetchError e], by simp [World.emit, h1], ?_⟩
    intro x hx
    simp only [List.mem_append, List.mem_singleton] at hx
    rcases hx with hx | rfl
    · exact h2 x hx
    · simp [Event.isGet, Event.isSleep, Event.isCreateDirs]

theorem mainCycle_counts (env : Env) (cfg : Configuration) (k : Nat) (w : World) :
    (mainCycle env cfg k w).trace.countP Event.isGet = w.trace.countP Event.isGet + 1 ∧
      (mainCycle env cfg k w).trace.countP Event.isSleep = w.trace.countP Event.isSleep + 1 ∧
      (mainCycle env cfg k w).trace.countP Event.isCreateDirs =
        w.trace.countP Event.isCreateDirs := by
  obtain ⟨evs, h1, h2⟩ := mainCycle_trace env cfg k w
  rw [h1]
  have hg : evs.countP Event.isGet = 0 := by
    rw [List.countP_eq_zero]; intro e he; simp [(h2 e he).1]
  have hs : evs.countP Event.isSleep = 0 := by
    rw [List.countP_eq_zero]; intro e he; simp [(h2 e he).2.1]
  have hc : evs.countP Event.isCreateDirs = 0 := by
    rw [List.countP_eq_zero]; intro e he; simp [(h2 e he).2.2]
  simp [List.countP_append, List.countP_cons, hg, hs, hc, Event.isGet, Event.isSleep,
    Event.isCreateDirs]

/-- The loop of `main` never stops: `n` cycles make `n` fetches and `n` sleeps,
whatever the outcome of each cycle. -/
theorem mainLoop_counts (env : Env) (cfg : Configuration) (n k : Nat) (w : World) :
    (mainLoop env cfg n k w).trace.countP Event.isGet = w.trace.countP Event.isGet + n ∧
      (mainLoop env cfg n k w).trace.countP Event.isSleep = w.trace.countP Event.isSleep + n ∧
      (mainLoop env cfg n k w).trace.countP Event.isCreateDirs =
        w.trace.countP Event.isCreateDirs := by
  induction n generalizing k w with
  | zero => simp [mainLoop]
  | succ n ih =>
    rw [mainLoop]
    obtain ⟨a, b, c⟩ := ih (k + 1) (mainCycle env cfg k w)
    obtain ⟨a', b', c'⟩ := mainCycle_counts env cfg k w
    rw [a, b, c, a', b', c']
    omega

theorem mainLoop_extends (env : Env) (cfg : Configuration) (n k : Nat) (w : World) :
    ∃ evs, (mainLoop env cfg n k w).trace = w.trace ++ evs := by
  induction n generalizing k w with
  | zero => exact ⟨[], by simp [mainLoop]⟩
  | succ n ih =>
    rw [mainLoop]
    obtain ⟨evs, h⟩ := ih (k + 1) (mainCycle env cfg k w)
    obtain ⟨evs', h', _⟩ := mainCycle_trace env cfg k w
    exact ⟨_, by rw [h, h', List.append_assoc, List.append_assoc]⟩

/-! ## Cycle isolation -/

/-- Within the range of a 64-bit duration the sleep lasts `Frequency` seconds. -/
theorem sleepDuration_seconds (f : Int) (h0 : 0 ≤ f) (h1 : f ≤ 9223372036) :
    sleepDuration f = f * 1000000000 := by
  unfold sleepDuration
  omega

/-- C5, as stated, fails: with `Frequency = 9223372037` the product
`time.Duration(Frequency) * time.Second` wraps to a negative duration, for
which `time.Sleep` returns at once; after the failed fetch of cycle 0 the loop
does not sleep the configured interval. -/
theorem sleep_wraps :
    sleepDuration longConfig.Frequency = -9223372036709551616 ∧
      sleepDuration longConfig.Frequency ≠ longConfig.Frequency * 1000000000 ∧
      (mainCycle offlineEnv longConfig 0 emptyWorld).trace =
        [Event.httpGet longConfig.APIURL, Event.printFetchError (Err.get 0),
          Event.sleep (-9223372036709551616)] := by
  decide

/-- C5, amended: for every configuration whose `Frequency` is between 0 and
9223372036 seconds, when the fetch of cycle `k` fails (at `http.Get` or at
reading the body), `fetchDataFromAPI` returns the error having done nothing but
the GET: `saveDataToFile` is not called and the filesystem after the cycle is
the one before it; the loop of `main` reports the error, sleeps `Frequency`
seconds and goes on with the GET of cycle `k + 1`. -/
theorem fetch_failure_isolated (env : Env) (cfg : Configuration) (k : Nat) (w : World)
    (hfail : ∀ b, env.http cfg.APIURL k ≠ FetchOutcome.body b)
    (h0 : 0 ≤ cfg.Frequency) (h1 : cfg.Frequency ≤ 9223372036) :
    ∃ e, fetchDataFromAPI env k w cfg.APIURL cfg.OutputFile cfg.OutputMode =
        (some e, w.emit (Event.httpGet cfg.APIURL)) ∧
      (mainCycle env cfg k w).fs = w.fs ∧
      (mainCycle env cfg k w).trace =
        w.trace ++ [Event.httpGet cfg.APIURL, Event.printFetchError e,
          Event.sleep (cfg.Frequency * 1000000000)] ∧
      ∀ n, ∃ rest, (mainLoop env cfg (n + 2) k w).trace =
        w.trace ++ [Event.httpGet cfg.APIURL, Event.printFetchError e,
          Event.sleep (cfg.Frequency * 1000000000), Event.httpGet cfg.APIURL] ++ rest := by
  have hs := sleepDuration_seconds cfg.Frequency h0 h1
  have hf : ∃ e, fetchDataFromAPI env k w cfg.APIURL cfg.OutputFile cfg.OutputMode =
      (some e, w.emit (Event.httpGet cfg.APIURL)) := by
    unfold fetchDataFromAPI
    cases h : env.http cfg.APIURL k with
    | getFailed c => exact ⟨Err.get c, rfl⟩
    | readFailed c => exact ⟨Err.read c, rfl⟩
    | body b => exact absurd h (hfail b)
  obtain ⟨e, he⟩ := hf
  have hc : mainCycle env cfg k w =
      ((w.emit (Event.httpGet cfg.APIURL)).emit (Event.printFetchError e)).emit
        (Event.sleep (cfg.Frequency * 1000000000)) := by
    unfold mainCycle
    rw [he, hs]
  refine ⟨e, he, by rw [hc]; rfl, by rw [hc]; simp [World.emit], ?_⟩
  intro n
  rw [mainLoop, mainLoop]
  obtain ⟨evs, h1⟩ := mainLoop_extends env cfg n (k + 1 + 1)
    (mainCycle env cfg (k + 1) (mainCycle env cfg k w))
  obtain ⟨evs', h2, _⟩ := mainCycle_trace env cfg (k + 1) (mainCycle env cfg k w)
  refine ⟨evs' ++ [Event.sleep (sleepDuration cfg.Frequency)] ++ evs, ?_⟩
  rw [h1, h2, hc]
  simp [World.emit]

/-- The amended C5 at work: offline, with one second between cycles, the first
cycle leaves the empty filesystem empty, sleeps one second and is followed by
the second. -/
theorem fetch_failure_isolated_witness :
    (∀ b, offlineEnv.http (sampleConfig OverwriteOutput).APIURL 0 ≠ FetchOutcome.body b) ∧
      0 ≤ (sampleConfig OverwriteOutput).Frequency ∧
      (sampleConfig OverwriteOutput).Frequency ≤ 9223372036 ∧
      ∃ e, fetchDataFromAPI offlineEnv 0 emptyWorld (sampleConfig OverwriteOutput).APIURL
          (sampleConfig OverwriteOutput).OutputFile (sampleConfig OverwriteOutput).OutputMode =
          (some e, emptyWorld.emit (Event.httpGet (sampleConfig OverwriteOutput).APIURL)) ∧
        (mainCycle offlineEnv (sampleConfig OverwriteOutput) 0 emptyWorld).fs = emptyWorld.fs ∧
        (mainCycle offlineEnv (sampleConfig OverwriteOutput) 0 emptyWorld).trace =
          emptyWorld.trace ++ [Event.httpGet (sampleConfig OverwriteOutput).APIURL,
            Event.printFetchError e,
            Event.sleep ((sampleConfig OverwriteOutput).Frequency * 1000000000)] ∧
        ∀ n, ∃ rest, (mainLoop offlineEnv (sampleConfig OverwriteOutput) (n + 2) 0
            emptyWorld).trace =
          emptyWorld.trace ++ [Event.httpGet (sampleConfig OverwriteOutput).APIURL,
            Event.printFetchError e,
            Event.sleep ((sampleConfig OverwriteOutput).Frequency * 1000000000),
            Event.httpGet (sampleConfig OverwriteOutput).APIURL] ++ rest :=
  ⟨fun b h => by simp [offlineEnv] at h, by decide, by decide,
    fetch_failure_isolated offlineEnv (sampleConfig OverwriteOutput) 0 emptyWorld
      (fun b h => by simp [offlineEnv] at h) (by decide) (by decide)⟩

/-! ## The bounded run -/

/-- C7, as stated, fails for the bounded run: with `MAX_ITERATIONS = 2` and a
fetch that fails in the first cycle, `runApplication` returns the error after
one GET, without sleeping and without a second cycle. -/
theorem bounded_run_stops_at_failure :
    (runApplication offlineEnv 2 (sampleConfig OverwriteOutput) emptyWorld).1 =
        some (Err.wrapped "Error fetching data" (Err.get 0)) ∧
      (runApplication offlineEnv 2 (sampleConfig OverwriteOutput) emptyWorld).2.trace =
        [Event.createDirs (bytes "output.json"), Event.httpGet (bytes "u")] ∧
      (runApplication offlineEnv 2 (sampleConfig OverwriteOutput) emptyWorld).2.trace.countP
        Event.isGet = 1 := by
  refine ⟨by decide, by decide, by decide⟩

theorem fetch_counts (env : Env) (k : Nat) (w : World) (url X mode : Str) :
    (fetchDataFromAPI env k w url X mode).2.trace.countP Event.isGet =
        w.trace.countP Event.isGet + 1 ∧
      (fetchDataFromAPI env k w url X mode).2.trace.countP Event.isSleep =
        w.trace.countP Event.isSleep ∧
      (fetchDataFromAPI env k w url X mode).2.trace.countP Event.isCreateDirs =
        w.trace.countP Event.isCreateDirs := by
  obtain ⟨evs, h1, h2⟩ := fetch_trace env k w url X mode
  rw [h1]
  have hg : evs.countP Event.isGet = 0 := by
    rw [List.countP_eq_zero]; intro e he; simp [(h2 e he).1]
  have hs : evs.countP Event.isSleep = 0 := by
    rw [List.countP_eq_zero]; intro e he; simp [(h2 e he).2.1]
  have hc : evs.countP Event.isCreateDirs = 0 := by
    rw [List.countP_eq_zero]; intro e he; simp [(h2 e he).2.2]
  simp [List.countP_append, List.countP_cons, hg, hs, hc, Event.isGet, Event.isSleep,
    Event.isCreateDirs]

theorem emit_sleep_counts (w : World) (d : Int) :
    (w.emit (Event.sleep d)).trace.countP Event.isGet = w.trace.countP Event.isGet ∧
      (w.emit (Event.sleep d)).trace.countP Event.isSleep = w.trace.countP Event.isSleep + 1 ∧
      (w.emit (Event.sleep d)).trace.countP Event.isCreateDirs =
        w.trace.countP Event.isCreateDirs := by
  simp [World.emit, List.countP_append, Event.isGet, Event.isSleep, Event.isCreateDirs]

/-- What the loop of `runApplication` does with `N` iterations ahead: either
all of them, with `N` fetches and `N` sleeps and no error, or it returns the
error of the first failing cycle `j`, after `j + 1` fetches and `j` sleeps. -/
theorem runLoop_counts (env : Env) (cfg : Configuration) (N i : Nat) (w : World) :
    ((runLoop env cfg N i w).1 = none ∧
        (runLoop env cfg N i w).2.trace.countP Event.isGet = w.trace.countP Event.isGet + N ∧
        (runLoop env cfg N i w).2.trace.countP Event.isSleep =
          w.trace.countP Event.isSleep + N) ∨
      (∃ j e, j < N ∧ (runLoop env cfg N i w).1 = some (Err.wrapped "Error fetching data" e) ∧
        (runLoop env cfg N i w).2.trace.countP Event.isGet =
          w.trace.countP Event.isGet + j + 1 ∧
        (runLoop env cfg N i w).2.trace.countP Event.isSleep =
          w.trace.countP Event.isSleep + j) := by
  induction N generalizing i w with
  | zero => left; simp [runLoop]
  | succ n ih =>
    rw [runLoop]
    obtain ⟨g1, g2, _⟩ := fetch_counts env i w cfg.APIURL cfg.OutputFile cfg.OutputMode
    cases hf : fetchDataFromAPI env i w cfg.APIURL cfg.OutputFile cfg.OutputMode with
    | mk err w1 =>
      rw [hf] at g1 g2
      simp only at g1 g2
      cases err with
      | some e =>
        right
        exact ⟨0, e, by omega, rfl, by simpa using g1, by simpa using g2⟩
      | none =>
        simp only []
        obtain ⟨s1, s2, _⟩ := emit_sleep_counts w1 (sleepDuration cfg.Frequency)
        rcases ih (i + 1) (w1.emit (Event.sleep (sleepDuration cfg.Frequency))) with
          ⟨a, b, c⟩ | ⟨j, e, hj, a, b, c⟩
        · left
          exact ⟨a, by rw [b, s1, g1]; omega, by rw [c, s2, g2]; omega⟩
        · right
          exact ⟨j + 1, e, by omega, a, by rw [b, s1, g1]; omega, by rw [c, s2, g2]; omega⟩

/-- C7, amended: a failing cycle never ends the loop of `main`, which makes `n`
fetches and `n` sleeps in `n` cycles whatever their outcomes; the bounded run
`runApplication` returns no error exactly when it has slept `N` times, having
made `N` fetches, and at the first cycle whose fetch or write fails it returns
that error at once, without sleeping and without executing the next cycle. -/
theorem cycle_failure_policy (env : Env) (cfg : Configuration) :
    (∀ n k w,
      (mainLoop env cfg n k w).trace.countP Event.isGet = w.trace.countP Event.isGet + n ∧
      (mainLoop env cfg n k w).trace.countP Event.isSleep = w.trace.countP Event.isSleep + n) ∧
    (∀ N i w e,
      (fetchDataFromAPI env i w cfg.APIURL cfg.OutputFile cfg.OutputMode).1 = some e →
      runLoop env cfg (N + 1) i w =
        (some (Err.wrapped "Error fetching data" e),
          (fetchDataFromAPI env i w cfg.APIURL cfg.OutputFile cfg.OutputMode).2)) ∧
    (∀ N i w,
      ((runLoop env cfg N i w).1 = none ↔
        (runLoop env cfg N i w).2.trace.countP Event.isSleep =
          w.trace.countP Event.isSleep + N) ∧
      ((runLoop env cfg N i w).1 = none →
        (runLoop env cfg N i w).2.trace.countP Event.isGet = w.trace.countP Event.isGet + N) ∧
      ((runLoop env cfg N i w).1 ≠ none →
        (runLoop env cfg N i w).2.trace.countP Event.isGet ≤ w.trace.countP Event.isGet + N ∧
        (runLoop env cfg N i w).2.trace.countP Event.isSleep + 1 + w.trace.countP Event.isGet =
          (runLoop env cfg N i w).2.trace.countP Event.isGet + w.trace.countP Event.isSleep)) ∧
    (∀ N w, (createOutputDirectories w.fs cfg.OutputFile).1 = none →
      runApplication env N cfg w =
        runLoop env cfg N 0
          { fs := (createOutputDirectories w.fs cfg.OutputFile).2,
            trace := w.trace ++ [Event.createDirs cfg.OutputFile] }) := by
  refine ⟨fun n k w => ⟨(mainLoop_counts env cfg n k w).1, (mainLoop_counts env cfg n k w).2.1⟩,
    ?_, ?_, ?_⟩
  rotate_right
  · intro N w h
    unfold runApplication
    cases hc : createOutputDirectories (w.emit (Event.createDirs cfg.OutputFile)).fs
        cfg.OutputFile with
    | mk err fs1 =>
      have hc' : createOutputDirectories w.fs cfg.OutputFile = (err, fs1) := hc
      rw [hc'] at h
      simp only at h
      subst h
      simp only [hc, hc']
      rfl
  · intro N i w e he
    rw [runLoop]
    cases hf : fetchDataFromAPI env i w cfg.APIURL cfg.OutputFile cfg.OutputMode with
    | mk err w1 =>
      rw [hf] at he
      simp only at he
      subst he
      rfl
  · intro N i w
    rcases runLoop_counts env cfg N i w with ⟨a, b, c⟩ | ⟨j, e, hj, a, b, c⟩
    · exact ⟨⟨fun _ => c, fun _ => a⟩, fun _ => b, fun h => absurd a h⟩
    · refine ⟨⟨fun h => ?_, fun h => ?_⟩, fun h => ?_, fun _ => ⟨by omega, by omega⟩⟩
      · rw [a] at h; cases h
      · omega
      · rw [a] at h; cases h

/-- C7, amended, at work: offline, the loop of `main` makes three fetches in
three cycles, each of which fails. -/
theorem cycle_failure_policy_witness :
    (mainLoop offlineEnv (sampleConfig OverwriteOutput) 3 0 emptyWorld).trace.countP
        Event.isGet = emptyWorld.trace.countP Event.isGet + 3 ∧
      (mainLoop offlineEnv (sampleConfig OverwriteOutput) 3 0 emptyWorld).trace.countP
        Event.isSleep = emptyWorld.trace.countP Event.isSleep + 3 :=
  (cycle_failure_policy offlineEnv (sampleConfig OverwriteOutput)).1 3 0 emptyWorld

/-! ## Directory bootstrap comes first, once -/

theorem mainLoop_no_createDirs (env : Env) (cfg : Configuration) (n k : Nat) (w : World) :
    ∃ evs, (mainLoop env cfg n k w).trace = w.trace ++ evs ∧
      evs.countP Event.isCreateDirs = 0 := by
  obtain ⟨evs, h⟩ := mainLoop_extends env cfg n k w
  refine ⟨evs, h, ?_⟩
  have := (mainLoop_counts env cfg n k w).2.2
  rw [h, List.countP_append] at this
  omega

theorem runLoop_no_createDirs (env : Env) (cfg : Configuration) (N i : Nat) (w : World) :
    ∃ evs, (runLoop env cfg N i w).2.trace = w.trace ++ evs ∧
      evs.countP Event.isCreateDirs = 0 := by
  induction N generalizing i w with
  | zero => exact ⟨[], by simp [runLoop], rfl⟩
  | succ n ih =>
    rw [runLoop]
    obtain ⟨evs, h1, h2⟩ := fetch_trace env i w cfg.APIURL cfg.OutputFile cfg.OutputMode
    have hc : evs.countP Event.isCreateDirs = 0 := by
      rw [List.countP_eq_zero]; intro e he; simp [(h2 e he).2.2]
    cases hf : fetchDataFromAPI env i w cfg.APIURL cfg.OutputFile cfg.OutputMode with
    | mk err w1 =>
      rw [hf] at h1
      simp only at h1
      cases err with
      | some e =>
        exact ⟨_, h1, by simp [List.countP_cons, hc, Event.isCreateDirs]⟩
      | none =>
        simp only []
        obtain ⟨evs', h3, h4⟩ := ih (i + 1) (w1.emit (Event.sleep (sleepDuration cfg.Frequency)))
        refine ⟨Event.httpGet cfg.APIURL :: evs ++
          Event.sleep (sleepDuration cfg.Frequency) :: evs', ?_, ?_⟩
        · rw [h3]; simp [World.emit, h1]
        · simp [List.countP_append, List.countP_cons, hc, h4, Event.isCreateDirs]

/-- C8: in `main` and in `runApplication` the call of `createOutputDirectories`
on the configured output path is the first thing done and is not repeated.
When it fails the run ends at once: no GET is issued, and every regular file
is as it was; `main` has then returned, and it returns in no other case. -/
theorem directory_bootstrap_first (env : Env) (cfg : Configuration) (w : World) :
    (∀ n, ∃ evs, (main env cfg n w).2.trace =
        w.trace ++ Event.createDirs cfg.OutputFile :: evs ∧
      evs.countP Event.isCreateDirs = 0) ∧
    (∀ N, ∃ evs, (runApplication env N cfg w).2.trace =
        w.trace ++ Event.createDirs cfg.OutputFile :: evs ∧
      evs.countP Event.isCreateDirs = 0) ∧
    (∀ err, (createOutputDirectories w.fs cfg.OutputFile).1 = some err →
      (∀ n, (main env cfg n w).1 = true ∧
        (main env cfg n w).2.trace =
          w.trace ++ [Event.createDirs cfg.OutputFile, Event.printDirError (Err.sys err)] ∧
        ∀ p c, (main env cfg n w).2.fs.lookup p = some (Node.file c) ↔
          w.fs.lookup p = some (Node.file c)) ∧
      (∀ N, (runApplication env N cfg w).1 =
          some (Err.wrapped "Error creating output directories" (Err.sys err)) ∧
        (runApplication env N cfg w).2.trace = w.trace ++ [Event.createDirs cfg.OutputFile] ∧
        ∀ p c, (runApplication env N cfg w).2.fs.lookup p = some (Node.file c) ↔
          w.fs.lookup p = some (Node.file c))) ∧
    ((createOutputDirectories w.fs cfg.OutputFile).1 = none →
      ∀ n, (main env cfg n w).1 = false ∧
        (main env cfg n w).2.trace.countP Event.isGet = w.trace.countP Event.isGet + n) := by
  have hond := createOutputDirectories_onlyNewDirs w.fs cfg.OutputFile
  cases hc : createOutputDirectories w.fs cfg.OutputFile with
  | mk err fs1 =>
    rw [hc] at hond
    simp only at hond
    have hc' : createOutputDirectories (w.emit (Event.createDirs cfg.OutputFile)).fs
        cfg.OutputFile = (err, fs1) := hc
    cases err with
    | some e =>
      have hmain : ∀ n, main env cfg n w =
          (true, ({ fs := fs1, trace := w.trace ++ [Event.createDirs cfg.OutputFile] } :
            World).emit (Event.printDirError (Err.sys e))) := by
        intro n; unfold main; simp only [hc']; rfl
      have hrun : ∀ N, runApplication env N cfg w =
          (some (Err.wrapped "Error creating output directories" (Err.sys e)),
            { fs := fs1, trace := w.trace ++ [Event.createDirs cfg.OutputFile] }) := by
        intro N; unfold runApplication; simp only [hc']; rfl
      refine ⟨fun n => ?_, fun N => ?_, ?_, ?_⟩
      · rw [hmain n]
        exact ⟨[Event.printDirError (Err.sys e)], by simp [World.emit],
          by simp [Event.isCreateDirs]⟩
      · rw [hrun N]
        exact ⟨[], by simp, rfl⟩
      · intro err herr
        simp only [Option.some.injEq] at herr
        subst herr
        refine ⟨fun n => ?_, fun N => ?_⟩
        · rw [hmain n]
          exact ⟨rfl, by simp [World.emit], fun p c => hond.file_iff p c⟩
        · rw [hrun N]
          exact ⟨rfl, rfl, fun p c => hond.file_iff p c⟩
      · intro h; simp at h
    | none =>
      have hmain : ∀ n, main env cfg n w =
          (false, mainLoop env cfg n 0
            { fs := fs1, trace := w.trace ++ [Event.createDirs cfg.OutputFile] }) := by
        intro n; unfold main; simp only [hc']; rfl
      have hrun : ∀ N, runApplication env N cfg w =
          runLoop env cfg N 0
            { fs := fs1, trace := w.trace ++ [Event.createDirs cfg.OutputFile] } := by
        intro N; unfold runApplication; simp only [hc']; rfl
      refine ⟨fun n => ?_, fun N => ?_, ?_, ?_⟩
      · rw [hmain n]
        obtain ⟨evs, h1, h2⟩ := mainLoop_no_createDirs env cfg n 0
          { fs := fs1, trace := w.trace ++ [Event.createDirs cfg.OutputFile] }
        exact ⟨evs, by simp [h1], h2⟩
      · rw [hrun N]
        obtain ⟨evs, h1, h2⟩ := runLoop_no_createDirs env cfg N 0
          { fs := fs1, trace := w.trace ++ [Event.createDirs cfg.OutputFile] }
        exact ⟨evs, by simp [h1], h2⟩
      · intro err herr; simp at herr
      · intro _ n
        rw [hmain n]
        refine ⟨rfl, ?_⟩
        have := (mainLoop_counts env cfg n 0
          { fs := fs1, trace := w.trace ++ [Event.createDirs cfg.OutputFile] }).1
        rw [this]
        simp [List.countP_append, Event.isGet]

/-- C8 at work: a regular file in the place of the output directory makes
`createOutputDirectories` fail, and `main` returns without a GET. -/
theorem directory_bootstrap_first_witness :
    (createOutputDirectories blockedWorld.fs blockedConfig.OutputFile).1 =
        some Errno.ENOTDIR ∧
      ∀ n, (main (onlineEnv (bytes "joke")) blockedConfig n blockedWorld).1 = true ∧
        (main (onlineEnv (bytes "joke")) blockedConfig n blockedWorld).2.trace =
          blockedWorld.trace ++ [Event.createDirs blockedConfig.OutputFile,
            Event.printDirError (Err.sys Errno.ENOTDIR)] ∧
        ∀ p c, (main (onlineEnv (bytes "joke")) blockedConfig n blockedWorld).2.fs.lookup p =
            some (Node.file c) ↔ blockedWorld.fs.lookup p = some (Node.file c) :=
  ⟨by decide,
    ((directory_bootstrap_first (onlineEnv (bytes "joke")) blockedConfig blockedWorld).2.2.1
      Errno.ENOTDIR (by decide)).1⟩

/-! ## The fetched content is ignored -/

theorem placeholder_length : placeholder.length = 20 := by decide

theorem placeholder_ne_nil : placeholder ≠ [] := by decide

theorem fetch_of_body (env : Env) (k : Nat) (w : World) (url X mode B : Str)
    (hB : env.http url k = FetchOutcome.body B) :
    (fetchDataFromAPI env k w url X mode).2.fs =
        (saveDataToFile (env.clock k) w.fs placeholder X mode).2 ∧
      (fetchDataFromAPI env k w url X mode).1 =
        (saveDataToFile (env.clock k) w.fs placeholder X mode).1.map Err.sys ∧
      ∃ evs, (fetchDataFromAPI env k w url X mode).2.trace =
        w.trace ++ [Event.httpGet url, Event.save placeholder X mode] ++ evs ∧
        evs.countP Event.isSave = 0 := by
  unfold fetchDataFromAPI
  simp only [hB]
  have hfs : ((w.emit (Event.httpGet url)).emit (Event.save placeholder X mode)).fs = w.fs := rfl
  rw [hfs]
  cases h : saveDataToFile (env.clock k) w.fs placeholder X mode with
  | mk err fs1 =>
    cases err with
    | some e => exact ⟨rfl, rfl, [], by simp [World.emit], rfl⟩
    | none =>
      exact ⟨rfl, rfl, [Event.printSaved X], by simp [World.emit], by simp [Event.isSave]⟩

theorem fetch_success (env : Env) (k : Nat) (w : World) (url X mode : Str)
    (h : (fetchDataFromAPI env k w url X mode).1 = none) :
    (saveDataToFile (env.clock k) w.fs placeholder X mode).1 = none ∧
      (fetchDataFromAPI env k w url X mode).2.fs =
        (saveDataToFile (env.clock k) w.fs placeholder X mode).2 := by
  cases hB : env.http url k with
  | getFailed c => simp [fetchDataFromAPI, hB] at h
  | readFailed c => simp [fetchDataFromAPI, hB] at h
  | body B =>
    obtain ⟨h1, h2, _⟩ := fetch_of_body env k w url X mode B hB
    rw [h2] at h
    refine ⟨?_, h1⟩
    cases hs : (saveDataToFile (env.clock k) w.fs placeholder X mode).1 with
    | none => rfl
    | some e => rw [hs] at h; simp at h

theorem fetch_independent (a b : Env) (hab : SameButPayload a b) (k : Nat) (w : World)
    (url X mode : Str) :
    fetchDataFromAPI a k w url X mode = fetchDataFromAPI b k w url X mode := by
  have hc : a.clock k = b.clock k := by rw [hab.1]
  have hf := hab.2 url k
  unfold fetchDataFromAPI
  cases ha : a.http url k <;> cases hb : b.http url k <;>
    simp only [ha, hb, FetchOutcome.forget, FetchOutcome.getFailed.injEq,
      FetchOutcome.readFailed.injEq, reduceCtorEq] at hf <;>
    simp only [hf, hc]

theorem mainLoop_independent (a b : Env) (hab : SameButPayload a b) (cfg : Configuration)
    (n k : Nat) (w : World) : mainLoop a cfg n k w = mainLoop b cfg n k w := by
  induction n generalizing k w with
  | zero => rfl
  | succ n ih =>
    rw [mainLoop, mainLoop]
    have : mainCycle a cfg k w = mainCycle b cfg k w := by
      unfold mainCycle
      rw [fetch_independent a b hab]
    rw [this]
    exact ih _ _

theorem runLoop_independent (a b : Env) (hab : SameButPayload a b) (cfg : Configuration)
    (N i : Nat) (w : World) : runLoop a cfg N i w = runLoop b cfg N i w := by
  induction N generalizing i w with
  | zero => rfl
  | succ n ih =>
    rw [runLoop, runLoop, fetch_independent a b hab]
    split
    · rfl
    · exact ih _ _

theorem save_of_open_error (now : Time) (fs : FS) (P X mode : Str) (e : Errno)
    (h : ∀ flags, OpenFile fs (targetPath now X mode) flags = (.error e, fs)) :
    saveDataToFile now fs P X mode = (some e, fs) := by
  have ho : openOutputFile now fs X mode = (.error e, fs) := by
    unfold openOutputFile
    simp only []
    split <;> exact h _
  unfold saveDataToFile
  rw [ho]

theorem OpenFile_unresolved (fs : FS) (X : Str) (flags : OpenFlags) (e : Errno)
    (hr : resolveEntry fs X = .error e) : OpenFile fs X flags = (.error e, fs) := by
  unfold OpenFile
  rw [hr]

theorem OpenFile_directory (fs : FS) (X : Str) (flags : OpenFlags) (d : List Str) (n : Str)
    (hr : resolveEntry fs X = .ok (d, n)) (hd : fs.lookup (d ++ [n]) = some Node.dir) :
    OpenFile fs X flags = (.error Errno.EISDIR, fs) := by
  unfold OpenFile
  rw [hr]
  simp only []
  rw [hd]

/-- A successful save in a mode other than `create` leaves the payload at the
end of the file, and as its whole content unless the mode is `append`. -/
theorem save_success_read (now : Time) (fs : FS) (P X mode : Str)
    (hc : mode ≠ CreateNewOutput) (h : (saveDataToFile now fs P X mode).1 = none) :
    ∃ c, ReadFile (saveDataToFile now fs P X mode).2 X = .ok (c ++ P) ∧
      (mode ≠ AppendToOutput → c = []) := by
  have htp : targetPath now X mode = X := by simp [targetPath, hc]
  cases hr : resolveEntry fs X with
  | error e =>
    exfalso
    rw [save_of_open_error now fs P X mode e
      (fun flags => by rw [htp]; exact OpenFile_unresolved fs X flags e hr)] at h
    simp at h
  | ok r =>
    obtain ⟨d, n⟩ := r
    by_cases hd : fs.lookup (d ++ [n]) = some Node.dir
    · exfalso
      rw [save_of_open_error now fs P X mode Errno.EISDIR
        (fun flags => by rw [htp]; exact OpenFile_directory fs X flags d n hr hd)] at h
      simp at h
    · by_cases ha : mode = AppendToOutput
      · subst ha
        rw [save_append now fs X P d n hr hd]
        exact ⟨_, readFile_set fs X _ d n hr hd, fun h' => absurd rfl h'⟩
      · rw [save_overwrite now fs X P mode d n hc ha hr hd]
        exact ⟨[], readFile_set fs X _ d n hr hd, fun _ => rfl⟩

theorem runLoop_success_read (env : Env) (cfg : Configuration)
    (hc : cfg.OutputMode ≠ CreateNewOutput) (N i : Nat) (w : World) (hN : 0 < N)
    (h : (runLoop env cfg N i w).1 = none) :
    ∃ c, ReadFile (runLoop env cfg N i w).2.fs cfg.OutputFile = .ok (c ++ placeholder) ∧
      (cfg.OutputMode ≠ AppendToOutput → c = []) := by
  induction N generalizing i w with
  | zero => omega
  | succ n ih =>
    rw [runLoop] at h ⊢
    cases hf : fetchDataFromAPI env i w cfg.APIURL cfg.OutputFile cfg.OutputMode with
    | mk err w1 =>
      rw [hf] at h
      cases err with
      | some e => simp at h
      | none =>
        simp only [] at h ⊢
        by_cases hn : n = 0
        · subst hn
          simp only [runLoop]
          obtain ⟨s1, s2⟩ := fetch_success env i w cfg.APIURL cfg.OutputFile cfg.OutputMode
            (by rw [hf])
          rw [hf] at s2
          simp only at s2
          have : (w1.emit (Event.sleep (sleepDuration cfg.Frequency))).fs = w1.fs := rfl
          rw [this, s2]
          exact save_success_read _ _ _ _ _ hc s1
        · exact ih _ _ (by omega) h

theorem runApplication_independent (a b : Env) (hab : SameButPayload a b) (cfg : Configuration)
    (N : Nat) (w : World) : runApplication a N cfg w = runApplication b N cfg w := by
  unfold runApplication
  simp only []
  split
  · rfl
  · exact runLoop_independent a b hab cfg N 0 _

theorem main_independent (a b : Env) (hab : SameButPayload a b) (cfg : Configuration)
    (n : Nat) (w : World) : main a cfg n w = main b cfg n w := by
  unfold main
  simp only []
  split
  · rfl
  · rw [mainLoop_independent a b hab]

theorem runApplication_success_read (env : Env) (cfg : Configuration)
    (hc : cfg.OutputMode ≠ CreateNewOutput) (N : Nat) (w : World) (hN : 0 < N)
    (h : (runApplication env N cfg w).1 = none) :
    ∃ c, ReadFile (runApplication env N cfg w).2.fs cfg.OutputFile = .ok (c ++ placeholder) ∧
      (cfg.OutputMode ≠ AppendToOutput → c = []) := by
  unfold runApplication at h ⊢
  simp only [] at h ⊢
  split at h
  · simp at h
  · exact runLoop_success_read env cfg hc N 0 _ hN h

/-- C9: what `fetchDataFromAPI` saves after a successful fetch is the fixed
20-byte placeholder, whatever the body fetched: it calls `saveDataToFile` once,
with the placeholder, the configured path and the configured mode; runs in
environments that differ only in the bodies fetched are equal, filesystem
included; and after a bounded run of at least one cycle that returns no error
in mode `overwrite` or `append`, the output file exists and its content, which
ends with the placeholder, is not empty. -/
theorem fetched_content_ignored (env : Env) (cfg : Configuration) :
    placeholder = bytes "API response ignored" ∧ placeholder.length = 20 ∧
    (∀ k w B, env.http cfg.APIURL k = FetchOutcome.body B →
      (fetchDataFromAPI env k w cfg.APIURL cfg.OutputFile cfg.OutputMode).2.fs =
        (saveDataToFile (env.clock k) w.fs placeholder cfg.OutputFile cfg.OutputMode).2 ∧
      (fetchDataFromAPI env k w cfg.APIURL cfg.OutputFile cfg.OutputMode).1 =
        (saveDataToFile (env.clock k) w.fs placeholder cfg.OutputFile cfg.OutputMode).1.map
          Err.sys ∧
      ∃ evs, (fetchDataFromAPI env k w cfg.APIURL cfg.OutputFile cfg.OutputMode).2.trace =
          w.trace ++ [Event.httpGet cfg.APIURL,
            Event.save placeholder cfg.OutputFile cfg.OutputMode] ++ evs ∧
        evs.countP Event.isSave = 0) ∧
    (∀ env2, SameButPayload env env2 → ∀ N w,
      runApplication env N cfg w = runApplication env2 N cfg w ∧
      main env cfg N w = main env2 cfg N w) ∧
    (∀ N w, 0 < N → cfg.OutputMode = OverwriteOutput ∨ cfg.OutputMode = AppendToOutput →
      (runApplication env N cfg w).1 = none →
      ∃ c, ReadFile (runApplication env N cfg w).2.fs cfg.OutputFile = .ok (c ++ placeholder) ∧
        c ++ placeholder ≠ [] ∧ (cfg.OutputMode = OverwriteOutput → c = [])) := by
  refine ⟨rfl, placeholder_length, fun k w B hB => fetch_of_body env k w _ _ _ B hB,
    fun env2 h N w => ⟨runApplication_independent env env2 h cfg N w,
      main_independent env env2 h cfg N w⟩, ?_⟩
  intro N w hN hmode h
  have hc : cfg.OutputMode ≠ CreateNewOutput := by
    rcases hmode with hm | hm <;> rw [hm]
    · exact overwrite_ne_create
    · exact append_ne_create
  obtain ⟨c, h1, h2⟩ := runApplication_success_read env cfg hc N w hN h
  refine ⟨c, h1, ?_, fun hm => h2 (by rw [hm]; exact overwrite_ne_append)⟩
  intro h0
  exact placeholder_ne_nil (List.append_eq_nil.mp h0).2

/-- C9 at work: online, the bounded run of five cycles in mode `overwrite`
returns no error and leaves the placeholder in `output.json`, whether the
bodies fetched were jokes or something else. -/
theorem fetched_content_ignored_witness :
    SameButPayload (onlineEnv (bytes "joke")) (onlineEnv (bytes "other")) ∧
      (runApplication (onlineEnv (bytes "joke")) MAX_ITERATIONS (sampleConfig OverwriteOutput)
        emptyWorld).1 = none ∧
      ReadFile (runApplication (onlineEnv (bytes "joke")) MAX_ITERATIONS
        (sampleConfig OverwriteOutput) emptyWorld).2.fs (bytes "output.json") =
        .ok placeholder ∧
      runApplication (onlineEnv (bytes "joke")) MAX_ITERATIONS (sampleConfig OverwriteOutput)
          emptyWorld =
        runApplication (onlineEnv (bytes "other")) MAX_ITERATIONS (sampleConfig OverwriteOutput)
          emptyWorld :=
  ⟨⟨rfl, fun _ _ => rfl⟩, by decide, by decide,
    ((fetched_content_ignored (onlineEnv (bytes "joke")) (sampleConfig OverwriteOutput)).2.2.2.1
      (onlineEnv (bytes "other")) ⟨rfl, fun _ _ => rfl⟩ MAX_ITERATIONS emptyWorld).1⟩

/-! ## Fourteen digits -/

theorem digit_range : ∀ k : Nat, k < 10 →
    (48 : Byte) ≤ 48 + k.toUInt8 ∧ 48 + k.toUInt8 ≤ (57 : Byte) := by
  decide

theorem decimalRev_length (k fuel n : Nat) (h : n < 10 ^ (k + 1)) :
    (decimalRev fuel n).length ≤ k + 1 := by
  induction k generalizing fuel n with
  | zero =>
    cases fuel with
    | zero => simp [decimalRev]
    | succ f =>
      rw [decimalRev]
      have : n < 10 := by simpa using h
      simp [this]
  | succ k ih =>
    cases fuel with
    | zero => simp [decimalRev]
    | succ f =>
      rw [decimalRev]
      by_cases hn : n < 10
      · simp [hn]
      · simp only [hn, if_false, List.length_cons]
        have : n / 10 < 10 ^ (k + 1) := by
          rw [Nat.div_lt_iff_lt_mul (by decide)]
          rw [pow_succ] at h
          exact h
        have := ih f (n / 10) this
        omega

theorem decimalRev_digits (fuel n : Nat) :
    ∀ b ∈ decimalRev fuel n, (48 : Byte) ≤ b ∧ b ≤ (57 : Byte) := by
  induction fuel generalizing n with
  | zero => simp [decimalRev]
  | succ f ih =>
    rw [decimalRev]
    intro b hb
    simp only [List.mem_cons] at hb
    rcases hb with rfl | hb
    · exact digit_range _ (Nat.mod_lt _ (by decide))
    · split at hb
      · simp at hb
      · exact ih _ b hb

theorem appendInt_digits (x : Int) (k : Nat) (h0 : 0 ≤ x) (h1 : x < 10 ^ (k + 1)) :
    (appendInt x (k + 1)).length = k + 1 ∧
      ∀ b ∈ appendInt x (k + 1), (48 : Byte) ≤ b ∧ b ≤ (57 : Byte) := by
  have hlen : (decimal x.natAbs).length ≤ k + 1 := by
    unfold decimal
    rw [List.length_reverse]
    apply decimalRev_length
    have : (x.natAbs : Int) < 10 ^ (k + 1) := by
      rw [Int.natAbs_of_nonneg h0]; exact h1
    exact_mod_cast this
  have hneg : ¬ x < 0 := by omega
  unfold appendInt
  simp only [hneg, if_false, List.nil_append, List.length_append, List.length_replicate]
  refine ⟨by omega, fun b hb => ?_⟩
  simp only [List.mem_append] at hb
  rcases hb with hb | hb
  · rw [List.eq_of_mem_replicate hb]; decide
  · unfold decimal at hb
    exact decimalRev_digits _ _ b (List.mem_reverse.mp hb)

/-- A reading whose local year is between 0 and 9999 has a timestamp of
fourteen decimal digits. -/
theorem formatTimestamp_digits (t : Time) (h0 : 0 ≤ (yearAndDay t.absDays).1)
    (h1 : (yearAndDay t.absDays).1 ≤ 9999) :
    (formatTimestamp t).length = 14 ∧
      ∀ b ∈ formatTimestamp t, (48 : Byte) ≤ b ∧ b ≤ (57 : Byte) := by
  obtain ⟨_, _, _, _, _, _, _, _, _, _, hy, hy', _, _⟩ := yearAndDay_spec t.absDays
  have hs : 0 ≤ t.secondOfDay ∧ t.secondOfDay < 86400 := by
    unfold Time.secondOfDay; omega
  have hm := monthAndDay_int (isLeap (yearAndDay t.absDays).1) _ hy hy'
  have a1 := appendInt_digits (yearAndDay t.absDays).1 3 h0 (by omega)
  have a2 := appendInt_digits (monthAndDay (isLeap (yearAndDay t.absDays).1)
    (yearAndDay t.absDays).2).1 1 (by omega) (by omega)
  have a3 := appendInt_digits (monthAndDay (isLeap (yearAndDay t.absDays).1)
    (yearAndDay t.absDays).2).2 1 (by omega) (by omega)
  have a4 := appendInt_digits (t.secondOfDay / 3600) 1 (by omega) (by omega)
  have a5 := appendInt_digits (t.secondOfDay % 3600 / 60) 1 (by omega) (by omega)
  have a6 := appendInt_digits (t.secondOfDay % 60) 1 (by omega) (by omega)
  simp only [Nat.reduceAdd] at a1 a2 a3 a4 a5 a6
  unfold formatTimestamp
  simp only [List.length_append, List.mem_append]
  refine ⟨by omega, fun b hb => ?_⟩
  rcases hb with ((((hb | hb) | hb) | hb) | hb) | hb
  · exact a1.2 b hb
  · exact a2.2 b hb
  · exact a3.2 b hb
  · exact a4.2 b hb
  · exact a5.2 b hb
  · exact a6.2 b hb

/-- C3: in mode `create`, `openOutputFile` opens, for `out.json`, the file named
`out_` + timestamp + `.json`, and for `out` the file named `out_` + timestamp,
which does not end in a dot; for every path it opens, with truncation, the
join of the path's directory with stem + `_` + timestamp + extension, where the
stem followed by the extension is the base name. The timestamp consists of
fourteen decimal digits when the local year of the reading has four. -/
theorem create_naming (now : Time) :
    targetPath now (bytes "out.json") CreateNewOutput =
        bytes "out_" ++ formatTimestamp now ++ bytes ".json" ∧
      targetPath now (bytes "out") CreateNewOutput = bytes "out_" ++ formatTimestamp now ∧
      (targetPath now (bytes "out") CreateNewOutput).getLast? ≠ some dot ∧
      (∀ (fs : FS) (path : Str),
        (Base path).take ((Base path).length - (Ext path).length) ++ Ext path = Base path ∧
        targetPath now path CreateNewOutput =
          Join [Dir path, (Base path).take ((Base path).length - (Ext path).length) ++
            [underscore] ++ formatTimestamp now ++ Ext path] ∧
        openOutputFile now fs path CreateNewOutput =
          OpenFile fs (targetPath now path CreateNewOutput) { append := false, trunc := true } ∧
        ∀ f, (openOutputFile now fs path CreateNewOutput).1 = .ok f →
          f.name = targetPath now path CreateNewOutput) ∧
      (0 ≤ (yearAndDay now.absDays).1 → (yearAndDay now.absDays).1 ≤ 9999 →
        (formatTimestamp now).length = 14 ∧
        ∀ b ∈ formatTimestamp now, (48 : Byte) ≤ b ∧ b ≤ (57 : Byte)) := by
  obtain ⟨h1, h2, h3, h4⟩ := targetPath_naming now
  exact ⟨h1, h2, h3, h4, formatTimestamp_digits now⟩

/-- C3 at work: at 2023-11-14 22:13:20 UTC the files are
`out_20231114221320.json` and `out_20231114221320`. -/
theorem create_naming_witness :
    targetPath ⟨1700000000, 0⟩ (bytes "out.json") CreateNewOutput =
        bytes "out_20231114221320.json" ∧
      targetPath ⟨1700000000, 0⟩ (bytes "out") CreateNewOutput = bytes "out_20231114221320" ∧
      (formatTimestamp ⟨1700000000, 0⟩).length = 14 := by
  have h := create_naming ⟨1700000000, 0⟩
  have hT : formatTimestamp ⟨1700000000, 0⟩ = bytes "20231114221320" := by decide
  refine ⟨?_, ?_, (h.2.2.2.2 (by decide) (by decide)).1⟩
  · rw [h.1, hT]; decide
  · rw [h.2.1, hT]; decide

/-! ## The library model on documented values -/

/-- The model of `filepath.Clean` on cases of the library's own test table. -/
theorem Clean_table :
    Clean (bytes "") = bytes "." ∧ Clean (bytes "abc") = bytes "abc" ∧
      Clean (bytes "abc//def//ghi") = bytes "abc/def/ghi" ∧
      Clean (bytes "abc/./def") = bytes "abc/def" ∧
      Clean (bytes "abc/") = bytes "abc" ∧
      Clean (bytes "abc/def/../ghi/../jkl") = bytes "abc/jkl" ∧
      Clean (bytes "abc/def/../../..") = bytes ".." ∧
      Clean (bytes "/abc/def/../../..") = bytes "/" ∧
      Clean (bytes "abc/def/../../../ghi/jkl/../../../mno") = bytes "../../mno" ∧
      Clean (bytes "/../abc") = bytes "/abc" ∧
      Clean (bytes "../..") = bytes "../.." ∧
      Clean (bytes "abc/./../def") = bytes "def" ∧
      Clean (bytes "//abc") = bytes "/abc" := by
  decide

/-- The models of `filepath.Dir`, `Base`, `Ext` and `Join` on cases of the
library's own test tables. -/
theorem Dir_Base_Ext_Join_table :
    Dir (bytes "") = bytes "." ∧ Dir (bytes ".") = bytes "." ∧ Dir (bytes "/.") = bytes "/" ∧
      Dir (bytes "/") = bytes "/" ∧ Dir (bytes "/foo") = bytes "/" ∧
      Dir (bytes "x/") = bytes "x" ∧ Dir (bytes "abc") = bytes "." ∧
      Dir (bytes "abc/def") = bytes "abc" ∧ Dir (bytes "a/b/.x") = bytes "a/b" ∧
      Dir (bytes "a/b/c.x") = bytes "a/b" ∧
      Base (bytes "") = bytes "." ∧ Base (bytes ".") = bytes "." ∧
      Base (bytes "/.") = bytes "." ∧ Base (bytes "/") = bytes "/" ∧
      Base (bytes "////") = bytes "/" ∧ Base (bytes "x/") = bytes "x" ∧
      Base (bytes "abc/def") = bytes "def" ∧ Base (bytes "a/b/.x") = bytes ".x" ∧
      Base (bytes "a/b/c.") = bytes "c." ∧
      Ext (bytes "path.go") = bytes ".go" ∧ Ext (bytes "path.pb.go") = bytes ".go" ∧
      Ext (bytes "a.dir/b") = bytes "" ∧ Ext (bytes "a.dir/b.go") = bytes ".go" ∧
      Ext (bytes "a.dir/") = bytes "" ∧
      Join [bytes "a", bytes "b"] = bytes "a/b" ∧ Join [bytes "a", bytes ""] = bytes "a" ∧
      Join [bytes "", bytes "b"] = bytes "b" ∧ Join [bytes "/", bytes "a"] = bytes "/a" ∧
      Join [bytes "/", bytes ""] = bytes "/" ∧ Join [bytes "a/", bytes "b"] = bytes "a/b" ∧
      Join [bytes "", bytes ""] = bytes "" := by
  decide

/-- The model of `Format("20060102150405")` on known instants, among them a
leap day, the last second of a year and an instant east of UTC. -/
theorem formatTimestamp_table :
    formatTimestamp ⟨0, 0⟩ = bytes "19700101000000" ∧
      formatTimestamp ⟨951782400, 0⟩ = bytes "20000229000000" ∧
      formatTimestamp ⟨1700000000, 0⟩ = bytes "20231114221320" ∧
      formatTimestamp ⟨1709294400, 0⟩ = bytes "20240301120000" ∧
      formatTimestamp ⟨1735689599, 0⟩ = bytes "20241231235959" ∧
      formatTimestamp ⟨4107542400, 0⟩ = bytes "21000301000000" ∧
      formatTimestamp ⟨1735689599, 3600⟩ = bytes "20250101005959" ∧
      formatTimestamp ⟨-1, 0⟩ = bytes "19691231235959" := by
  decide

/-- The duration of the sleep for the default frequency, and beyond the range
of a 64-bit count of nanoseconds. -/
theorem sleepDuration_table :
    sleepDuration 60 = 60000000000 ∧ sleepDuration 9223372037 = -9223372036709551616 := by
  decide

end DataFetcher
